import Mathlib

/-! A shallow embedding of `mm.c` (segregated-free-list allocator).

The heap is a word-addressed memory: `mem a` is the 64-bit word stored at the
byte address `a` (every access of `mm.c` is an 8-byte access at an 8-byte
aligned address).  `size_t` arithmetic is arithmetic modulo `2^64`; pointer
arithmetic is arithmetic on natural-number addresses.
-/

namespace MM

/-! ## Constants -/

/-- The constant `ALIGNMENT`. -/
def ALIGNMENT : Nat := 16

/-- The constant `WSIZE`: word and header/footer size in bytes. -/
def WSIZE : Nat := 8

/-- The constant `DSIZE`: double word size in bytes. -/
def DSIZE : Nat := 16

/-- The number of values of a `size_t` / `uint64_t`, `2^64`. -/
def SIZE_MOD : Nat := 18446744073709551616

/-- Addition of two `size_t` values, as the machine performs it. -/
def add64 (a b : Nat) : Nat := (a + b) % SIZE_MOD

/-- Subtraction of two `size_t` values, as the machine performs it. -/
def sub64 (a b : Nat) : Nat := (a % SIZE_MOD + SIZE_MOD - b % SIZE_MOD) % SIZE_MOD

/-! ## The allocator state -/

/-- The state the allocator works on: the provider's region (`brk` is the
current end of the heap, `max` the address the provider cannot grow past),
the word memory, and the global `heap_listp`.  The global `root_array` is
assigned once, in `mm_init`, to `heap_listp + i * WSIZE`; see `root_array`. -/
structure Heap where
  /-- The current end of the heap (first byte past it). -/
  brk : Nat
  /-- The provider cannot extend the heap past this address. -/
  max : Nat
  /-- The word stored at each byte address. -/
  mem : Nat → Nat
  /-- The global `heap_listp`. -/
  heap_listp : Nat

/-- The global `root_array[i]`, which `mm_init` sets to
`heap_listp + i * WSIZE` and nothing changes afterwards. -/
def root_array (s : Heap) (i : Nat) : Nat := s.heap_listp + i * WSIZE

/-- Modelled from the spec: the page provider's `extend(bytes)` (`mm_sbrk`,
declared in `memlib.h`): it grows the heap by exactly `bytes` bytes and
returns the pre-extension end, or fails (`none`, the sentinel `(void *)-1`)
when the region cannot grow that far. -/
def mm_sbrk (s : Heap) (incr : Nat) : Option (Nat × Heap) :=
  if s.brk + incr ≤ s.max then some (s.brk, { s with brk := s.brk + incr }) else none

/-! ## Small helpers -/

/-- The helper `align`: rounds up to the nearest multiple of `ALIGNMENT`, in
`size_t` arithmetic. -/
def align (x : Nat) : Nat :=
  (ALIGNMENT * (((x + ALIGNMENT - 1) % SIZE_MOD) / ALIGNMENT)) % SIZE_MOD

/-- The helper `put`: store the word `val` at `p`. -/
def put (s : Heap) (p val : Nat) : Heap :=
  { s with mem := fun a => if a = p then val % SIZE_MOD else s.mem a }

/-- The helper `pack`: `size | alloc`. -/
def pack (size alloc : Nat) : Nat := size ||| alloc

/-- The helper `get_header`: the header of the block whose payload is `bp`. -/
def get_header (bp : Nat) : Nat := bp - WSIZE

/-- The helper `get_size`: the word at `p` with its low four bits cleared
(`& ~0xf`). -/
def get_size (s : Heap) (p : Nat) : Nat := s.mem p &&& 0xFFFFFFFFFFFFFFF0

/-- The helper `get_footer`. -/
def get_footer (s : Heap) (bp : Nat) : Nat :=
  bp + get_size s (get_header bp) - DSIZE

/-- The helper `get_nextblk`. -/
def get_nextblk (s : Heap) (bp : Nat) : Nat :=
  bp + get_size s (get_header bp)

/-- The helper `get_prevblk`: reads the size in the previous block's footer. -/
def get_prevblk (s : Heap) (bp : Nat) : Nat :=
  bp - get_size s (bp - DSIZE)

/-- The helper `get_alloc`: bit 0 of the word at `p`. -/
def get_alloc (s : Heap) (p : Nat) : Bool := s.mem p &&& 1 != 0

/-- The helper `set_ptr`: store a pointer as a word. -/
def set_ptr (s : Heap) (p val : Nat) : Heap :=
  { s with mem := fun a => if a = p then val % SIZE_MOD else s.mem a }

/-- The helper `get_ptr`: read a word as a pointer. -/
def get_ptr (s : Heap) (p : Nat) : Nat := s.mem p

/-- The helper `set_prevalloc`: or bit 1 into the word at `p`. -/
def set_prevalloc (s : Heap) (p : Nat) : Heap :=
  { s with mem := fun a => if a = p then (s.mem p ||| 2) % SIZE_MOD else s.mem a }

/-- The helper `get_prevalloc`: bit 1 of the word at `p`. -/
def get_prevalloc (s : Heap) (p : Nat) : Bool := s.mem p &&& 2 != 0

/-- The function `pick_root`: the size class of a block size. -/
def pick_root (size : Nat) : Nat :=
  if size ≤ 32 then 0
  else if size ≤ 64 then 1
  else if size ≤ 128 then 2
  else if size ≤ 256 then 3
  else if size ≤ 512 then 4
  else if size ≤ 1024 then 5
  else if size ≤ 8192 then 6
  else if size ≤ 16384 then 7
  else if size ≥ 16384 then 8
  else 8

/-! ## Free-list operations -/

/-- The function `reset_free`: unlink `bp` from the list of its class. -/
def reset_free (s : Heap) (bp : Nat) : Heap :=
  let prev := get_ptr s bp
  let next := get_ptr s (bp + WSIZE)
  let root_index := pick_root (get_size s (get_header bp))
  let root := root_array s root_index
  if prev = 0 ∧ next = 0 then s
  else if prev = root then
    let s1 := if next ≠ 0 then set_ptr s next root else s
    set_ptr s1 root next
  else
    let s1 := if next ≠ 0 then set_ptr s next prev else s
    set_ptr s1 (prev + WSIZE) next

/-- The function `insert_free`: put `new_bp` on the list of the class of
`insert_size`. -/
def insert_free (s : Heap) (new_bp insert_size : Nat) : Heap :=
  let root_index := pick_root insert_size
  let insert_root := root_array s root_index
  let old_prev := get_ptr s insert_root
  if old_prev = 0 then
    let s1 := set_ptr s insert_root new_bp
    let s2 := set_ptr s1 new_bp insert_root
    set_ptr s2 (new_bp + WSIZE) 0
  else
    let new_size := get_size s (get_header new_bp)
    let old_size := get_size s (get_header old_prev)
    if new_size ≤ old_size then
      let s1 := set_ptr s insert_root new_bp
      let s2 := set_ptr s1 new_bp insert_root
      let s3 := set_ptr s2 (new_bp + WSIZE) old_prev
      set_ptr s3 old_prev new_bp
    else if new_size > old_size then
      let old_next := old_prev + WSIZE
      let old_nextblk := get_ptr s old_next
      let s1 := set_ptr s old_next new_bp
      let s2 := set_ptr s1 new_bp old_prev
      let s3 := set_ptr s2 (new_bp + WSIZE) 0
      if old_nextblk ≠ 0 then
        let s4 := set_ptr s3 (new_bp + WSIZE) old_nextblk
        set_ptr s4 old_nextblk new_bp
      else s3
    else s

/-! ## Coalescing, heap extension, search, placement -/

/-- The function `coalesce`: merge the free block `bp` with its free
physical neighbours; returns the merged block's pointer. -/
def coalesce (s : Heap) (bp : Nat) : Nat × Heap :=
  let prev_alloc := get_alloc s (bp - DSIZE)
  let next_alloc := get_alloc s (get_header (get_nextblk s bp))
  if !prev_alloc && next_alloc then
    let prev_blk := get_prevblk s bp
    let curr_size := get_size s (get_header bp)
    let prev_size := get_size s (get_header prev_blk)
    let coalesce_size := add64 curr_size prev_size
    let s1 := reset_free s prev_blk
    let s2 := put s1 (get_header prev_blk) (pack coalesce_size 0)
    let s3 := put s2 (get_footer s2 bp) (pack coalesce_size 0)
    (prev_blk, s3)
  else if prev_alloc && !next_alloc then
    let next_blk := get_nextblk s bp
    let curr_size := get_size s (get_header bp)
    let next_size := get_size s (get_header next_blk)
    let coalesce_size := add64 curr_size next_size
    let s1 := reset_free s next_blk
    let s2 := put s1 (get_header bp) (pack coalesce_size 0)
    let s3 := put s2 (get_footer s2 next_blk) (pack coalesce_size 0)
    (bp, s3)
  else if !prev_alloc && !next_alloc then
    let prev_blk := get_prevblk s bp
    let next_blk := get_nextblk s bp
    let curr_size := get_size s (get_header bp)
    let prev_size := get_size s (get_header prev_blk)
    let next_size := get_size s (get_header next_blk)
    let coalesce_size := add64 (add64 curr_size prev_size) next_size
    let s1 := reset_free s prev_blk
    let s2 := reset_free s1 next_blk
    let s3 := put s2 (get_header prev_blk) (pack coalesce_size 0)
    let s4 := put s3 (get_footer s3 next_blk) (pack coalesce_size 0)
    (prev_blk, s4)
  else (bp, s)

/-- The function `extend_heap`: grow the heap by `align(words)` bytes (at
least 32) and lay a free block over the new region; the pointer `0` is the
`NULL` result, returned when the provider fails. -/
def extend_heap (s : Heap) (words : Nat) : Nat × Heap :=
  let size := if align words < WSIZE * 4 then WSIZE * 4 else align words
  match mm_sbrk s size with
  | none => (0, s)
  | some (bp, s0) =>
    let s1 := put s0 (get_header bp) (pack size 0)
    let s2 := set_ptr s1 bp 0
    let s3 := set_ptr s2 (bp + WSIZE) 0
    let s4 := put s3 (get_footer s3 bp) (pack size 0)
    let s5 := put s4 (get_header (get_nextblk s4 bp)) (pack 0 3)
    (bp, s5)

/-- The inner `while` loop of `find_free_list`: walk one list from `iter`.
The result `none` means the walk did not end within `fuel` nodes; `some 0`
means the list ended without a fit. -/
def find_in_list (s : Heap) (require_size : Nat) : Nat → Nat → Option Nat
  | 0, _ => none
  | fuel + 1, iter =>
    if iter = 0 then some 0
    else if get_size s (get_header iter) ≥ require_size then some iter
    else find_in_list s require_size fuel (get_ptr s (iter + WSIZE))

/-- The outer `for` loop of `find_free_list`, for the `n` classes
`i, i+1, ..., i+n-1`. -/
def find_from_root (s : Heap) (require_size fuel : Nat) : Nat → Nat → Option Nat
  | 0, _ => some 0
  | n + 1, i =>
    match find_in_list s require_size fuel (get_ptr s (root_array s i)) with
    | none => none
    | some 0 => find_from_root s require_size fuel n (i + 1)
    | some (p + 1) => some (p + 1)

/-- The function `find_free_list`: first fit over the classes
`pick_root(require_size) .. 8`; `some 0` is the `NULL` result and `none`
means that a list walk did not end within `fuel` nodes. -/
def find_free_list (s : Heap) (fuel require_size : Nat) : Option Nat :=
  let root_index := pick_root require_size
  find_from_root s require_size fuel (9 - root_index) root_index

/-- The function `allocate`: place `requested_size` payload bytes in the
free block `bp`, splitting it when at least `4 * WSIZE` bytes remain. -/
def allocate (s : Heap) (bp requested_size : Nat) : Heap :=
  let total_size := get_size s (get_header bp)
  let remain_size := sub64 (sub64 total_size requested_size) DSIZE
  let allocate_size := add64 requested_size DSIZE
  if remain_size ≥ WSIZE * 4 then
    let s1 := reset_free s bp
    let s2 := put s1 (get_header bp) (pack allocate_size 1)
    let s3 := put s2 (bp + allocate_size - DSIZE) (pack allocate_size 1)
    let remainblk := bp + allocate_size
    let s4 := put s3 (get_header remainblk) (pack remain_size 0)
    let s5 := put s4 (get_footer s4 remainblk) (pack remain_size 0)
    let s6 := set_ptr s5 remainblk 0
    let s7 := set_ptr s6 (remainblk + WSIZE) 0
    let r := coalesce s7 remainblk
    insert_free r.2 r.1 (get_size r.2 (get_header r.1))
  else
    let s1 := reset_free s bp
    let s2 := put s1 (get_header bp) (pack total_size 1)
    put s2 (get_footer s2 bp) (pack total_size 1)

/-! ## The public functions -/

/-- The function `mm_init`: `false` on error, `true` on success. -/
def mm_init (s : Heap) : Bool × Heap :=
  match mm_sbrk s (12 * WSIZE) with
  | none => (false, s)
  | some (p, s0) =>
    let s1 := { s0 with heap_listp := p }
    let s2 := (List.range 9).foldl (fun t i => put t (root_array t i) 0) s1
    let s3 := put s2 (s2.heap_listp + 9 * WSIZE) 0
    let s4 := put s3 (s3.heap_listp + 10 * WSIZE) (pack DSIZE 1)
    let s5 := put s4 (s4.heap_listp + 11 * WSIZE) (pack DSIZE 1)
    let s6 := put s5 (s5.heap_listp + 12 * WSIZE) (pack 0 3)
    let r := extend_heap s6 512
    if r.1 = 0 then (false, r.2)
    else (true, insert_free r.2 r.1 512)

/-- The function `malloc`.  The pointer `0` is `NULL`; the result `none`
means that the free-list search did not end within `fuel` nodes. -/
def malloc (fuel : Nat) (s : Heap) (size : Nat) : Option (Nat × Heap) :=
  if size ≤ 0 then some (0, s)
  else
    let align_side := align size
    match find_free_list s fuel (add64 align_side DSIZE) with
    | none => none
    | some (bp + 1) => some (bp + 1, allocate s (bp + 1) align_side)
    | some 0 =>
      let total_size := add64 align_side DSIZE
      let r := extend_heap s total_size
      if r.1 = 0 then some (0, r.2)
      else
        let s2 := put r.2 (get_header r.1) (pack total_size 1)
        let s3 := put s2 (get_footer s2 r.1) (pack total_size 1)
        some (r.1, s3)

/-- The function `free`. -/
def free (s : Heap) (ptr : Nat) : Heap :=
  if ptr = 0 then s
  else
    let curr_header := get_header ptr
    let next_blk := get_nextblk s ptr
    if !get_alloc s curr_header then s
    else
      let block_size := get_size s curr_header
      let s1 := put s curr_header (pack block_size 0)
      let s2 := put s1 (get_footer s1 ptr) (pack block_size 0)
      let s3 := set_prevalloc s2 (next_blk - 8)
      let s4 := set_ptr s3 ptr 0
      let s5 := set_ptr s4 (ptr + WSIZE) 0
      let r := coalesce s5 ptr
      insert_free r.2 r.1 (get_size r.2 (get_header r.1))

/-- Modelled from the spec: the byte-copy primitive `memcopy(dst, src, n)`
(`mm_memcpy`, from `memlib`), on the word memory: the words that lie wholly
inside the `n` bytes are copied, and of a last, partly covered word the low
`n % 8` bytes (the machine is little-endian) are.  Source and destination do
not overlap in a correct use. -/
def mm_memcpy (s : Heap) (dst src n : Nat) : Heap :=
  { s with mem := fun a =>
      if dst ≤ a ∧ a < dst + n ∧ (a - dst) % 8 = 0 then
        let off := a - dst
        if off + 8 ≤ n then s.mem (src + off)
        else
          let r := n - off
          s.mem (src + off) % 256 ^ r + s.mem a / 256 ^ r * 256 ^ r
      else s.mem a }

/-- The function `realloc`; `none` as for `malloc`. -/
def realloc (fuel : Nat) (s : Heap) (oldptr size : Nat) : Option (Nat × Heap) :=
  if size = 0 then some (0, free s oldptr)
  else if oldptr = 0 then malloc fuel s size
  else
    let oldsize := get_size s (get_header oldptr)
    if oldsize = add64 size DSIZE then some (oldptr, s)
    else
      match malloc fuel s size with
      | none => none
      | some (0, s1) => some (0, s1)
      | some (newptr + 1, s1) =>
        let s2 :=
          if size < sub64 oldsize DSIZE then mm_memcpy s1 (newptr + 1) oldptr size
          else if size > sub64 oldsize DSIZE then mm_memcpy s1 (newptr + 1) oldptr oldsize
          else s1
        some (newptr + 1, free s2 oldptr)

/-- The byte stored at the byte address `a` (little-endian words). -/
def byte_at (s : Heap) (a : Nat) : Nat := (s.mem (a - a % 8) / 256 ^ (a % 8)) % 256

/-! ## A concrete provider, for evaluating the code -/

/-- A provider whose empty region starts at the 16-byte-aligned address
`4096`, can grow by 64 KiB, and holds zero words. -/
def heap0 : Heap := { brk := 4096, max := 4096 + 65536, mem := fun _ => 0, heap_listp := 0 }

/-- The state after `mm_init()` on `heap0`. -/
def heap1 : Heap := (mm_init heap0).2

/-- A provider whose empty region starts at the 16-byte-aligned address
`192`, can grow by 64 KiB, and holds zero words. -/
def heap_low : Heap := { brk := 192, max := 192 + 65536, mem := fun _ => 0, heap_listp := 0 }

/-- The largest `size_t` value, `SIZE_MAX = 2^64 - 1`. -/
def SIZE_MAX : Nat := SIZE_MOD - 1


/-! ## The structure of a well-formed heap

The predicates below describe what the words of the heap look like between
two public calls: the blocks tile the region between the prologue and the
epilogue, and the nine class lists thread the free blocks. -/

/-- A block, as the boundary tags describe it: the payload pointer `addr`,
the total size (header and footer included) and the alloc bit. -/
structure Blk where
  /-- The payload pointer `bp` of the block. -/
  addr : Nat
  /-- The total size of the block. -/
  size : Nat
  /-- The alloc bit. -/
  alloc : Bool
  deriving DecidableEq, Repr

/-- `Tiles a bs e`: the blocks `bs`, in physical order, start at the payload
pointer `a`, each starts where the one before it ends, and the last one ends
at `e`. -/
def Tiles : Nat → List Blk → Nat → Prop
  | a, [], e => a = e
  | a, b :: t, e => b.addr = a ∧ Tiles (a + b.size) t e

/-- `BlockOk s b`: the header word (at `addr - 8`) and the footer word (at
`addr + size - 16`) of `b` both encode its size and alloc bit; the size is a
multiple of 16 and at least 32. -/
def BlockOk (s : Heap) (b : Blk) : Prop :=
  get_size s (get_header b.addr) = b.size ∧ get_alloc s (get_header b.addr) = b.alloc ∧
  get_size s (b.addr + b.size - DSIZE) = b.size ∧
  get_alloc s (b.addr + b.size - DSIZE) = b.alloc ∧
  32 ≤ b.size ∧ b.size % 16 = 0

/-- `Chain s prev cell l`: the word at `cell` points to the first node of
`l`, every node's first payload word points back (to `prev` for the first
node, to its predecessor otherwise), every node's second payload word points
to its successor, and the last one's is null. -/
def Chain (s : Heap) : Nat → Nat → List Nat → Prop
  | _, cell, [] => get_ptr s cell = 0
  | prev, cell, x :: t =>
    get_ptr s cell = x ∧ x ≠ 0 ∧ get_ptr s x = prev ∧ Chain s x (x + WSIZE) t

/-- `Cells r l a`: the address `a` is the root cell `r` or one of the two
link words of a node of `l`. -/
def Cells (r : Nat) (l : List Nat) (a : Nat) : Prop :=
  a = r ∨ ∃ z ∈ l, a = z ∨ a = z + 8

/-- The nodes of `l` lie at least 16 bytes apart. -/
def Spaced (l : List Nat) : Prop :=
  l.Pairwise (fun a b => a + 16 ≤ b ∨ b + 16 ≤ a)

/-- The two stores of `reset_free`: the successor `next` (when there is one)
gets the back pointer `prev`, and the word at `cell`, which pointed to the
unlinked node, gets `next`. -/
def unlink (s : Heap) (next prev cell : Nat) : Heap :=
  set_ptr (if next ≠ 0 then set_ptr s next prev else s) cell next

/-- The list of a class after `insert_free` has put `x` on it: `x` goes in
front of the head when its size is at most the head's, and right behind the
head otherwise. -/
def ins (s : Heap) (x : Nat) : List Nat → List Nat
  | [] => [x]
  | h :: t =>
    if get_size s (get_header x) ≤ get_size s (get_header h) then x :: h :: t
    else h :: x :: t

/-- No two physically adjacent blocks are both free. -/
def NoAdjFree (bs : List Blk) : Prop :=
  bs.Chain' (fun b c => b.alloc = true ∨ c.alloc = true)

/-- No two physically adjacent blocks are both free, except next to the
block at `x`. -/
def NoAdjFreeBut (x : Nat) (bs : List Blk) : Prop :=
  bs.Chain' (fun b c => b.alloc = true ∨ c.alloc = true ∨ b.addr = x ∨ c.addr = x)

/-- The geometry shared by every heap state between and inside public
calls: where the heap lies and how the blocks tile it. -/
structure Geom (s : Heap) (bs : List Blk) : Prop where
  /-- The heap start is 16-byte aligned. -/
  hl16 : s.heap_listp % 16 = 0
  /-- The heap start is not the null pointer. -/
  hlpos : 0 < s.heap_listp
  /-- The heap lies below the provider's limit. -/
  brk_le : s.brk ≤ s.max
  /-- Addresses fit in 64 bits. -/
  max_le : s.max ≤ SIZE_MOD
  /-- The blocks tile the heap from the first payload pointer to the break. -/
  tiles : Tiles (s.heap_listp + 96) bs s.brk
  /-- Block sizes are multiples of 16, at least 32. -/
  sizes : ∀ b ∈ bs, 32 ≤ b.size ∧ b.size % 16 = 0

/-- The heap invariant between public calls, for the blocks `bs` and the
class lists `L 0 .. L 8`. -/
structure Inv (s : Heap) (bs : List Blk) (L : Nat → List Nat) : Prop where
  /-- The heap start is 16-byte aligned. -/
  hl16 : s.heap_listp % 16 = 0
  /-- The heap start is not the null pointer. -/
  hlpos : 0 < s.heap_listp
  /-- The heap lies below the provider's limit. -/
  brk_le : s.brk ≤ s.max
  /-- Addresses fit in 64 bits. -/
  max_le : s.max ≤ SIZE_MOD
  /-- The blocks tile the heap from the first payload pointer to the break. -/
  tiles : Tiles (s.heap_listp + 96) bs s.brk
  /-- Every block's boundary tags are in place. -/
  blocks : ∀ b ∈ bs, BlockOk s b
  /-- The prologue word before the first block reads as allocated. -/
  prologue : get_alloc s (s.heap_listp + 80) = true
  /-- The epilogue header reads as allocated. -/
  epilogue : get_alloc s (s.brk - 8) = true
  /-- No two adjacent blocks are free. -/
  noadj : NoAdjFree bs
  /-- Each class list is a doubly linked list anchored at its root cell. -/
  chains : ∀ c, c < 9 → Chain s (root_array s c) (root_array s c) (L c)
  /-- Every list node is a free block of that class. -/
  listed : ∀ c, c < 9 → ∀ x ∈ L c, ∃ b ∈ bs, b.addr = x ∧ b.alloc = false ∧ pick_root b.size = c
  /-- Every free block is on the list of its class. -/
  complete : ∀ b ∈ bs, b.alloc = false → b.addr ∈ L (pick_root b.size)
  /-- No list holds a block twice. -/
  nodup : ∀ c, c < 9 → (L c).Nodup


/-- The heap invariant in the middle of `free` and of `allocate`: as `Inv`,
but the free block at `x` is on no list yet and may have free neighbours. -/
structure PreInv (s : Heap) (bs : List Blk) (L : Nat → List Nat) (x : Nat) : Prop where
  /-- The heap start is 16-byte aligned. -/
  hl16 : s.heap_listp % 16 = 0
  /-- The heap start is not the null pointer. -/
  hlpos : 0 < s.heap_listp
  /-- The heap lies below the provider's limit. -/
  brk_le : s.brk ≤ s.max
  /-- Addresses fit in 64 bits. -/
  max_le : s.max ≤ SIZE_MOD
  /-- The blocks tile the heap from the first payload pointer to the break. -/
  tiles : Tiles (s.heap_listp + 96) bs s.brk
  /-- Every block's boundary tags are in place. -/
  blocks : ∀ b ∈ bs, BlockOk s b
  /-- The prologue word before the first block reads as allocated. -/
  prologue : get_alloc s (s.heap_listp + 80) = true
  /-- The epilogue header reads as allocated. -/
  epilogue : get_alloc s (s.brk - 8) = true
  /-- Away from `x`, no two adjacent blocks are free. -/
  noadj : NoAdjFreeBut x bs
  /-- Each class list is a doubly linked list anchored at its root cell. -/
  chains : ∀ c, c < 9 → Chain s (root_array s c) (root_array s c) (L c)
  /-- Every list node is a free block of that class, other than `x`. -/
  listed : ∀ c, c < 9 → ∀ y ∈ L c,
    ∃ b ∈ bs, b.addr = y ∧ b.alloc = false ∧ pick_root b.size = c ∧ y ≠ x
  /-- Every free block other than `x` is on the list of its class. -/
  complete : ∀ b ∈ bs, b.alloc = false → b.addr ≠ x → b.addr ∈ L (pick_root b.size)
  /-- No list holds a block twice. -/
  nodup : ∀ c, c < 9 → (L c).Nodup
  /-- The block at `x` is a free block. -/
  pending : ∃ b ∈ bs, b.addr = x ∧ b.alloc = false

/-- The heap invariant inside `coalesce`: as `Inv`, but the free blocks whose
payload pointers satisfy `U` are on no list and may have free neighbours. -/
structure FInv (s : Heap) (bs : List Blk) (L : Nat → List Nat) (U : Nat → Prop) : Prop where
  /-- The geometry of the heap. -/
  geom : Geom s bs
  /-- Every block's boundary tags are in place. -/
  blocks : ∀ b ∈ bs, BlockOk s b
  /-- The prologue word before the first block reads as allocated. -/
  prologue : get_alloc s (s.heap_listp + 80) = true
  /-- The epilogue header reads as allocated. -/
  epilogue : get_alloc s (s.brk - 8) = true
  /-- Away from the blocks of `U`, no two adjacent blocks are free. -/
  noadj : bs.Chain' (fun b c => b.alloc = true ∨ c.alloc = true ∨ U b.addr ∨ U c.addr)
  /-- Each class list is a doubly linked list anchored at its root cell. -/
  chains : ∀ c, c < 9 → Chain s (root_array s c) (root_array s c) (L c)
  /-- Every list node is a free block of that class, outside `U`. -/
  listed : ∀ c, c < 9 → ∀ y ∈ L c,
    ∃ b ∈ bs, b.addr = y ∧ b.alloc = false ∧ pick_root b.size = c ∧ ¬ U y
  /-- Every free block outside `U` is on the list of its class. -/
  complete : ∀ b ∈ bs, b.alloc = false → ¬ U b.addr → b.addr ∈ L (pick_root b.size)
  /-- No list holds a block twice. -/
  nodup : ∀ c, c < 9 → (L c).Nodup
  /-- The blocks of `U` are free blocks. -/
  pending : ∀ a, U a → ∃ b ∈ bs, b.addr = a ∧ b.alloc = false

/-- What `coalesce` on the pending block `x` achieves: the result `r` is the
pointer of a pending block `M` that contains `x`, no two blocks are adjacent
and free any more, the fields of the heap and the allocated blocks are the
same, and the header word of `x` still reads as free. -/
def CoalescePost (s : Heap) (bs : List Blk) (x : Nat) (r : Nat × Heap) : Prop :=
  ∃ bs' L' M, M ∈ bs' ∧ r.1 = M.addr ∧ PreInv r.2 bs' L' M.addr ∧ NoAdjFree bs' ∧
    r.2.brk = s.brk ∧ r.2.max = s.max ∧ r.2.heap_listp = s.heap_listp ∧
    get_alloc r.2 (x - 8) = false ∧
    (M.addr = x ∨ (M.addr + 32 ≤ x ∧ x + 32 ≤ M.addr + M.size)) ∧
    (∀ d : Blk, d.alloc = true → (d ∈ bs' ↔ d ∈ bs))

/-- The state of `free(p)`, for a block of size `z`, just before it calls
`coalesce`: header and footer marked free, the prev-alloc bit of the next
header set, both link words cleared. -/
def free_marked (s : Heap) (p z : Nat) : Heap :=
  set_ptr (set_ptr (set_prevalloc (put (put s (p - 8) (pack z 0)) (p + z - 16) (pack z 0))
    (p + z - 8)) p 0) (p + 8) 0

/-- The state of `allocate`, splitting, just before it calls `coalesce`, from
the state `s1` in which the block was unlinked: the block at `bp` is tagged
allocated with size `need`, the remainder at `bp + need` is tagged free with
size `rem` and its link words are cleared. -/
def split_marked (s1 : Heap) (bp need rem : Nat) : Heap :=
  set_ptr (set_ptr (put (put (put (put s1 (bp - 8) (pack need 1)) (bp + need - 16)
    (pack need 1)) (bp + need - 8) (pack rem 0)) (bp + need + rem - 16) (pack rem 0))
    (bp + need) 0) (bp + need + 8) 0

/-- The size test of `find_free_list`. -/
def fits (s : Heap) (req y : Nat) : Bool :=
  decide (get_size s (get_header y) ≥ req)

/-- The first fit among the class lists `L i, L (i+1), ..., L (i+n-1)`: the
first node, in class order and head-to-tail inside a class, whose block size
is at least `req`; `0` when there is none. -/
def first_fit (s : Heap) (req : Nat) (L : Nat → List Nat) : Nat → Nat → Nat
  | 0, _ => 0
  | n + 1, i =>
    match (L i).find? (fits s req) with
    | some y => y
    | none => first_fit s req L n (i + 1)

/-- The state of `allocate`, in its splitting branch, just before it calls
`coalesce`, in the code's own terms. -/
def allocate_split_state (s : Heap) (bp requested_size : Nat) : Heap :=
  let total_size := get_size s (get_header bp)
  let remain_size := sub64 (sub64 total_size requested_size) DSIZE
  let allocate_size := add64 requested_size DSIZE
  let s1 := reset_free s bp
  let s2 := put s1 (get_header bp) (pack allocate_size 1)
  let s3 := put s2 (bp + allocate_size - DSIZE) (pack allocate_size 1)
  let remainblk := bp + allocate_size
  let s4 := put s3 (get_header remainblk) (pack remain_size 0)
  let s5 := put s4 (get_footer s4 remainblk) (pack remain_size 0)
  let s6 := set_ptr s5 remainblk 0
  set_ptr s6 (remainblk + WSIZE) 0

/-- The state of `free`, for an allocated block, just before it calls
`coalesce`, in the code's own terms. -/
def free_mark_state (s : Heap) (ptr : Nat) : Heap :=
  let curr_header := get_header ptr
  let next_blk := get_nextblk s ptr
  let block_size := get_size s curr_header
  let s1 := put s curr_header (pack block_size 0)
  let s2 := put s1 (get_footer s1 ptr) (pack block_size 0)
  let s3 := set_prevalloc s2 (next_blk - 8)
  let s4 := set_ptr s3 ptr 0
  set_ptr s4 (ptr + WSIZE) 0

/-- The size by which `extend_heap(words)` grows the heap. -/
def extend_size (words : Nat) : Nat :=
  if align words < WSIZE * 4 then WSIZE * 4 else align words

/-- The state `extend_heap` returns when the provider succeeds, in the
code's own terms. -/
def extend_state (s : Heap) (words : Nat) : Heap :=
  let size := extend_size words
  let bp := s.brk
  let s0 : Heap := { s with brk := s.brk + size }
  let s1 := put s0 (get_header bp) (pack size 0)
  let s2 := set_ptr s1 bp 0
  let s3 := set_ptr s2 (bp + WSIZE) 0
  let s4 := put s3 (get_footer s3 bp) (pack size 0)
  put s4 (get_header (get_nextblk s4 bp)) (pack 0 3)

/-- The state `malloc` returns after a successful extension. -/
def malloc_extend_state (s : Heap) (total_size : Nat) : Heap :=
  let e := extend_state s total_size
  let s2 := put e (get_header s.brk) (pack total_size 1)
  put s2 (get_footer s2 s.brk) (pack total_size 1)

/-- The state of `mm_init` just before it calls `extend_heap`, in the code's
own terms: the twelve prelude words are reserved and written (and the word
after them, the first epilogue). -/
def init_prelude (s : Heap) : Heap :=
  let s0 : Heap := { s with brk := s.brk + 12 * WSIZE }
  let s1 : Heap := { s0 with heap_listp := s.brk }
  let s2 := (List.range 9).foldl (fun t i => put t (root_array t i) 0) s1
  let s3 := put s2 (s2.heap_listp + 9 * WSIZE) 0
  let s4 := put s3 (s3.heap_listp + 10 * WSIZE) (pack DSIZE 1)
  let s5 := put s4 (s4.heap_listp + 11 * WSIZE) (pack DSIZE 1)
  put s5 (s5.heap_listp + 12 * WSIZE) (pack 0 3)

/-- The size of a neighbour that `coalesce` merges: the size of the block
when there is one and it is free, and `0` otherwise. -/
def free_size (o : Option Blk) : Nat :=
  match o with
  | some b => if b.alloc then 0 else b.size
  | none => 0

/-- `Reach s live`: the state `s` is reached from a successful `mm_init`, on
a provider whose break is 16-byte aligned, not null and below `2^64`, by
public calls (`malloc`, `free`, `realloc`) whose pointer arguments are null
or live and whose size arguments are at most `2^64 - 32`, the sizes for which
`align(size) + 16` does not wrap; `live` lists the pointers returned and not
yet freed. -/
inductive Reach : Heap → List Nat → Prop
  | by_init (s0 s : Heap) : s0.brk % 16 = 0 → 0 < s0.brk → s0.max ≤ SIZE_MOD →
      mm_init s0 = (true, s) → Reach s []
  | by_malloc (s : Heap) (live : List Nat) (fuel n p : Nat) (s' : Heap) :
      Reach s live → n ≤ SIZE_MOD - 32 → malloc fuel s n = some (p, s') →
      Reach s' (if p = 0 then live else p :: live)
  | by_free (s : Heap) (live : List Nat) (p : Nat) :
      Reach s live → (p = 0 ∨ p ∈ live) → Reach (free s p) (live.erase p)
  | by_realloc (s : Heap) (live : List Nat) (fuel p n q : Nat) (s' : Heap) :
      Reach s live → (p = 0 ∨ p ∈ live) → n ≤ SIZE_MOD - 32 →
      realloc fuel s p n = some (q, s') →
      Reach s' (if n = 0 then live.erase p else if q = 0 then live else q :: live.erase p)

/-- `LiveInv s live`: the heap `s` satisfies the invariant for some blocks and
class lists, the pointers of `live` are exactly the payload pointers of its
allocated blocks, and none is listed twice. -/
def LiveInv (s : Heap) (live : List Nat) : Prop :=
  ∃ bs L, Inv s bs L ∧ (∀ a, a ∈ live ↔ ∃ d ∈ bs, d.alloc = true ∧ d.addr = a) ∧ live.Nodup

/-! ## Concrete states between public calls, for instantiating the theorems -/

/-- The state after `mm_init(); a = malloc(16)` on `heap0`: `a = 4192`, a
block of size 32, followed by the free block `4224` of size 480. -/
def heap_a : Heap := allocate heap1 4192 (align 16)

/-- The state after `mm_init(); a = malloc(16); b = malloc(16)` on `heap0`:
`b = 4224`, and the free block `4256` of size 448 follows. -/
def heap_ab : Heap := allocate heap_a 4224 (align 16)

/-- The state after `mm_init(); a = malloc(16); b = malloc(16); c = malloc(16)`
on `heap0`: `c = 4256`, and the free block `4288` of size 416 follows. -/
def heap_abc : Heap := allocate heap_ab 4256 (align 16)

/-- The state after `mm_init(); a = malloc(128)` on `heap0`: `a = 4192`, a
block of size 144. -/
def heap_f1 : Heap := allocate heap1 4192 (align 128)

/-- The state after a further `b = malloc(16)`: `b = 4336`, size 32. -/
def heap_f2 : Heap := allocate heap_f1 4336 (align 16)

/-- The state after a further `e = malloc(128)`: `e = 4368`, size 144. -/
def heap_f3 : Heap := allocate heap_f2 4368 (align 128)

/-- The state after a further `d = malloc(16)`: `d = 4512`, size 32. -/
def heap_f4 : Heap := allocate heap_f3 4512 (align 16)

/-- The state after a further `c = malloc(144)`: `c = 4544` takes the whole
last block, of size 160; the five blocks are all allocated. -/
def heap_f5 : Heap := allocate heap_f4 4544 (align 144)

/-! ## Theorems -/

/-! ### Words: size and flag bits -/

theorem land_mask (x : Nat) :
    x &&& 0xFFFFFFFFFFFFFFF0 = (x % 18446744073709551616) / 16 * 16 := by
  apply Nat.eq_of_testBit_eq
  intro i
  have h1 : (0xFFFFFFFFFFFFFFF0 : Nat) = (2 ^ 60 - 1) <<< 4 := by decide
  have h2 : (x % 18446744073709551616) / 16 * 16 = ((x % 2 ^ 64) >>> 4) <<< 4 := by
    rw [Nat.shiftLeft_eq, Nat.shiftRight_eq_div_pow]; norm_num
  rw [h2, Nat.testBit_and, h1, Nat.testBit_shiftLeft, Nat.testBit_shiftLeft,
    Nat.testBit_two_pow_sub_one, Nat.testBit_shiftRight, Nat.testBit_mod_two_pow]
  by_cases h : 4 ≤ i
  · by_cases h' : i - 4 < 60
    · have h3 : 4 + (i - 4) < 64 := by omega
      have h4 : 4 + (i - 4) = i := by omega
      have h5 : i < 64 := by omega
      simp [h, h', h3, h4, h5]
    · have h3 : ¬ 4 + (i - 4) < 64 := by omega
      have h4 : ¬ i < 64 := by omega
      simp [h, h', h3, h4]
  · simp [h]

theorem get_size_eq (s : Heap) (p : Nat) : get_size s p = s.mem p % SIZE_MOD / 16 * 16 := by
  unfold get_size SIZE_MOD; exact land_mask _

theorem get_alloc_eq (s : Heap) (p : Nat) : get_alloc s p = decide (s.mem p % 2 = 1) := by
  unfold get_alloc
  rw [Nat.and_one_is_mod]
  rcases Nat.mod_two_eq_zero_or_one (s.mem p) with h | h <;> simp [h]

theorem pack_eq (size a : Nat) (h : size % 16 = 0) (ha : a < 16) : pack size a = size + a := by
  unfold pack
  obtain ⟨k, rfl⟩ : ∃ k, size = 2 ^ 4 * k := ⟨size / 16, by omega⟩
  exact (Nat.mul_add_lt_is_or (by simpa using ha) k).symm

theorem lor_two_div (x : Nat) : (x ||| 2) / 16 = x / 16 := by
  apply Nat.eq_of_testBit_eq
  intro i
  have e : ∀ y : Nat, y / 16 = y >>> 4 := fun y => by
    rw [Nat.shiftRight_eq_div_pow]
  rw [e, e, Nat.testBit_shiftRight, Nat.testBit_shiftRight, Nat.testBit_or]
  have h2 : (2 : Nat).testBit (4 + i) = false := by
    have : (2 : Nat) = 2 ^ 1 := rfl
    rw [this, Nat.testBit_two_pow]
    simp only [decide_eq_false_iff_not]
    omega
  simp [h2]

theorem lor_two_mod_two (x : Nat) : (x ||| 2) % 2 = x % 2 := by
  have h := Nat.testBit_or x 2 0
  simp only [Nat.testBit_zero] at h
  have h2 : (2 : Nat) % 2 = 0 := rfl
  rcases Nat.mod_two_eq_zero_or_one x with hx | hx <;>
    rcases Nat.mod_two_eq_zero_or_one (x ||| 2) with hy | hy <;> simp_all

theorem lor_two_lt (x : Nat) (h : x < SIZE_MOD) : (x ||| 2) < SIZE_MOD := by
  unfold SIZE_MOD at *
  exact Nat.or_lt_two_pow (n := 64) h (by norm_num)

/-! ### Reading a heap after a store -/

@[simp] theorem put_mem (s : Heap) (p v a : Nat) :
    (put s p v).mem a = if a = p then v % SIZE_MOD else s.mem a := rfl
@[simp] theorem put_brk (s : Heap) (p v : Nat) : (put s p v).brk = s.brk := rfl
@[simp] theorem put_max (s : Heap) (p v : Nat) : (put s p v).max = s.max := rfl
@[simp] theorem put_heap_listp (s : Heap) (p v : Nat) :
    (put s p v).heap_listp = s.heap_listp := rfl
@[simp] theorem set_ptr_mem (s : Heap) (p v a : Nat) :
    (set_ptr s p v).mem a = if a = p then v % SIZE_MOD else s.mem a := rfl
@[simp] theorem set_ptr_brk (s : Heap) (p v : Nat) : (set_ptr s p v).brk = s.brk := rfl
@[simp] theorem set_ptr_max (s : Heap) (p v : Nat) : (set_ptr s p v).max = s.max := rfl
@[simp] theorem set_ptr_heap_listp (s : Heap) (p v : Nat) :
    (set_ptr s p v).heap_listp = s.heap_listp := rfl
@[simp] theorem set_prevalloc_mem (s : Heap) (p a : Nat) :
    (set_prevalloc s p).mem a = if a = p then (s.mem p ||| 2) % SIZE_MOD else s.mem a := rfl
@[simp] theorem set_prevalloc_brk (s : Heap) (p : Nat) : (set_prevalloc s p).brk = s.brk := rfl
@[simp] theorem set_prevalloc_max (s : Heap) (p : Nat) : (set_prevalloc s p).max = s.max := rfl
@[simp] theorem set_prevalloc_heap_listp (s : Heap) (p : Nat) :
    (set_prevalloc s p).heap_listp = s.heap_listp := rfl
@[simp] theorem root_array_put (s : Heap) (p v i : Nat) :
    root_array (put s p v) i = root_array s i := rfl
@[simp] theorem root_array_set_ptr (s : Heap) (p v i : Nat) :
    root_array (set_ptr s p v) i = root_array s i := rfl
@[simp] theorem root_array_set_prevalloc (s : Heap) (p i : Nat) :
    root_array (set_prevalloc s p) i = root_array s i := rfl

/-! ### Doubly linked lists in memory -/

theorem Chain_congr {s t : Heap} {l : List Nat} :
    ∀ {prev cell : Nat}, Chain s prev cell l → t.mem cell = s.mem cell →
      (∀ x ∈ l, t.mem x = s.mem x ∧ t.mem (x + 8) = s.mem (x + 8)) → Chain t prev cell l := by
  induction l with
  | nil =>
    intro prev cell h hc _
    simpa [Chain, get_ptr, hc] using h
  | cons x l ih =>
    intro prev cell h hc hl
    obtain ⟨h1, h2, h3, h4⟩ := h
    refine ⟨?_, h2, ?_, ?_⟩
    · simpa [get_ptr, hc] using h1
    · simpa [get_ptr, (hl x (List.mem_cons_self _ _)).1] using h3
    · exact ih h4 (hl x (List.mem_cons_self _ _)).2
        (fun y hy => hl y (List.mem_cons_of_mem _ hy))

theorem Chain_nonzero {s : Heap} {l : List Nat} :
    ∀ {prev cell : Nat}, Chain s prev cell l → ∀ x ∈ l, x ≠ 0 := by
  induction l with
  | nil => intro _ _ _ x hx; cases hx
  | cons y l ih =>
    intro prev cell h x hx
    rcases List.mem_cons.1 hx with rfl | hx
    · exact h.2.1
    · exact ih h.2.2.2 x hx

/-- The back pointer of a node of a chain: the predecessor, or `prev` for
the first node. -/
theorem Chain_prev {s : Heap} {l1 : List Nat} {x : Nat} {l2 : List Nat} :
    ∀ {prev cell : Nat}, Chain s prev cell (l1 ++ x :: l2) →
      s.mem x = (l1.getLast?.getD prev) := by
  induction l1 with
  | nil => intro prev cell h; exact h.2.2.1
  | cons y l1 ih =>
    intro prev cell h
    have := ih h.2.2.2
    rw [this]
    cases l1 with
    | nil => rfl
    | cons z l1 =>
      simp only [List.getLast?_cons_cons]
      rw [List.getLast?_eq_getLast _ (List.cons_ne_nil z l1)]
      rfl

/-- The forward pointer of a node of a chain: the successor, or null. -/
theorem Chain_next {s : Heap} {l1 : List Nat} {x : Nat} {l2 : List Nat} :
    ∀ {prev cell : Nat}, Chain s prev cell (l1 ++ x :: l2) →
      s.mem (x + 8) = (l2.head?.getD 0) := by
  induction l1 with
  | nil =>
    intro prev cell h
    have h4 := h.2.2.2
    cases l2 with
    | nil => exact h4
    | cons n t => exact h4.1
  | cons y l1 ih =>
    intro prev cell h
    exact ih h.2.2.2

theorem reset_free_eq (s : Heap) (bp : Nat) :
    reset_free s bp =
      if s.mem bp = 0 ∧ s.mem (bp + 8) = 0 then s
      else if s.mem bp = root_array s (pick_root (get_size s (get_header bp))) then
        unlink s (s.mem (bp + 8)) (s.mem bp) (s.mem bp)
      else unlink s (s.mem (bp + 8)) (s.mem bp) (s.mem bp + 8) := by
  unfold reset_free unlink get_ptr WSIZE
  by_cases h1 : s.mem bp = 0 ∧ s.mem (bp + 8) = 0
  · simp [h1]
  · by_cases h2 : s.mem bp = root_array s (pick_root (get_size s (get_header bp)))
    · simp only [h1, if_false, h2, if_true]
    · simp only [h1, if_false, h2]

theorem unlink_mem (s : Heap) (next prev cell a : Nat) :
    (unlink s next prev cell).mem a =
      if a = cell then next % SIZE_MOD
      else if next ≠ 0 ∧ a = next then prev % SIZE_MOD else s.mem a := by
  unfold unlink
  by_cases h : next ≠ 0
  · simp [h]
  · simp [h]

@[simp] theorem unlink_brk (s : Heap) (n p c : Nat) : (unlink s n p c).brk = s.brk := by
  unfold unlink; split_ifs <;> rfl
@[simp] theorem unlink_max (s : Heap) (n p c : Nat) : (unlink s n p c).max = s.max := by
  unfold unlink; split_ifs <;> rfl
@[simp] theorem unlink_heap_listp (s : Heap) (n p c : Nat) :
    (unlink s n p c).heap_listp = s.heap_listp := by
  unfold unlink; split_ifs <;> rfl

/-- Unlinking the node `x` of a chain leaves the chain of the other nodes. -/
theorem unlink_chain {s : Heap} {x : Nat} {l2 : List Nat} (l1 : List Nat) :
    ∀ {p c : Nat}, Chain s p c (l1 ++ x :: l2) → Spaced (l1 ++ x :: l2) →
      (∀ z ∈ l1 ++ x :: l2, c ≠ z ∧ c ≠ z + 8 ∧ z < SIZE_MOD) → p < SIZE_MOD →
      Chain (unlink s (s.mem (x + 8)) (l1.getLast?.getD p)
        ((l1.getLast?.map (fun y => y + 8)).getD c)) p c (l1 ++ l2) := by
  induction l1 with
  | nil =>
    intro p c h hsp hc hp
    simp only [List.nil_append] at h hsp hc ⊢
    simp only [List.getLast?_nil, Option.getD_none, Option.map_none']
    obtain ⟨h1, h2, h3, h4⟩ := h
    cases l2 with
    | nil =>
      have h5 : s.mem (x + 8) = 0 := h4
      simp [Chain, get_ptr, unlink_mem, h5]
    | cons n t =>
      obtain ⟨g1, g2, g3, g4⟩ := h4
      have g1' : s.mem (x + 8) = n := g1
      have hn := hc n (by simp)
      have hx := hc x (by simp)
      have hsp' : ∀ z ∈ t, (n + 16 ≤ z ∨ z + 16 ≤ n) := by
        intro z hz
        have := (List.pairwise_cons.1 (List.pairwise_cons.1 hsp).2).1 z hz
        exact this
      refine ⟨?_, g2, ?_, ?_⟩
      · simp [get_ptr, unlink_mem, g1', Nat.mod_eq_of_lt hn.2.2]
      · simp [get_ptr, unlink_mem, g1', g2, Nat.mod_eq_of_lt hp, Ne.symm hn.1]
      · refine Chain_congr g4 ?_ ?_
        · rw [unlink_mem, g1']
          have : n + WSIZE ≠ c := fun e => hn.2.1 (by simpa [WSIZE] using e.symm)
          have : n + WSIZE ≠ n := by simp [WSIZE]
          simp [*]
        · intro z hz
          have hz' := hc z (by simp [hz])
          have := hsp' z hz
          rw [unlink_mem, unlink_mem, g1']
          have a1 : z ≠ c := Ne.symm hz'.1
          have a2 : z ≠ n := by omega
          have a3 : z + 8 ≠ c := Ne.symm hz'.2.1
          have a4 : z + 8 ≠ n := by omega
          simp [a1, a2, a3, a4]
  | cons y l1 ih =>
    intro p c h hsp hc hp
    obtain ⟨h1, h2, h3, h4⟩ := h
    have hy := hc y (by simp)
    have hsp1 : Spaced (l1 ++ x :: l2) := (List.pairwise_cons.1 hsp).2
    have hsy : ∀ z ∈ l1 ++ x :: l2, (y + 16 ≤ z ∨ z + 16 ≤ y) := (List.pairwise_cons.1 hsp).1
    have hc1 : ∀ z ∈ l1 ++ x :: l2, y + WSIZE ≠ z ∧ y + WSIZE ≠ z + 8 ∧ z < SIZE_MOD := by
      intro z hz
      have := hsy z hz
      have := (hc z (by simp [List.mem_append] at hz ⊢; tauto)).2.2
      simp only [WSIZE]
      refine ⟨by omega, by omega, this⟩
    have IH := ih h4 hsp1 hc1 hy.2.2
    have e1 : (y :: l1).getLast?.getD p = l1.getLast?.getD y := by
      cases l1 with
      | nil => rfl
      | cons z l1 =>
        simp only [List.getLast?_cons_cons]
        rw [List.getLast?_eq_getLast _ (List.cons_ne_nil z l1)]
        rfl
    have e2 : ((y :: l1).getLast?.map (fun y => y + 8)).getD c
        = (l1.getLast?.map (fun y => y + 8)).getD (y + WSIZE) := by
      cases l1 with
      | nil => rfl
      | cons z l1 =>
        simp only [List.getLast?_cons_cons]
        rw [List.getLast?_eq_getLast _ (List.cons_ne_nil z l1)]
        rfl
    rw [e1, e2]
    -- the cell written and the successor written are cells of later nodes
    have hcell : ∀ a, a = c ∨ a = y →
        (unlink s (s.mem (x + 8)) (l1.getLast?.getD y)
          ((l1.getLast?.map (fun y => y + 8)).getD (y + WSIZE))).mem a = s.mem a := by
      intro a ha
      rw [unlink_mem]
      have hnext := @Chain_next _ l1 _ _ _ _ h4
      have k1 : a ≠ (l1.getLast?.map (fun y => y + 8)).getD (y + WSIZE) := by
        cases hl : l1.getLast? with
        | none =>
          simp only [Option.map_none', Option.getD_none, WSIZE]
          rcases ha with rfl | rfl
          · exact hy.2.1
          · omega
        | some w =>
          simp only [Option.map_some', Option.getD_some]
          have hw : w ∈ l1 := List.mem_of_getLast?_eq_some hl
          have := hsy w (by simp [hw])
          have := hc w (by simp [hw])
          rcases ha with rfl | rfl
          · exact this.2.1
          · omega
      have k2 : ¬ (s.mem (x + 8) ≠ 0 ∧ a = s.mem (x + 8)) := by
        rintro ⟨hne, rfl⟩
        rw [hnext] at hne ha
        cases l2 with
        | nil => simp at hne
        | cons n t =>
          simp only [List.head?_cons, Option.getD_some] at ha
          have := hsy n (by simp)
          have := hc n (by simp)
          rcases ha with rfl | rfl
          · exact this.1 rfl
          · omega
      simp [k1, k2]
    refine ⟨?_, h2, ?_, IH⟩
    · have := hcell c (Or.inl rfl)
      simpa [get_ptr, this] using h1
    · have := hcell y (Or.inr rfl)
      simpa [get_ptr, this] using h3

theorem Spaced.nodup {l : List Nat} (h : Spaced l) : l.Nodup :=
  List.Pairwise.imp (fun {a b} hab => by omega) h

theorem unlink_frame (s : Heap) (next prev cell a : Nat)
    (h1 : a ≠ cell) (h2 : next = 0 ∨ a ≠ next) :
    (unlink s next prev cell).mem a = s.mem a := by
  rw [unlink_mem]
  have : ¬ (next ≠ 0 ∧ a = next) := by
    rintro ⟨h, e⟩; rcases h2 with h2 | h2
    · exact h h2
    · exact h2 e
  simp [h1, this]

/-- `reset_free` on a node of a well-formed class list unlinks it, writing
only link words of that list and its root cell. -/
theorem reset_free_chain {s : Heap} {x r : Nat} {l : List Nat}
    (hr : r = root_array s (pick_root (get_size s (get_header x))))
    (h : Chain s r r l) (hx : x ∈ l) (hsp : Spaced l)
    (hc : ∀ z ∈ l, r ≠ z ∧ r ≠ z + 8 ∧ z < SIZE_MOD) (hr0 : r ≠ 0) (hrlt : r < SIZE_MOD) :
    Chain (reset_free s x) r r (l.erase x) ∧
    (∀ a, ¬ Cells r l a → (reset_free s x).mem a = s.mem a) ∧
    (reset_free s x).brk = s.brk ∧ (reset_free s x).max = s.max ∧
    (reset_free s x).heap_listp = s.heap_listp := by
  obtain ⟨l1, l2, rfl⟩ := List.append_of_mem hx
  have hnd := hsp.nodup
  have hx1 : x ∉ l1 := by
    intro hmem
    have := (List.nodup_append.1 hnd).2.2
    exact this hmem (List.mem_cons_self _ _)
  have herase : (l1 ++ x :: l2).erase x = l1 ++ l2 := by
    rw [List.erase_append_right _ hx1, List.erase_cons_head]
  have hprev := Chain_prev h
  have hnext := Chain_next h
  have hnz := Chain_nonzero h
  have main := unlink_chain l1 h hsp hc hrlt
  have hprev0 : s.mem x ≠ 0 := by
    rw [hprev]
    cases hl : l1.getLast? with
    | none => simpa using hr0
    | some w =>
      have hw : w ∈ l1 := List.mem_of_getLast?_eq_some hl
      simpa using hnz w (by simp [hw])
  have key : reset_free s x = unlink s (s.mem (x + 8)) (l1.getLast?.getD r)
      ((l1.getLast?.map (fun y => y + 8)).getD r) := by
    rw [reset_free_eq]
    have c1 : ¬ (s.mem x = 0 ∧ s.mem (x + 8) = 0) := fun hh => hprev0 hh.1
    rw [if_neg c1, ← hr]
    cases hl : l1.getLast? with
    | none =>
      have : s.mem x = r := by rw [hprev, hl]; rfl
      simp [this]
    | some w =>
      have hw : w ∈ l1 := List.mem_of_getLast?_eq_some hl
      have e : s.mem x = w := by rw [hprev, hl]; rfl
      have : w ≠ r := Ne.symm (hc w (by simp [hw])).1
      simp [e, this]
  rw [key, herase]
  refine ⟨main, ?_, by simp, by simp, by simp⟩
  intro a ha
  apply unlink_frame
  · intro e
    apply ha
    cases hl : l1.getLast? with
    | none => left; simpa [hl] using e
    | some w =>
      have hw : w ∈ l1 := List.mem_of_getLast?_eq_some hl
      right
      exact ⟨w, by simp [hw], Or.inr (by simpa [hl] using e)⟩
  · rw [hnext]
    cases l2 with
    | nil => left; rfl
    | cons n t =>
      right
      intro e
      apply ha
      right
      exact ⟨n, by simp, Or.inl (by simpa using e)⟩

theorem insert_free_fields (s : Heap) (x z : Nat) :
    (insert_free s x z).brk = s.brk ∧ (insert_free s x z).max = s.max ∧
    (insert_free s x z).heap_listp = s.heap_listp := by
  unfold insert_free
  simp only []
  split_ifs <;> simp

/-- `insert_free` on a well-formed class list puts the block on it, writing
only link words of that list, of the block, and the root cell. -/
theorem insert_free_chain {s : Heap} {x z r : Nat} {l : List Nat}
    (hr : r = root_array s (pick_root z))
    (h : Chain s r r l) (hsp : Spaced (x :: l))
    (hc : ∀ y ∈ x :: l, r ≠ y ∧ r ≠ y + 8 ∧ y < SIZE_MOD) (hx0 : x ≠ 0)
    (hrlt : r < SIZE_MOD) :
    Chain (insert_free s x z) r r (ins s x l) ∧
    (∀ a, ¬ Cells r (x :: l) a → (insert_free s x z).mem a = s.mem a) := by
  have hxc := hc x (by simp)
  have hxl : ∀ y ∈ l, (x + 16 ≤ y ∨ y + 16 ≤ x) := (List.pairwise_cons.1 hsp).1
  have hspl : Spaced l := (List.pairwise_cons.1 hsp).2
  cases l with
  | nil =>
    have h0 : s.mem r = 0 := h
    have e : insert_free s x z = set_ptr (set_ptr (set_ptr s r x) x r) (x + 8) 0 := by
      unfold insert_free; simp [← hr, get_ptr, h0, WSIZE]
    rw [e]
    constructor
    · refine ⟨?_, hx0, ?_, ?_⟩
      · have a1 : r ≠ x + 8 := hxc.2.1
        simp [get_ptr, hxc.1, a1, Nat.mod_eq_of_lt hxc.2.2]
      · simp [get_ptr, Nat.mod_eq_of_lt hrlt]
      · simp [Chain, get_ptr, WSIZE]
    · intro a ha
      have a1 : a ≠ r := fun e => ha (Or.inl e)
      have a2 : a ≠ x := fun e => ha (Or.inr ⟨x, by simp, Or.inl e⟩)
      have a3 : a ≠ x + 8 := fun e => ha (Or.inr ⟨x, by simp, Or.inr e⟩)
      simp [a1, a2, a3]
  | cons hd t =>
    obtain ⟨h1, h2, h3, h4⟩ := h
    have h1' : s.mem r = hd := h1
    have hhc := hc hd (by simp)
    have hxh := hxl hd (by simp)
    have hht : ∀ y ∈ t, (hd + 16 ≤ y ∨ y + 16 ≤ hd) := (List.pairwise_cons.1 hspl).1
    by_cases hle : get_size s (get_header x) ≤ get_size s (get_header hd)
    · have e : insert_free s x z =
          set_ptr (set_ptr (set_ptr (set_ptr s r x) x r) (x + 8) hd) hd x := by
        unfold insert_free; simp [← hr, get_ptr, h1', h2, hle, WSIZE]
      have ei : ins s x (hd :: t) = x :: hd :: t := by simp [ins, hle]
      rw [e, ei]
      constructor
      · refine ⟨?_, hx0, ?_, ?_, h2, ?_, ?_⟩
        · have a1 : r ≠ x + 8 := hxc.2.1
          simp [get_ptr, hxc.1, a1, hhc.1, Nat.mod_eq_of_lt hxc.2.2]
        · have a1 : x ≠ hd := by omega
          simp [get_ptr, a1, Nat.mod_eq_of_lt hrlt]
        · have a1 : x + 8 ≠ hd := by omega
          simp [get_ptr, WSIZE, a1, Nat.mod_eq_of_lt hhc.2.2]
        · simp [get_ptr, Nat.mod_eq_of_lt hxc.2.2]
        · refine Chain_congr h4 ?_ ?_
          · have a1 : hd + 8 ≠ hd := by omega
            have a2 : hd + 8 ≠ x + 8 := by omega
            have a3 : hd + 8 ≠ x := by omega
            have a4 : hd + 8 ≠ r := Ne.symm hhc.2.1
            simp [WSIZE, a1, a2, a3, a4]
          · intro y hy
            have := hht y hy
            have := hxl y (by simp [hy])
            have hyc := hc y (by simp [hy])
            have b1 : y ≠ hd := by omega
            have b2 : y ≠ x + 8 := by omega
            have b3 : y ≠ x := by omega
            have b4 : y ≠ r := Ne.symm hyc.1
            have b5 : y + 8 ≠ hd := by omega
            have b6 : y + 8 ≠ x + 8 := by omega
            have b7 : y + 8 ≠ x := by omega
            have b8 : y + 8 ≠ r := Ne.symm hyc.2.1
            simp [b1, b2, b3, b4, b5, b6, b7, b8]
      · intro a ha
        have a1 : a ≠ r := fun e => ha (Or.inl e)
        have a2 : a ≠ x := fun e => ha (Or.inr ⟨x, by simp, Or.inl e⟩)
        have a3 : a ≠ x + 8 := fun e => ha (Or.inr ⟨x, by simp, Or.inr e⟩)
        have a4 : a ≠ hd := fun e => ha (Or.inr ⟨hd, by simp, Or.inl e⟩)
        simp [a1, a2, a3, a4]
    · have hgt : get_size s (get_header x) > get_size s (get_header hd) := by omega
      have ei : ins s x (hd :: t) = hd :: x :: t := by simp [ins, hle]
      rw [ei]
      have hnext : s.mem (hd + 8) = t.head?.getD 0 := by
        cases t with
        | nil => exact h4
        | cons n t' => exact h4.1
      cases t with
      | nil =>
        have hn0 : s.mem (hd + 8) = 0 := by simpa using hnext
        have e : insert_free s x z =
            set_ptr (set_ptr (set_ptr s (hd + 8) x) x hd) (x + 8) 0 := by
          unfold insert_free; simp [← hr, get_ptr, h1', h2, hle, hgt, WSIZE, hn0]
        rw [e]
        constructor
        · refine ⟨?_, h2, ?_, ?_, hx0, ?_, ?_⟩
          · have a1 : r ≠ x + 8 := hxc.2.1
            have a3 : r ≠ hd + 8 := hhc.2.1
            simp [get_ptr, hxc.1, a1, a3, h1']
          · have a1 : hd ≠ x + 8 := by omega
            have a2 : hd ≠ x := by omega
            simp [get_ptr, a1, a2]
            exact h3
          · have a1 : hd + 8 ≠ x + 8 := by omega
            have a2 : hd + 8 ≠ x := by omega
            simp [get_ptr, WSIZE, a1, a2, Nat.mod_eq_of_lt hxc.2.2]
          · simp [get_ptr, Nat.mod_eq_of_lt hhc.2.2]
          · simp [Chain, get_ptr, WSIZE]
        · intro a ha
          have a2 : a ≠ x := fun e => ha (Or.inr ⟨x, by simp, Or.inl e⟩)
          have a3 : a ≠ x + 8 := fun e => ha (Or.inr ⟨x, by simp, Or.inr e⟩)
          have a4 : a ≠ hd + 8 := fun e => ha (Or.inr ⟨hd, by simp, Or.inr e⟩)
          simp [a2, a3, a4]
      | cons n t' =>
        obtain ⟨g1, g2, g3, g4⟩ := h4
        have g1' : s.mem (hd + 8) = n := g1
        have hnc := hc n (by simp)
        have hxn := hxl n (by simp)
        have hhn := hht n (by simp)
        have hnt : ∀ y ∈ t', (n + 16 ≤ y ∨ y + 16 ≤ n) :=
          (List.pairwise_cons.1 (List.pairwise_cons.1 hspl).2).1
        have e : insert_free s x z =
            set_ptr (set_ptr (set_ptr (set_ptr (set_ptr s (hd + 8) x) x hd) (x + 8) 0)
              (x + 8) n) n x := by
          unfold insert_free; simp [← hr, get_ptr, h1', h2, hle, hgt, WSIZE, g1', g2]
        rw [e]
        constructor
        · refine ⟨?_, h2, ?_, ?_, hx0, ?_, ?_, g2, ?_, ?_⟩
          · have a1 : r ≠ x + 8 := hxc.2.1
            have a3 : r ≠ hd + 8 := hhc.2.1
            simp [get_ptr, hxc.1, a1, a3, h1', hnc.1]
          · have a1 : hd ≠ x + 8 := by omega
            have a2 : hd ≠ x := by omega
            have a3 : hd ≠ n := by omega
            simp [get_ptr, a1, a2, a3]
            exact h3
          · have a1 : hd + 8 ≠ x + 8 := by omega
            have a2 : hd + 8 ≠ x := by omega
            have a3 : hd + 8 ≠ n := by omega
            simp [get_ptr, WSIZE, a1, a2, a3, Nat.mod_eq_of_lt hxc.2.2]
          · have a1 : x ≠ n := by omega
            simp [get_ptr, a1, Nat.mod_eq_of_lt hhc.2.2]
          · have a1 : x + 8 ≠ n := by omega
            simp [get_ptr, WSIZE, a1, Nat.mod_eq_of_lt hnc.2.2]
          · simp [get_ptr, Nat.mod_eq_of_lt hxc.2.2]
          · refine Chain_congr g4 ?_ ?_
            · have a1 : n + 8 ≠ n := by omega
              have a2 : n + 8 ≠ x + 8 := by omega
              have a3 : n + 8 ≠ x := by omega
              have a4 : n + 8 ≠ hd + 8 := by omega
              simp [WSIZE, a1, a2, a3, a4]
            · intro y hy
              have := hnt y hy
              have := hht y (by simp [hy])
              have := hxl y (by simp [hy])
              have b1 : y ≠ n := by omega
              have b2 : y ≠ x + 8 := by omega
              have b3 : y ≠ x := by omega
              have b4 : y ≠ hd + 8 := by omega
              have b5 : y + 8 ≠ n := by omega
              have b6 : y + 8 ≠ x + 8 := by omega
              have b7 : y + 8 ≠ x := by omega
              have b8 : y + 8 ≠ hd + 8 := by omega
              simp [b1, b2, b3, b4, b5, b6, b7, b8]
        · intro a ha
          have a2 : a ≠ x := fun e => ha (Or.inr ⟨x, by simp, Or.inl e⟩)
          have a3 : a ≠ x + 8 := fun e => ha (Or.inr ⟨x, by simp, Or.inr e⟩)
          have a4 : a ≠ hd + 8 := fun e => ha (Or.inr ⟨hd, by simp, Or.inr e⟩)
          have a5 : a ≠ n := fun e => ha (Or.inr ⟨n, by simp, Or.inl e⟩)
          simp [a2, a3, a4, a5]

/-! ### Blocks that tile the heap -/

theorem Tiles_append {l1 l2 : List Blk} :
    ∀ {a e : Nat}, Tiles a (l1 ++ l2) e ↔ ∃ m, Tiles a l1 m ∧ Tiles m l2 e := by
  induction l1 with
  | nil =>
    intro a e
    constructor
    · intro h; exact ⟨a, rfl, h⟩
    · rintro ⟨m, h1, h2⟩
      have : a = m := h1
      subst this; exact h2
  | cons b l1 ih =>
    intro a e
    constructor
    · rintro ⟨h1, h2⟩
      obtain ⟨m, h3, h4⟩ := ih.1 h2
      exact ⟨m, ⟨h1, h3⟩, h4⟩
    · rintro ⟨m, ⟨h1, h3⟩, h4⟩
      exact ⟨h1, ih.2 ⟨m, h3, h4⟩⟩

theorem Tiles_le {l : List Blk} : ∀ {a e : Nat}, Tiles a l e → a ≤ e := by
  induction l with
  | nil => intro a e h; exact le_of_eq h
  | cons b l ih =>
    intro a e h
    have := ih h.2
    omega

theorem Tiles_bounds {l : List Blk} :
    ∀ {a e : Nat}, Tiles a l e → ∀ b ∈ l, a ≤ b.addr ∧ b.addr + b.size ≤ e := by
  induction l with
  | nil => intro a e _ b hb; cases hb
  | cons c l ih =>
    intro a e h b hb
    rcases List.mem_cons.1 hb with rfl | hb
    · have := Tiles_le h.2
      have := h.1
      omega
    · have := ih h.2 b hb
      omega

theorem Tiles_aligned {l : List Blk} :
    ∀ {a e : Nat}, Tiles a l e → a % 16 = 0 → (∀ b ∈ l, b.size % 16 = 0) →
      (∀ b ∈ l, b.addr % 16 = 0) ∧ e % 16 = 0 := by
  induction l with
  | nil =>
    intro a e h ha _
    have : a = e := h
    subst this
    exact ⟨fun b hb => absurd hb (List.not_mem_nil b), ha⟩
  | cons c l ih =>
    intro a e h ha hs
    have hc := hs c (by simp)
    have := ih h.2 (by omega) (fun b hb => hs b (by simp [hb]))
    refine ⟨?_, this.2⟩
    intro b hb
    rcases List.mem_cons.1 hb with rfl | hb
    · rw [h.1]; exact ha
    · exact this.1 b hb

/-- Two blocks of a tiling are the same block or do not overlap. -/
theorem Tiles_sep {l : List Blk} :
    ∀ {a e : Nat}, Tiles a l e → (∀ b ∈ l, 0 < b.size) → ∀ b ∈ l, ∀ c ∈ l,
      b = c ∨ b.addr + b.size ≤ c.addr ∨ c.addr + c.size ≤ b.addr := by
  induction l with
  | nil => intro a e _ _ b hb; cases hb
  | cons d l ih =>
    intro a e h hs b hb c hc
    have hd := h.1
    rcases List.mem_cons.1 hb with hb1 | hb1
    · rcases List.mem_cons.1 hc with hc1 | hc1
      · left; rw [hb1, hc1]
      · have := Tiles_bounds h.2 c hc1
        subst hb1
        right; left; omega
    · rcases List.mem_cons.1 hc with hc1 | hc1
      · have := Tiles_bounds h.2 b hb1
        subst hc1
        right; right; omega
      · exact ih h.2 (fun x hx => hs x (by simp [hx])) b hb1 c hc1

theorem Tiles_addr_inj {l : List Blk} {a e : Nat} (h : Tiles a l e)
    (hs : ∀ b ∈ l, 0 < b.size) {b c : Blk} (hb : b ∈ l) (hc : c ∈ l)
    (e1 : b.addr = c.addr) : b = c := by
  rcases Tiles_sep h hs b hb c hc with h1 | h1 | h1
  · exact h1
  · have := hs b hb; omega
  · have := hs c hc; omega

/-- The blocks on either side of a middle block. -/
theorem Tiles_split {pre post : List Blk} {b : Blk} {a e : Nat}
    (h : Tiles a (pre ++ b :: post) e) :
    Tiles a pre b.addr ∧ Tiles (b.addr + b.size) post e := by
  obtain ⟨m, h1, h2, h3⟩ := Tiles_append.1 h
  have : b.addr = m := h2
  subst this
  exact ⟨h1, h3⟩

theorem Tiles_join {pre post : List Blk} {b : Blk} {a e : Nat}
    (h1 : Tiles a pre b.addr) (h2 : Tiles (b.addr + b.size) post e) :
    Tiles a (pre ++ b :: post) e :=
  Tiles_append.2 ⟨b.addr, h1, rfl, h2⟩

theorem Tiles_last {pre : List Blk} {p : Blk} {a e : Nat}
    (h : Tiles a (pre ++ [p]) e) : p.addr + p.size = e ∧ Tiles a pre p.addr := by
  have := Tiles_split h
  exact ⟨this.2, this.1⟩


/-! ### Facts about the blocks of a well-formed heap -/

theorem Inv.geom {s : Heap} {bs : List Blk} {L : Nat → List Nat} (h : Inv s bs L) :
    Geom s bs :=
  ⟨h.hl16, h.hlpos, h.brk_le, h.max_le, h.tiles, fun b hb => (h.blocks b hb).2.2.2.2⟩

theorem PreInv.pre_geom {s : Heap} {bs : List Blk} {L : Nat → List Nat} {x : Nat}
    (h : PreInv s bs L x) : Geom s bs :=
  ⟨h.hl16, h.hlpos, h.brk_le, h.max_le, h.tiles, fun b hb => (h.blocks b hb).2.2.2.2⟩

theorem Geom.facts {s : Heap} {bs : List Blk} (g : Geom s bs) {b : Blk} (hb : b ∈ bs) :
    s.heap_listp + 96 ≤ b.addr ∧ b.addr + b.size ≤ s.brk ∧ b.addr % 16 = 0 ∧
      32 ≤ b.size ∧ b.size % 16 = 0 ∧ s.brk ≤ SIZE_MOD ∧ s.heap_listp % 16 = 0 ∧
      0 < s.heap_listp := by
  have h1 := Tiles_bounds g.tiles b hb
  have h2 := (Tiles_aligned g.tiles (by have := g.hl16; omega)
    (fun c hc => (g.sizes c hc).2)).1 b hb
  have h3 := g.sizes b hb
  have := g.brk_le
  have := g.max_le
  have := g.hl16
  have := g.hlpos
  refine ⟨h1.1, h1.2, h2, h3.1, h3.2, by omega, by omega, by omega⟩

theorem Geom.sep {s : Heap} {bs : List Blk} (g : Geom s bs) {b c : Blk}
    (hb : b ∈ bs) (hc : c ∈ bs) :
    b = c ∨ b.addr + b.size ≤ c.addr ∨ c.addr + c.size ≤ b.addr :=
  Tiles_sep g.tiles (fun x hx => by have := (g.sizes x hx).1; omega) b hb c hc

theorem Geom.addr_inj {s : Heap} {bs : List Blk} (g : Geom s bs) {b c : Blk}
    (hb : b ∈ bs) (hc : c ∈ bs) (e : b.addr = c.addr) : b = c :=
  Tiles_addr_inj g.tiles (fun x hx => by have := (g.sizes x hx).1; omega) hb hc e

theorem BlockOk_congr {s t : Heap} {b : Blk} (h : BlockOk s b)
    (h1 : t.mem (b.addr - 8) = s.mem (b.addr - 8))
    (h2 : t.mem (b.addr + b.size - 16) = s.mem (b.addr + b.size - 16)) : BlockOk t b := by
  unfold BlockOk at *
  simp only [get_size_eq, get_alloc_eq, get_header, WSIZE, DSIZE] at *
  rw [h1, h2]
  exact h

/-- A store into a link word of a block, or into a root cell, leaves every
boundary tag in place. -/
theorem Geom.tag_ne_cell {s : Heap} {bs : List Blk} (g : Geom s bs) {b f : Blk}
    (hb : b ∈ bs) (hf : f ∈ bs) :
    b.addr - 8 ≠ f.addr ∧ b.addr - 8 ≠ f.addr + 8 ∧
    b.addr + b.size - 16 ≠ f.addr ∧ b.addr + b.size - 16 ≠ f.addr + 8 := by
  have h1 := g.facts hb
  have h2 := g.facts hf
  rcases g.sep hb hf with rfl | h | h
  · omega
  · omega
  · omega


/-! ### Putting a pending free block on its list -/

theorem mem_ins {s : Heap} {x y : Nat} {l : List Nat} : y ∈ ins s x l ↔ y = x ∨ y ∈ l := by
  cases l with
  | nil => simp [ins]
  | cons h t =>
    simp only [ins]
    split_ifs
    · simp
    · simp only [List.mem_cons]; tauto

theorem nodup_ins {s : Heap} {x : Nat} {l : List Nat} (hx : x ∉ l) (hl : l.Nodup) :
    (ins s x l).Nodup := by
  cases l with
  | nil => simp [ins]
  | cons h t =>
    have h1 := List.nodup_cons.1 hl
    have hxh : x ≠ h := fun e => hx (by simp [e])
    have hxt : x ∉ t := fun e => hx (by simp [e])
    simp only [ins]
    split_ifs
    · exact List.nodup_cons.2 ⟨hx, hl⟩
    · refine List.nodup_cons.2 ⟨?_, List.nodup_cons.2 ⟨hxt, h1.2⟩⟩
      simp only [List.mem_cons, not_or]
      exact ⟨Ne.symm hxh, h1.1⟩

theorem spaced_of_nodes {s : Heap} {bs : List Blk} (g : Geom s bs) {l : List Nat}
    (hl : ∀ y ∈ l, ∃ b ∈ bs, b.addr = y) (hnd : l.Nodup) : Spaced l := by
  unfold Spaced
  refine List.Pairwise.imp_of_mem ?_ hnd
  intro a b ha hb hab
  obtain ⟨ba, hba, rfl⟩ := hl a ha
  obtain ⟨bb, hbb, rfl⟩ := hl b hb
  have f1 := g.facts hba
  have f2 := g.facts hbb
  rcases g.sep hba hbb with e | h | h
  · exact absurd (by rw [e]) hab
  · left; omega
  · right; omega

theorem root_array_eq (s : Heap) (c : Nat) : root_array s c = s.heap_listp + c * 8 := rfl

theorem insert_free_frame_cells {s : Heap} {bs : List Blk} (g : Geom s bs) {x z c : Nat}
    {l : List Nat} (hc9 : c < 9) (hcz : pick_root z = c)
    (h : Chain s (root_array s c) (root_array s c) l)
    (hl : ∀ y ∈ x :: l, ∃ b ∈ bs, b.addr = y) (hnd : (x :: l).Nodup) :
    Chain (insert_free s x z) (root_array s c) (root_array s c) (ins s x l) ∧
    (∀ a, ¬ Cells (root_array s c) (x :: l) a → (insert_free s x z).mem a = s.mem a) := by
  have hsp := spaced_of_nodes g hl hnd
  have hx : ∃ b ∈ bs, b.addr = x := hl x (by simp)
  obtain ⟨bx, hbx, rfl⟩ := hx
  have fx := g.facts hbx
  refine insert_free_chain (by rw [hcz]) h hsp ?_ (by omega) ?_
  · intro y hy
    obtain ⟨b, hb, rfl⟩ := hl y hy
    have f := g.facts hb
    rw [root_array_eq]
    refine ⟨by omega, by omega, by omega⟩
  · rw [root_array_eq]; omega

theorem pick_root_lt (z : Nat) : pick_root z < 9 := by
  unfold pick_root; split_ifs <;> omega

/-- `insert_free` on the pending block completes the invariant. -/
theorem insert_pending {s : Heap} {bs : List Blk} {L : Nat → List Nat} {b : Blk}
    (h : PreInv s bs L b.addr) (hadj : NoAdjFree bs) (hb : b ∈ bs) :
    Inv (insert_free s b.addr b.size) bs
      (Function.update L (pick_root b.size) (ins s b.addr (L (pick_root b.size)))) ∧
    (∀ a, ¬ Cells (root_array s (pick_root b.size)) (b.addr :: L (pick_root b.size)) a →
      (insert_free s b.addr b.size).mem a = s.mem a) := by
  have g := h.pre_geom
  set c := pick_root b.size with hc
  have hc9 : c < 9 := pick_root_lt _
  obtain ⟨b', hb', e', hfree'⟩ := h.pending
  have ebb : b' = b := g.addr_inj hb' hb e'
  subst ebb
  have hxl : b'.addr ∉ L c := by
    intro hm
    obtain ⟨_, _, _, _, _, hne⟩ := h.listed c hc9 _ hm
    exact hne rfl
  have hnodes : ∀ y ∈ b'.addr :: L c, ∃ b ∈ bs, b.addr = y := by
    intro y hy
    rcases List.mem_cons.1 hy with rfl | hy
    · exact ⟨b', hb, rfl⟩
    · obtain ⟨b2, hb2, e2, _⟩ := h.listed c hc9 y hy
      exact ⟨b2, hb2, e2⟩
  have hnd : (b'.addr :: L c).Nodup := List.nodup_cons.2 ⟨hxl, h.nodup c hc9⟩
  obtain ⟨hchain, hframe⟩ := insert_free_frame_cells (z := b'.size) g hc9 rfl (h.chains c hc9)
    hnodes hnd
  obtain ⟨f1, f2, f3⟩ := insert_free_fields s b'.addr b'.size
  -- every changed word is a root cell or a link word of a block
  have hcell : ∀ a, (insert_free s b'.addr b'.size).mem a ≠ s.mem a →
      a = root_array s c ∨ ∃ f ∈ bs, f.addr ∈ b'.addr :: L c ∧ (a = f.addr ∨ a = f.addr + 8) := by
    intro a ha
    by_contra hcon
    apply ha
    apply hframe
    rintro (e | ⟨z, hz, e⟩)
    · exact hcon (Or.inl e)
    · obtain ⟨f, hf, rfl⟩ := hnodes z hz
      exact hcon (Or.inr ⟨f, hf, hz, e⟩)
  have hsame : ∀ a, (a ≠ root_array s c) →
      (∀ f ∈ bs, f.addr ∈ b'.addr :: L c → a ≠ f.addr ∧ a ≠ f.addr + 8) →
      (insert_free s b'.addr b'.size).mem a = s.mem a := by
    intro a h1 h2
    by_contra hne
    rcases hcell a hne with e | ⟨f, hf, hm, e⟩
    · exact h1 e
    · have := h2 f hf hm
      rcases e with e | e
      · exact this.1 e
      · exact this.2 e
  have hroot : root_array s c = s.heap_listp + c * 8 := rfl
  refine ⟨⟨by rw [f3]; exact h.hl16, by rw [f3]; exact h.hlpos, by rw [f1, f2]; exact h.brk_le,
    by rw [f2]; exact h.max_le, by rw [f1, f3]; exact h.tiles, ?_, ?_, ?_, hadj, ?_, ?_, ?_, ?_⟩,
    hframe⟩
  · -- blocks
    intro d hd
    have fd := g.facts hd
    refine BlockOk_congr (h.blocks d hd) ?_ ?_
    · apply hsame
      · omega
      · intro f hf _
        have := g.tag_ne_cell hd hf
        exact ⟨this.1, this.2.1⟩
    · apply hsame
      · omega
      · intro f hf _
        have := g.tag_ne_cell hd hf
        exact ⟨this.2.2.1, this.2.2.2⟩
  · -- prologue
    have : (insert_free s b'.addr b'.size).mem (s.heap_listp + 80) = s.mem (s.heap_listp + 80) := by
      apply hsame
      · omega
      · intro f hf _
        have := g.facts hf
        omega
    rw [f3, get_alloc_eq, this, ← get_alloc_eq]
    exact h.prologue
  · -- epilogue
    have : (insert_free s b'.addr b'.size).mem (s.brk - 8) = s.mem (s.brk - 8) := by
      have fb := g.facts hb
      apply hsame
      · omega
      · intro f hf _
        have := g.facts hf
        omega
    rw [f1, get_alloc_eq, this, ← get_alloc_eq]
    exact h.epilogue
  · -- chains
    intro c' hc'
    have hr : ∀ i, root_array (insert_free s b'.addr b'.size) i = root_array s i := by
      intro i; unfold root_array; rw [f3]
    rw [hr]
    by_cases e : c' = c
    · subst e
      rw [Function.update_same]
      exact hchain
    · rw [Function.update_noteq e]
      refine Chain_congr (h.chains c' hc') ?_ ?_
      · apply hsame
        · rw [root_array_eq, root_array_eq]; omega
        · intro f hf _
          have := g.facts hf
          rw [root_array_eq]; omega
      · intro y hy
        obtain ⟨by', hby, rfl, _, hcl, hne⟩ := h.listed c' hc' y hy
        have fy := g.facts hby
        have key : ∀ f ∈ bs, f.addr ∈ b'.addr :: L c → f ≠ by' := by
          intro f hf hm e2
          subst e2
          rcases List.mem_cons.1 hm with e3 | hm
          · exact hne e3
          · obtain ⟨b3, hb3, e3, _, hcl3, _⟩ := h.listed c hc9 _ hm
            have := g.addr_inj hb3 hf e3
            subst this
            exact e (hcl.symm.trans hcl3)
        constructor
        · apply hsame
          · rw [root_array_eq]; omega
          · intro f hf hm
            have ff := g.facts hf
            rcases g.sep hf hby with e2 | e2 | e2
            · exact absurd e2 (key f hf hm)
            · omega
            · omega
        · apply hsame
          · rw [root_array_eq]; omega
          · intro f hf hm
            have ff := g.facts hf
            rcases g.sep hf hby with e2 | e2 | e2
            · exact absurd e2 (key f hf hm)
            · omega
            · omega
  · -- listed
    intro c' hc' y hy
    by_cases e : c' = c
    · subst e
      rw [Function.update_same] at hy
      rcases mem_ins.1 hy with rfl | hy
      · exact ⟨b', hb, rfl, hfree', rfl⟩
      · obtain ⟨b2, hb2, e2, h2, h3, _⟩ := h.listed _ hc' y hy
        exact ⟨b2, hb2, e2, h2, h3⟩
    · rw [Function.update_noteq e] at hy
      obtain ⟨b2, hb2, e2, h2, h3, _⟩ := h.listed _ hc' y hy
      exact ⟨b2, hb2, e2, h2, h3⟩
  · -- complete
    intro d hd hfree
    by_cases e : d.addr = b'.addr
    · have := g.addr_inj hd hb e
      subst this
      rw [Function.update_same]
      exact mem_ins.2 (Or.inl rfl)
    · have := h.complete d hd hfree e
      by_cases e2 : pick_root d.size = c
      · rw [e2, Function.update_same]
        exact mem_ins.2 (Or.inr (e2 ▸ this))
      · rw [Function.update_noteq e2]
        exact this
  · -- nodup
    intro c' hc'
    by_cases e : c' = c
    · subst e
      rw [Function.update_same]
      exact nodup_ins hxl (h.nodup _ hc')
    · rw [Function.update_noteq e]
      exact h.nodup c' hc'


/-! ### Unlinking a listed block -/

theorem PreInv.pre_toFInv {s : Heap} {bs : List Blk} {L : Nat → List Nat} {x : Nat}
    (h : PreInv s bs L x) : FInv s bs L (fun a => a = x) :=
  ⟨h.pre_geom, h.blocks, h.prologue, h.epilogue, h.noadj, h.chains, h.listed, h.complete,
    h.nodup, fun a ha => by subst ha; exact h.pending⟩

theorem FInv.toPreInv {s : Heap} {bs : List Blk} {L : Nat → List Nat} {x : Nat}
    (h : FInv s bs L (fun a => a = x)) : PreInv s bs L x :=
  ⟨h.geom.hl16, h.geom.hlpos, h.geom.brk_le, h.geom.max_le, h.geom.tiles, h.blocks,
    h.prologue, h.epilogue, h.noadj, h.chains, h.listed, h.complete, h.nodup,
    h.pending x rfl⟩

theorem Inv.toFInv {s : Heap} {bs : List Blk} {L : Nat → List Nat}
    (h : Inv s bs L) : FInv s bs L (fun _ => False) :=
  ⟨h.geom, h.blocks, h.prologue, h.epilogue,
    List.Chain'.imp (fun {a b} hab => by tauto) h.noadj, h.chains,
    fun c hc y hy => by
      obtain ⟨b, h1, h2, h3, h4⟩ := h.listed c hc y hy
      exact ⟨b, h1, h2, h3, h4, fun hf => hf⟩,
    fun b hb hf _ => h.complete b hb hf, h.nodup, fun a ha => ha.elim⟩

theorem FInv.toInv {s : Heap} {bs : List Blk} {L : Nat → List Nat}
    (h : FInv s bs L (fun _ => False)) : Inv s bs L :=
  ⟨h.geom.hl16, h.geom.hlpos, h.geom.brk_le, h.geom.max_le, h.geom.tiles, h.blocks,
    h.prologue, h.epilogue, List.Chain'.imp (fun {a b} hab => by tauto) h.noadj, h.chains,
    fun c hc y hy => by
      obtain ⟨b, h1, h2, h3, h4, _⟩ := h.listed c hc y hy
      exact ⟨b, h1, h2, h3, h4⟩,
    fun b hb hf => h.complete b hb hf (fun hf => hf), h.nodup⟩

/-- A state that differs from a well-formed one only in root cells and link
words of blocks keeps its boundary tags, prologue and epilogue. -/
theorem tags_of_cell_frame {s t : Heap} {bs : List Blk} (g : Geom s bs)
    (hsame : ∀ a, (s.heap_listp + 72 ≤ a) → (∀ f ∈ bs, a ≠ f.addr ∧ a ≠ f.addr + 8) →
      t.mem a = s.mem a)
    (f1 : t.brk = s.brk) (f3 : t.heap_listp = s.heap_listp)
    (hblocks : ∀ b ∈ bs, BlockOk s b)
    (hpro : get_alloc s (s.heap_listp + 80) = true)
    (hepi : get_alloc s (s.brk - 8) = true) (hne : bs ≠ []) :
    (∀ b ∈ bs, BlockOk t b) ∧ get_alloc t (t.heap_listp + 80) = true ∧
      get_alloc t (t.brk - 8) = true := by
  refine ⟨?_, ?_, ?_⟩
  · intro d hd
    have fd := g.facts hd
    refine BlockOk_congr (hblocks d hd) ?_ ?_
    · apply hsame
      · omega
      · intro f hf
        have := g.tag_ne_cell hd hf
        exact ⟨this.1, this.2.1⟩
    · apply hsame
      · omega
      · intro f hf
        have := g.tag_ne_cell hd hf
        exact ⟨this.2.2.1, this.2.2.2⟩
  · have : t.mem (s.heap_listp + 80) = s.mem (s.heap_listp + 80) := by
      apply hsame
      · omega
      · intro f hf
        have := g.facts hf
        omega
    rw [f3, get_alloc_eq, this, ← get_alloc_eq]
    exact hpro
  · have : t.mem (s.brk - 8) = s.mem (s.brk - 8) := by
      obtain ⟨b, hb⟩ := List.exists_mem_of_ne_nil bs hne
      have fb := g.facts hb
      apply hsame
      · omega
      · intro f hf
        have := g.facts hf
        omega
    rw [f1, get_alloc_eq, this, ← get_alloc_eq]
    exact hepi

theorem Geom.congr {s t : Heap} {bs : List Blk} (g : Geom s bs)
    (f1 : t.brk = s.brk) (f2 : t.max = s.max) (f3 : t.heap_listp = s.heap_listp) :
    Geom t bs :=
  ⟨by rw [f3]; exact g.hl16, by rw [f3]; exact g.hlpos, by rw [f1, f2]; exact g.brk_le,
    by rw [f2]; exact g.max_le, by rw [f1, f3]; exact g.tiles, g.sizes⟩

/-- `reset_free` on a listed block takes it off its list and leaves the rest
of the invariant in place; the block joins the pending ones. -/
theorem reset_listed {s : Heap} {bs : List Blk} {L : Nat → List Nat} {U : Nat → Prop}
    (h : FInv s bs L U) {c y : Nat} (hc : c < 9) (hy : y ∈ L c) :
    FInv (reset_free s y) bs (Function.update L c ((L c).erase y)) (fun a => a = y ∨ U a) ∧
    (∀ a, s.heap_listp + 72 ≤ a → (∀ f ∈ bs, f.alloc = false → a ≠ f.addr ∧ a ≠ f.addr + 8) →
      (reset_free s y).mem a = s.mem a) ∧
    (reset_free s y).brk = s.brk ∧ (reset_free s y).max = s.max ∧
    (reset_free s y).heap_listp = s.heap_listp := by
  have g := h.geom
  obtain ⟨by', hby, rfl, hyfree, hycl, hyU⟩ := h.listed c hc y hy
  have fy := g.facts hby
  have hnodes : ∀ z ∈ L c, ∃ b ∈ bs, b.addr = z := by
    intro z hz
    obtain ⟨b2, hb2, e2, _⟩ := h.listed c hc z hz
    exact ⟨b2, hb2, e2⟩
  have hsp := spaced_of_nodes g hnodes (h.nodup c hc)
  have hsz : get_size s (get_header by'.addr) = by'.size := (h.blocks _ hby).1
  obtain ⟨hchain, hframe, f1, f2, f3⟩ :=
    reset_free_chain (s := s) (x := by'.addr) (r := root_array s c) (l := L c)
      (by rw [hsz, hycl]) (h.chains c hc) hy hsp
      (by
        intro z hz
        obtain ⟨b, hb, rfl⟩ := hnodes z hz
        have f := g.facts hb
        rw [root_array_eq]
        refine ⟨by omega, by omega, by omega⟩)
      (by rw [root_array_eq]; omega) (by rw [root_array_eq]; omega)
  have hsame : ∀ a, (a ≠ root_array s c) →
      (∀ f ∈ bs, f.addr ∈ L c → a ≠ f.addr ∧ a ≠ f.addr + 8) →
      (reset_free s by'.addr).mem a = s.mem a := by
    intro a h1 h2
    apply hframe
    rintro (e | ⟨z, hz, e⟩)
    · exact h1 e
    · obtain ⟨f, hf, rfl⟩ := hnodes z hz
      have := h2 f hf hz
      rcases e with e | e
      · exact this.1 e
      · exact this.2 e
  have hsame' : ∀ a, s.heap_listp + 72 ≤ a →
      (∀ f ∈ bs, f.alloc = false → a ≠ f.addr ∧ a ≠ f.addr + 8) →
      (reset_free s by'.addr).mem a = s.mem a := by
    intro a h1 h2
    apply hsame
    · rw [root_array_eq]; omega
    · intro f hf hm
      obtain ⟨b3, hb3, e3, hfr, _⟩ := h.listed c hc _ hm
      have := g.addr_inj hb3 hf e3
      subst this
      exact h2 _ hf hfr
  have htags := tags_of_cell_frame g
    (fun a h1 h2 => hsame' a h1 (fun f hf _ => h2 f hf)) f1 f3 h.blocks h.prologue
    h.epilogue (List.ne_nil_of_mem hby)
  refine ⟨⟨g.congr f1 f2 f3, htags.1, htags.2.1, htags.2.2, ?_, ?_, ?_, ?_, ?_, ?_⟩,
    hsame', f1, f2, f3⟩
  · exact List.Chain'.imp (fun {a b} hab => by tauto) h.noadj
  · -- chains
    intro c' hc'
    have hr : ∀ i, root_array (reset_free s by'.addr) i = root_array s i := by
      intro i; unfold root_array; rw [f3]
    rw [hr]
    by_cases e : c' = c
    · subst e
      rw [Function.update_same]
      exact hchain
    · rw [Function.update_noteq e]
      refine Chain_congr (h.chains c' hc') ?_ ?_
      · apply hsame
        · rw [root_array_eq, root_array_eq]; omega
        · intro f hf _
          have := g.facts hf
          rw [root_array_eq]; omega
      · intro z hz
        obtain ⟨bz, hbz, rfl, _, hcl, _⟩ := h.listed c' hc' z hz
        have fz := g.facts hbz
        have key : ∀ f ∈ bs, f.addr ∈ L c → f ≠ bz := by
          intro f hf hm e2
          subst e2
          obtain ⟨b3, hb3, e3, _, hcl3, _⟩ := h.listed c hc _ hm
          have := g.addr_inj hb3 hf e3
          subst this
          exact e (hcl.symm.trans hcl3)
        constructor
        · apply hsame
          · rw [root_array_eq]; omega
          · intro f hf hm
            have ff := g.facts hf
            rcases g.sep hf hbz with e2 | e2 | e2
            · exact absurd e2 (key f hf hm)
            · omega
            · omega
        · apply hsame
          · rw [root_array_eq]; omega
          · intro f hf hm
            have ff := g.facts hf
            rcases g.sep hf hbz with e2 | e2 | e2
            · exact absurd e2 (key f hf hm)
            · omega
            · omega
  · -- listed
    intro c' hc' z hz
    by_cases e : c' = c
    · subst e
      rw [Function.update_same] at hz
      have hz' := List.mem_of_mem_erase hz
      obtain ⟨b2, hb2, e2, h2, h3, h4⟩ := h.listed _ hc' z hz'
      refine ⟨b2, hb2, e2, h2, h3, ?_⟩
      rintro (e5 | e5)
      · subst e5
        exact (List.Nodup.not_mem_erase (h.nodup _ hc')) hz
      · exact h4 e5
    · rw [Function.update_noteq e] at hz
      obtain ⟨b2, hb2, e2, h2, h3, h4⟩ := h.listed _ hc' z hz
      refine ⟨b2, hb2, e2, h2, h3, ?_⟩
      rintro (e5 | e5)
      · subst e5
        have := g.addr_inj hb2 hby e2
        subst this
        exact e (h3.symm.trans hycl)
      · exact h4 e5
  · -- complete
    intro d hd hfree hU
    have hU' : ¬ U d.addr := fun hh => hU (Or.inr hh)
    have hne : d.addr ≠ by'.addr := fun hh => hU (Or.inl hh)
    have := h.complete d hd hfree hU'
    by_cases e2 : pick_root d.size = c
    · rw [e2, Function.update_same]
      exact (List.mem_erase_of_ne hne).2 (e2 ▸ this)
    · rw [Function.update_noteq e2]
      exact this
  · -- nodup
    intro c' hc'
    by_cases e : c' = c
    · subst e
      rw [Function.update_same]
      exact List.Nodup.erase _ (h.nodup _ hc')
    · rw [Function.update_noteq e]
      exact h.nodup c' hc'
  · -- pending
    rintro a (rfl | ha)
    · exact ⟨by', hby, rfl, hyfree⟩
    · exact h.pending a ha


/-! ### Merging pending blocks -/

theorem Tiles_total_ge {l : List Blk} : ∀ {a e : Nat}, Tiles a l e → l ≠ [] →
    (∀ b ∈ l, 32 ≤ b.size) → a + 32 ≤ e := by
  cases l with
  | nil => intro a e _ h; exact absurd rfl h
  | cons b t =>
    intro a e h _ hs
    have := Tiles_le h.2
    have := hs b (by simp)
    omega

theorem Chain'_imp_mem {α : Type} {R S : α → α → Prop} {l : List α}
    (H : ∀ a b, a ∈ l → b ∈ l → R a b → S a b) (p : List.Chain' R l) : List.Chain' S l :=
  (List.Chain'.iff_mem.1 p).imp (fun a b h => H a b h.1 h.2.1 h.2.2)

/-- Writing one header and one footer over a run of pending free blocks
makes them one pending free block. -/
theorem merge_pending {s : Heap} {pre mid post : List Blk} {L : Nat → List Nat}
    {U : Nat → Prop} {a e : Nat}
    (h : FInv s (pre ++ mid ++ post) L U) (hmid : mid ≠ [])
    (hU : ∀ x, U x ↔ ∃ b ∈ mid, b.addr = x)
    (ha : Tiles (s.heap_listp + 96) pre a) (hm : Tiles a mid e) (hp : Tiles e post s.brk) :
    PreInv (put (put s (a - 8) (pack (e - a) 0)) (e - 16) (pack (e - a) 0))
      (pre ++ ⟨a, e - a, false⟩ :: post) L a := by
  have g := h.geom
  have hsz : ∀ b ∈ pre ++ mid ++ post, 32 ≤ b.size ∧ b.size % 16 = 0 := g.sizes
  have hae : a + 32 ≤ e :=
    Tiles_total_ge hm hmid (fun b hb => (hsz b (by simp [hb])).1)
  have hla : s.heap_listp + 96 ≤ a := Tiles_le ha
  have heb : e ≤ s.brk := Tiles_le hp
  have hbrk : s.brk ≤ SIZE_MOD := le_trans g.brk_le g.max_le
  have hl16 := g.hl16
  have ha16 : a % 16 = 0 :=
    (Tiles_aligned ha (by omega) (fun b hb => (hsz b (by simp [hb])).2)).2
  have he16 : e % 16 = 0 :=
    (Tiles_aligned hm ha16 (fun b hb => (hsz b (by simp [hb])).2)).2
  have hpk : pack (e - a) 0 = e - a := by rw [pack_eq _ _ (by omega) (by norm_num)]; rfl
  have hmod : (e - a) % SIZE_MOD = e - a := Nat.mod_eq_of_lt (by omega)
  have hpre : ∀ b ∈ pre, s.heap_listp + 96 ≤ b.addr ∧ b.addr + b.size ≤ a ∧ 32 ≤ b.size := by
    intro b hb
    have := Tiles_bounds ha b hb
    have := hsz b (by simp [hb])
    omega
  have hpost : ∀ b ∈ post, e ≤ b.addr ∧ b.addr + b.size ≤ s.brk ∧ 32 ≤ b.size := by
    intro b hb
    have := Tiles_bounds hp b hb
    have := hsz b (by simp [hb])
    omega
  have hmidb : ∀ b ∈ mid, a ≤ b.addr ∧ b.addr + b.size ≤ e ∧ 32 ≤ b.size := by
    intro b hb
    have := Tiles_bounds hm b hb
    have := hsz b (by simp [hb])
    omega
  have hUa : U a := by
    cases mid with
    | nil => exact absurd rfl hmid
    | cons m0 rest => exact (hU a).2 ⟨m0, by simp, hm.1⟩
  have hnotU_pre : ∀ b ∈ pre, ¬ U b.addr := by
    intro b hb hu
    obtain ⟨m, hm', e'⟩ := (hU _).1 hu
    have := hpre b hb
    have := hmidb m hm'
    omega
  have hnotU_post : ∀ b ∈ post, ¬ U b.addr := by
    intro b hb hu
    obtain ⟨m, hm', e'⟩ := (hU _).1 hu
    have := hpost b hb
    have := hmidb m hm'
    omega
  set t := put (put s (a - 8) (pack (e - a) 0)) (e - 16) (pack (e - a) 0) with ht
  have tmem : ∀ x, t.mem x = if x = e - 16 then e - a else if x = a - 8 then e - a else s.mem x := by
    intro x
    simp only [ht, put_mem, hpk, hmod]
  have tsame : ∀ x, x ≠ e - 16 → x ≠ a - 8 → t.mem x = s.mem x := by
    intro x h1 h2
    rw [tmem, if_neg h1, if_neg h2]
  -- listed nodes are blocks of `pre` or of `post`
  have hnode : ∀ c, c < 9 → ∀ y ∈ L c, ∃ b, (b ∈ pre ∨ b ∈ post) ∧ b.addr = y ∧
      b.alloc = false ∧ pick_root b.size = c := by
    intro c hc y hy
    obtain ⟨b, hb, e1, e2, e3, e4⟩ := h.listed c hc y hy
    refine ⟨b, ?_, e1, e2, e3⟩
    simp only [List.mem_append] at hb
    rcases hb with (hb | hb) | hb
    · exact Or.inl hb
    · exact absurd ((hU y).2 ⟨b, hb, e1⟩) e4
    · exact Or.inr hb
  refine ⟨g.hl16, g.hlpos, g.brk_le, g.max_le, ?_, ?_, ?_, ?_, ?_, ?_, ?_, ?_, h.nodup, ?_⟩
  · -- tiles
    refine Tiles_join ha ?_
    show Tiles (a + (e - a)) post s.brk
    have : a + (e - a) = e := by omega
    rw [this]; exact hp
  · -- blocks
    intro b hb
    simp only [List.mem_append, List.mem_cons] at hb
    rcases hb with hb | rfl | hb
    · have := hpre b hb
      refine BlockOk_congr (h.blocks b (by simp [hb])) (tsame _ (by omega) (by omega))
        (tsame _ (by omega) (by omega))
    · unfold BlockOk
      simp only [get_size_eq, get_alloc_eq, get_header, WSIZE, DSIZE, tmem]
      have e1 : a + (e - a) - 16 = e - 16 := by omega
      have e2 : a - 8 ≠ e - 16 := by omega
      simp only [e1, e2, if_true, if_false, hmod]
      refine ⟨by omega, ?_, by omega, ?_, by omega, by omega⟩
      · simp; omega
      · simp; omega
    · have := hpost b hb
      refine BlockOk_congr (h.blocks b (by simp [hb])) (tsame _ (by omega) (by omega))
        (tsame _ (by omega) (by omega))
  · -- prologue
    have : t.mem (s.heap_listp + 80) = s.mem (s.heap_listp + 80) :=
      tsame _ (by omega) (by omega)
    show get_alloc t (s.heap_listp + 80) = true
    rw [get_alloc_eq, this, ← get_alloc_eq]
    exact h.prologue
  · -- epilogue
    have : t.mem (s.brk - 8) = s.mem (s.brk - 8) := tsame _ (by omega) (by omega)
    show get_alloc t (s.brk - 8) = true
    rw [get_alloc_eq, this, ← get_alloc_eq]
    exact h.epilogue
  · -- no adjacent free blocks away from the merged block
    have hn := h.noadj
    rw [List.append_assoc] at hn
    obtain ⟨c1, c2, c3⟩ := List.chain'_append.1 hn
    obtain ⟨_, c4, c5⟩ := List.chain'_append.1 c2
    unfold NoAdjFreeBut
    refine List.chain'_append.2 ⟨?_, ?_, ?_⟩
    · refine Chain'_imp_mem ?_ c1
      intro x y hx hy hxy
      have := hnotU_pre x hx
      have := hnotU_pre y hy
      tauto
    · refine List.chain'_cons'.2 ⟨?_, ?_⟩
      · intro y _
        right; right; left; rfl
      · refine Chain'_imp_mem ?_ c4
        intro x y hx hy hxy
        have := hnotU_post x hx
        have := hnotU_post y hy
        tauto
    · intro x _ y hy
      simp only [List.head?_cons, Option.mem_def, Option.some.injEq] at hy
      subst hy
      right; right; right; rfl
  · -- chains
    intro c hc
    have hr : root_array t c = s.heap_listp + c * 8 := rfl
    rw [hr]
    have hch := h.chains c hc
    rw [root_array_eq] at hch
    refine Chain_congr hch ?_ ?_
    · apply tsame
      · omega
      · omega
    · intro y hy
      obtain ⟨b, hb, rfl, _⟩ := hnode c hc y hy
      rcases hb with hb | hb
      · have := hpre b hb
        exact ⟨tsame _ (by omega) (by omega), tsame _ (by omega) (by omega)⟩
      · have := hpost b hb
        exact ⟨tsame _ (by omega) (by omega), tsame _ (by omega) (by omega)⟩
  · -- listed
    intro c hc y hy
    obtain ⟨b, hb, e1, e2, e3⟩ := hnode c hc y hy
    refine ⟨b, ?_, e1, e2, e3, ?_⟩
    · simp only [List.mem_append, List.mem_cons]
      tauto
    · rintro rfl
      rcases hb with hb | hb
      · have := hpre b hb; omega
      · have := hpost b hb; omega
  · -- complete
    intro d hd hfree hne
    simp only [List.mem_append, List.mem_cons] at hd
    rcases hd with hd | rfl | hd
    · exact h.complete d (by simp [hd]) hfree (hnotU_pre d hd)
    · exact absurd rfl hne
    · exact h.complete d (by simp [hd]) hfree (hnotU_post d hd)
  · exact ⟨⟨a, e - a, false⟩, by simp, rfl, rfl⟩


/-! ### The three merging cases of `coalesce` -/

theorem FInv.tag_after_reset {s : Heap} {bs : List Blk} {L : Nat → List Nat} {U : Nat → Prop}
    (h : FInv s bs L U) {c y : Nat} (hc : c < 9) (hy : y ∈ L c) {d : Blk} (hd : d ∈ bs) :
    (reset_free s y).mem (d.addr - 8) = s.mem (d.addr - 8) ∧
    (reset_free s y).mem (d.addr + d.size - 16) = s.mem (d.addr + d.size - 16) := by
  obtain ⟨_, hfr, _⟩ := reset_listed h hc hy
  have g := h.geom
  have fd := g.facts hd
  constructor
  · apply hfr
    · omega
    · intro f hf _
      have := g.tag_ne_cell hd hf
      exact ⟨this.1, this.2.1⟩
  · apply hfr
    · omega
    · intro f hf _
      have := g.tag_ne_cell hd hf
      exact ⟨this.2.2.1, this.2.2.2⟩

/-- Case "previous allocated, next free": the pending block absorbs its
successor. -/
theorem coalesce_next {s : Heap} {pre post : List Blk} {X N : Blk} {L : Nat → List Nat}
    (h : PreInv s (pre ++ X :: N :: post) L X.addr) (hN : N.alloc = false) :
    PreInv (put (put (reset_free s N.addr) (X.addr - 8) (pack (X.size + N.size) 0))
        (N.addr + N.size - 16) (pack (X.size + N.size) 0))
      (pre ++ ⟨X.addr, X.size + N.size, false⟩ :: post)
      (Function.update L (pick_root N.size) ((L (pick_root N.size)).erase N.addr)) X.addr := by
  have g := h.pre_geom
  obtain ⟨t1, t2⟩ := Tiles_split g.tiles
  have hNa : N.addr = X.addr + X.size := t2.1
  have hXs := (g.sizes X (by simp)).1
  have hNl : N.addr ∈ L (pick_root N.size) :=
    h.complete N (by simp) hN (by omega)
  obtain ⟨hF, _, f1, f2, f3⟩ := reset_listed h.pre_toFInv (pick_root_lt _) hNl
  have hbs : pre ++ X :: N :: post = pre ++ [X, N] ++ post := by simp
  rw [hbs] at hF
  have key := merge_pending (a := X.addr) (e := N.addr + N.size) hF (by simp)
    (by
      intro x
      simp only [List.mem_cons, List.mem_singleton, List.not_mem_nil, or_false]
      constructor
      · rintro (rfl | rfl)
        · exact ⟨N, Or.inr rfl, rfl⟩
        · exact ⟨X, Or.inl rfl, rfl⟩
      · rintro ⟨b, (rfl | rfl), rfl⟩
        · right; rfl
        · left; rfl)
    (by rw [f3]; exact t1)
    ⟨rfl, hNa, by show _ = _; omega⟩
    (by rw [f1, hNa]; exact t2.2)
  have e1 : N.addr + N.size - X.addr = X.size + N.size := by omega
  rw [e1] at key
  exact key

/-- Case "previous free, next allocated": the predecessor absorbs the
pending block. -/
theorem coalesce_prev {s : Heap} {pre post : List Blk} {P X : Blk} {L : Nat → List Nat}
    (h : PreInv s (pre ++ P :: X :: post) L X.addr) (hP : P.alloc = false) :
    PreInv (put (put (reset_free s P.addr) (P.addr - 8) (pack (X.size + P.size) 0))
        (X.addr + X.size - 16) (pack (X.size + P.size) 0))
      (pre ++ ⟨P.addr, X.size + P.size, false⟩ :: post)
      (Function.update L (pick_root P.size) ((L (pick_root P.size)).erase P.addr)) P.addr := by
  have g := h.pre_geom
  obtain ⟨t1, t2⟩ := Tiles_split g.tiles
  have hXa : X.addr = P.addr + P.size := t2.1
  have hPs := (g.sizes P (by simp)).1
  have hPl : P.addr ∈ L (pick_root P.size) :=
    h.complete P (by simp) hP (by omega)
  obtain ⟨hF, _, f1, f2, f3⟩ := reset_listed h.pre_toFInv (pick_root_lt _) hPl
  have hbs : pre ++ P :: X :: post = pre ++ [P, X] ++ post := by simp
  rw [hbs] at hF
  have key := merge_pending (a := P.addr) (e := X.addr + X.size) hF (by simp)
    (by
      intro x
      simp only [List.mem_cons, List.mem_singleton, List.not_mem_nil, or_false]
      constructor
      · rintro (rfl | rfl)
        · exact ⟨P, Or.inl rfl, rfl⟩
        · exact ⟨X, Or.inr rfl, rfl⟩
      · rintro ⟨b, (rfl | rfl), rfl⟩
        · left; rfl
        · right; rfl)
    (by rw [f3]; exact t1)
    ⟨rfl, hXa, by show _ = _; omega⟩
    (by rw [f1, hXa]; exact t2.2)
  have e1 : X.addr + X.size - P.addr = X.size + P.size := by omega
  rw [e1] at key
  exact key

/-- Case "previous free, next free": the predecessor absorbs the pending
block and its successor. -/
theorem coalesce_both {s : Heap} {pre post : List Blk} {P X N : Blk} {L : Nat → List Nat}
    (h : PreInv s (pre ++ P :: X :: N :: post) L X.addr) (hP : P.alloc = false)
    (hN : N.alloc = false) :
    PreInv (put (put (reset_free (reset_free s P.addr) N.addr) (P.addr - 8)
          (pack (X.size + P.size + N.size) 0))
        (N.addr + N.size - 16) (pack (X.size + P.size + N.size) 0))
      (pre ++ ⟨P.addr, X.size + P.size + N.size, false⟩ :: post)
      (Function.update
        (Function.update L (pick_root P.size) ((L (pick_root P.size)).erase P.addr))
        (pick_root N.size)
        ((Function.update L (pick_root P.size) ((L (pick_root P.size)).erase P.addr)
          (pick_root N.size)).erase N.addr)) P.addr := by
  have g := h.pre_geom
  obtain ⟨t1, t2⟩ := Tiles_split g.tiles
  have hXa : X.addr = P.addr + P.size := t2.1
  have hNa : N.addr = X.addr + X.size := by
    have := t2.2.1
    omega
  have hPs := (g.sizes P (by simp)).1
  have hXs := (g.sizes X (by simp)).1
  have hPl : P.addr ∈ L (pick_root P.size) :=
    h.complete P (by simp) hP (by omega)
  have hNl : N.addr ∈ L (pick_root N.size) :=
    h.complete N (by simp) hN (by omega)
  obtain ⟨hF, _, f1, f2, f3⟩ := reset_listed h.pre_toFInv (pick_root_lt _) hPl
  have hNl' : N.addr ∈ Function.update L (pick_root P.size)
      ((L (pick_root P.size)).erase P.addr) (pick_root N.size) := by
    by_cases e : pick_root N.size = pick_root P.size
    · rw [e, Function.update_same]
      rw [e] at hNl
      exact (List.mem_erase_of_ne (by omega)).2 hNl
    · rw [Function.update_noteq e]; exact hNl
  obtain ⟨hF2, _, k1, k2, k3⟩ := reset_listed hF (pick_root_lt _) hNl'
  have hbs : pre ++ P :: X :: N :: post = pre ++ [P, X, N] ++ post := by simp
  rw [hbs] at hF2
  have key := merge_pending (a := P.addr) (e := N.addr + N.size) hF2 (by simp)
    (by
      intro x
      simp only [List.mem_cons, List.mem_singleton, List.not_mem_nil, or_false]
      constructor
      · rintro (rfl | rfl | rfl)
        · exact ⟨N, Or.inr (Or.inr rfl), rfl⟩
        · exact ⟨P, Or.inl rfl, rfl⟩
        · exact ⟨X, Or.inr (Or.inl rfl), rfl⟩
      · rintro ⟨b, (rfl | rfl | rfl), rfl⟩
        · right; left; rfl
        · right; right; rfl
        · left; rfl)
    (by rw [k3, f3]; exact t1)
    ⟨rfl, hXa, by show _ = _; omega, by show _ = _; omega⟩
    (by rw [k1, f1, hNa, hXa]; exact t2.2.2)
  have e1 : N.addr + N.size - P.addr = X.size + P.size + N.size := by omega
  rw [e1] at key
  exact key


/-! ### `coalesce` on a pending block -/

theorem noadj_close {s : Heap} {pre post : List Blk} {M : Blk} {L : Nat → List Nat}
    (h : PreInv s (pre ++ M :: post) L M.addr)
    (hp : ∀ p ∈ pre.getLast?, p.alloc = true) (hn : ∀ n ∈ post.head?, n.alloc = true) :
    NoAdjFree (pre ++ M :: post) := by
  have g := h.pre_geom
  obtain ⟨t1, t2⟩ := Tiles_split g.tiles
  have hMs := (g.sizes M (by simp)).1
  have hpre : ∀ b ∈ pre, b.addr ≠ M.addr := by
    intro b hb
    have := Tiles_bounds t1 b hb
    have := (g.sizes b (by simp [hb])).1
    omega
  have hpost : ∀ b ∈ post, b.addr ≠ M.addr := by
    intro b hb
    have := Tiles_bounds t2 b hb
    omega
  obtain ⟨c1, c2, c3⟩ := List.chain'_append.1 h.noadj
  obtain ⟨c4, c5⟩ := List.chain'_cons'.1 c2
  refine List.chain'_append.2 ⟨?_, ?_, ?_⟩
  · refine Chain'_imp_mem ?_ c1
    intro x y hx hy hxy
    have := hpre x hx
    have := hpre y hy
    tauto
  · refine List.chain'_cons'.2 ⟨?_, ?_⟩
    · intro y hy
      right; exact hn y hy
    · refine Chain'_imp_mem ?_ c5
      intro x y hx hy hxy
      have := hpost x hx
      have := hpost y hy
      tauto
  · intro x hx y hy
    left; exact hp x hx

theorem getLast?_concat' {α : Type} (l : List α) (a : α) : (l ++ [a]).getLast? = some a := by
  simp

/-- What `coalesce` reads of the neighbours of a block. -/
theorem neighbour_reads {s : Heap} {pre post : List Blk} {X : Blk} {L : Nat → List Nat}
    (h : PreInv s (pre ++ X :: post) L X.addr) :
    get_size s (get_header X.addr) = X.size ∧
    ((get_alloc s (X.addr - 16) = true ∧ ∀ p ∈ pre.getLast?, p.alloc = true) ∨
      (get_alloc s (X.addr - 16) = false ∧ ∃ pre' P, pre = pre' ++ [P] ∧ P.alloc = false ∧
        get_size s (X.addr - 16) = P.size ∧ P.addr + P.size = X.addr)) ∧
    ((get_alloc s (X.addr + X.size - 8) = true ∧ ∀ n ∈ post.head?, n.alloc = true) ∨
      (get_alloc s (X.addr + X.size - 8) = false ∧ ∃ N post', post = N :: post' ∧
        N.alloc = false ∧ N.addr = X.addr + X.size)) := by
  have g := h.pre_geom
  obtain ⟨t1, t2⟩ := Tiles_split g.tiles
  refine ⟨(h.blocks X (by simp)).1, ?_, ?_⟩
  · rcases List.eq_nil_or_concat pre with rfl | ⟨pre', P, hpre⟩
    · left
      have : s.heap_listp + 96 = X.addr := t1
      rw [← this]
      exact ⟨h.prologue, by simp⟩
    · rw [List.concat_eq_append] at hpre
      subst hpre
      obtain ⟨e1, _⟩ := Tiles_last t1
      have hP := h.blocks P (by simp)
      have hPs := (g.sizes P (by simp)).1
      have e2 : X.addr - 16 = P.addr + P.size - DSIZE := by simp only [DSIZE]; omega
      cases hPa : P.alloc with
      | true =>
        left
        refine ⟨by rw [e2, hP.2.2.2.1, hPa], ?_⟩
        intro p hp
        rw [getLast?_concat'] at hp
        simp only [Option.mem_def, Option.some.injEq] at hp
        rw [← hp]; exact hPa
      | false =>
        right
        exact ⟨by rw [e2, hP.2.2.2.1, hPa], pre', P, rfl, hPa, by rw [e2, hP.2.2.1], e1⟩
  · cases post with
    | nil =>
      left
      have : X.addr + X.size = s.brk := t2
      rw [this]
      exact ⟨h.epilogue, by simp⟩
    | cons N post' =>
      have hN := h.blocks N (by simp)
      have e1 : N.addr = X.addr + X.size := t2.1
      have hXs := (g.sizes X (by simp)).1
      have e2 : X.addr + X.size - 8 = get_header N.addr := by
        simp only [get_header, WSIZE]; omega
      cases hNa : N.alloc with
      | true =>
        left
        refine ⟨by rw [e2, hN.2.1, hNa], ?_⟩
        intro n hn
        simp only [List.head?_cons, Option.mem_def, Option.some.injEq] at hn
        rw [← hn]; exact hNa
      | false =>
        right
        exact ⟨by rw [e2, hN.2.1, hNa], N, post', rfl, hNa, e1⟩



theorem coalesce_eq4 {s : Heap} {bp : Nat} (hpa : get_alloc s (bp - DSIZE) = true)
    (hna : get_alloc s (get_header (get_nextblk s bp)) = true) : coalesce s bp = (bp, s) := by
  simp [coalesce, hpa, hna]

theorem coalesce_eq1 {s : Heap} {bp : Nat} (hpa : get_alloc s (bp - DSIZE) = false)
    (hna : get_alloc s (get_header (get_nextblk s bp)) = true) :
    coalesce s bp = (get_prevblk s bp,
      put (put (reset_free s (get_prevblk s bp)) (get_header (get_prevblk s bp))
          (pack (add64 (get_size s (get_header bp))
            (get_size s (get_header (get_prevblk s bp)))) 0))
        (get_footer (put (reset_free s (get_prevblk s bp)) (get_header (get_prevblk s bp))
          (pack (add64 (get_size s (get_header bp))
            (get_size s (get_header (get_prevblk s bp)))) 0)) bp)
        (pack (add64 (get_size s (get_header bp))
            (get_size s (get_header (get_prevblk s bp)))) 0)) := by
  simp [coalesce, hpa, hna]

theorem coalesce_eq2 {s : Heap} {bp : Nat} (hpa : get_alloc s (bp - DSIZE) = true)
    (hna : get_alloc s (get_header (get_nextblk s bp)) = false) :
    coalesce s bp = (bp,
      put (put (reset_free s (get_nextblk s bp)) (get_header bp)
          (pack (add64 (get_size s (get_header bp))
            (get_size s (get_header (get_nextblk s bp)))) 0))
        (get_footer (put (reset_free s (get_nextblk s bp)) (get_header bp)
          (pack (add64 (get_size s (get_header bp))
            (get_size s (get_header (get_nextblk s bp)))) 0)) (get_nextblk s bp))
        (pack (add64 (get_size s (get_header bp))
            (get_size s (get_header (get_nextblk s bp)))) 0)) := by
  simp [coalesce, hpa, hna]

theorem coalesce_eq3 {s : Heap} {bp : Nat} (hpa : get_alloc s (bp - DSIZE) = false)
    (hna : get_alloc s (get_header (get_nextblk s bp)) = false) :
    coalesce s bp = (get_prevblk s bp,
      put (put (reset_free (reset_free s (get_prevblk s bp)) (get_nextblk s bp))
          (get_header (get_prevblk s bp))
          (pack (add64 (add64 (get_size s (get_header bp))
            (get_size s (get_header (get_prevblk s bp))))
            (get_size s (get_header (get_nextblk s bp)))) 0))
        (get_footer (put (reset_free (reset_free s (get_prevblk s bp)) (get_nextblk s bp))
          (get_header (get_prevblk s bp))
          (pack (add64 (add64 (get_size s (get_header bp))
            (get_size s (get_header (get_prevblk s bp))))
            (get_size s (get_header (get_nextblk s bp)))) 0)) (get_nextblk s bp))
        (pack (add64 (add64 (get_size s (get_header bp))
            (get_size s (get_header (get_prevblk s bp))))
            (get_size s (get_header (get_nextblk s bp)))) 0)) := by
  simp [coalesce, hpa, hna]


theorem PreInv.pending_free {s : Heap} {pre post : List Blk} {X : Blk} {L : Nat → List Nat}
    (h : PreInv s (pre ++ X :: post) L X.addr) : X.alloc = false := by
  obtain ⟨b, hb, e, hf⟩ := h.pending
  have := h.pre_geom.addr_inj hb (by simp) e
  subst this; exact hf

theorem add64_eq {a b : Nat} (h : a + b < SIZE_MOD) : add64 a b = a + b :=
  Nat.mod_eq_of_lt h

theorem coalesce_post4 {s : Heap} {pre post : List Blk} {X : Blk} {L : Nat → List Nat}
    (h : PreInv s (pre ++ X :: post) L X.addr)
    (hpa : get_alloc s (X.addr - 16) = true) (hp : ∀ p ∈ pre.getLast?, p.alloc = true)
    (hna : get_alloc s (X.addr + X.size - 8) = true) (hn : ∀ n ∈ post.head?, n.alloc = true) :
    CoalescePost s (pre ++ X :: post) X.addr (coalesce s X.addr) := by
  have hsz : get_size s (get_header X.addr) = X.size := (h.blocks X (by simp)).1
  have e : coalesce s X.addr = (X.addr, s) := by
    apply coalesce_eq4
    · exact hpa
    · rw [get_nextblk, hsz]; simp only [get_header, WSIZE]; exact hna
  rw [e]
  refine ⟨pre ++ X :: post, L, X, by simp, rfl, h, noadj_close h hp hn, rfl, rfl, rfl, ?_,
    Or.inl rfl, fun d _ => Iff.rfl⟩
  have := (h.blocks X (by simp)).2.1
  rw [h.pending_free] at this
  exact this

theorem coalesce_post2 {s : Heap} {pre post : List Blk} {X N : Blk} {L : Nat → List Nat}
    (h : PreInv s (pre ++ X :: N :: post) L X.addr)
    (hpa : get_alloc s (X.addr - 16) = true) (hp : ∀ p ∈ pre.getLast?, p.alloc = true)
    (hna : get_alloc s (X.addr + X.size - 8) = false) (hN : N.alloc = false) :
    CoalescePost s (pre ++ X :: N :: post) X.addr (coalesce s X.addr) := by
  have g := h.pre_geom
  obtain ⟨t1, t2⟩ := Tiles_split g.tiles
  have hNa : N.addr = X.addr + X.size := t2.1
  have fX := g.facts (b := X) (by simp)
  have fN := g.facts (b := N) (by simp)
  have hsz : get_size s (get_header X.addr) = X.size := (h.blocks X (by simp)).1
  have hszN : get_size s (get_header N.addr) = N.size := (h.blocks N (by simp)).1
  have hnb : get_nextblk s X.addr = N.addr := by simp only [get_nextblk, hsz]; omega
  have hNl : N.addr ∈ L (pick_root N.size) := h.complete N (by simp) hN (by omega)
  obtain ⟨_, hfr, f1, f2, f3⟩ := reset_listed h.pre_toFInv (pick_root_lt _) hNl
  have htagN := h.pre_toFInv.tag_after_reset (pick_root_lt _) hNl (d := N) (by simp)
  have hft : get_footer (put (reset_free s N.addr) (get_header X.addr)
      (pack (add64 X.size N.size) 0)) N.addr = N.addr + N.size - 16 := by
    simp only [get_footer, get_size_eq, get_header, WSIZE, DSIZE, put_mem]
    have : N.addr - 8 ≠ X.addr - 8 := by omega
    rw [if_neg this, htagN.1]
    have := hszN
    simp only [get_size_eq, get_header, WSIZE] at this
    rw [this]
  have e : coalesce s X.addr = (X.addr,
      put (put (reset_free s N.addr) (X.addr - 8) (pack (X.size + N.size) 0))
        (N.addr + N.size - 16) (pack (X.size + N.size) 0)) := by
    rw [coalesce_eq2 hpa (by rw [get_nextblk, hsz]; simp only [get_header, WSIZE]; exact hna)]
    rw [hnb, hsz, hszN, hft, add64_eq (by omega)]
    rfl
  rw [e]
  have key := coalesce_next h hN
  have hXfree := h.pending_free
  refine ⟨_, _, ⟨X.addr, X.size + N.size, false⟩, by simp, rfl, key, ?_, ?_, ?_, ?_, ?_,
    Or.inl rfl, ?_⟩
  · apply noadj_close key hp
    intro n hn
    obtain ⟨c1, c2, _⟩ := List.chain'_append.1 h.noadj
    have c3 := (List.chain'_cons'.1 c2).2
    have c4 := (List.chain'_cons'.1 c3).1 n hn
    have : n ∈ post := List.mem_of_mem_head? hn
    have fn := Tiles_bounds t2.2 n this
    rcases c4 with c4 | c4 | c4 | c4
    · rw [hN] at c4; exact absurd c4 (by simp)
    · exact c4
    · omega
    · omega
  · simp [f1]
  · simp [f2]
  · simp [f3]
  · rw [get_alloc_eq]
    have a1 : X.addr - 8 ≠ N.addr + N.size - 16 := by omega
    simp only [put_mem, if_neg a1, if_true]
    rw [pack_eq _ _ (by omega) (by norm_num)]
    have : (X.size + N.size + 0) % SIZE_MOD = X.size + N.size := Nat.mod_eq_of_lt (by omega)
    rw [this]
    simp; omega
  · intro d hd
    simp only [List.mem_append, List.mem_cons]
    constructor
    · rintro (h1 | rfl | h1)
      · tauto
      · simp at hd
      · tauto
    · rintro (h1 | rfl | rfl | h1)
      · tauto
      · rw [hXfree] at hd; simp at hd
      · rw [hN] at hd; simp at hd
      · tauto


theorem last_alloc_of_noadj {x : Nat} {pre rest : List Blk} {P : Blk}
    (h : NoAdjFreeBut x (pre ++ P :: rest)) (hP : P.alloc = false) (hPx : P.addr ≠ x)
    (hpre : ∀ b ∈ pre, b.addr ≠ x) : ∀ q ∈ pre.getLast?, q.alloc = true := by
  intro q hq
  obtain ⟨_, _, c3⟩ := List.chain'_append.1 h
  have hqm : q ∈ pre := List.mem_of_getLast?_eq_some hq
  rcases c3 q hq P (by simp) with c | c | c | c
  · exact c
  · rw [hP] at c; exact absurd c (by simp)
  · exact absurd c (hpre q hqm)
  · exact absurd c hPx

theorem coalesce_post1 {s : Heap} {pre post : List Blk} {P X : Blk} {L : Nat → List Nat}
    (h : PreInv s (pre ++ P :: X :: post) L X.addr)
    (hpa : get_alloc s (X.addr - 16) = false) (hP : P.alloc = false)
    (hna : get_alloc s (X.addr + X.size - 8) = true) (hn : ∀ n ∈ post.head?, n.alloc = true) :
    CoalescePost s (pre ++ P :: X :: post) X.addr (coalesce s X.addr) := by
  have g := h.pre_geom
  obtain ⟨t1, t2⟩ := Tiles_split g.tiles
  have hXa : X.addr = P.addr + P.size := t2.1
  have fX := g.facts (b := X) (by simp)
  have fP := g.facts (b := P) (by simp)
  have hsz : get_size s (get_header X.addr) = X.size := (h.blocks X (by simp)).1
  have hszP : get_size s (get_header P.addr) = P.size := (h.blocks P (by simp)).1
  have hftP : get_size s (X.addr - DSIZE) = P.size := by
    have := (h.blocks P (by simp)).2.2.1
    have e : P.addr + P.size - DSIZE = X.addr - DSIZE := by omega
    rw [e] at this; exact this
  have hpb : get_prevblk s X.addr = P.addr := by simp only [get_prevblk, hftP]; omega
  have hPl : P.addr ∈ L (pick_root P.size) := h.complete P (by simp) hP (by omega)
  obtain ⟨_, hfr, f1, f2, f3⟩ := reset_listed h.pre_toFInv (pick_root_lt _) hPl
  have htagX := h.pre_toFInv.tag_after_reset (pick_root_lt _) hPl (d := X) (by simp)
  have hft : get_footer (put (reset_free s P.addr) (get_header P.addr)
      (pack (add64 X.size P.size) 0)) X.addr = X.addr + X.size - 16 := by
    simp only [get_footer, get_size_eq, get_header, WSIZE, DSIZE, put_mem]
    have : X.addr - 8 ≠ P.addr - 8 := by omega
    rw [if_neg this, htagX.1]
    have := hsz
    simp only [get_size_eq, get_header, WSIZE] at this
    rw [this]
  have e : coalesce s X.addr = (P.addr,
      put (put (reset_free s P.addr) (P.addr - 8) (pack (X.size + P.size) 0))
        (X.addr + X.size - 16) (pack (X.size + P.size) 0)) := by
    rw [coalesce_eq1 hpa (by rw [get_nextblk, hsz]; simp only [get_header, WSIZE]; exact hna)]
    rw [hpb, hsz, hszP, hft, add64_eq (by omega)]
    rfl
  rw [e]
  have key := coalesce_prev h hP
  have hXfree : X.alloc = false := by
    obtain ⟨b, hb, e, hf⟩ := h.pending
    have := g.addr_inj hb (by simp) e
    subst this; exact hf
  refine ⟨_, _, ⟨P.addr, X.size + P.size, false⟩, by simp, rfl, key, ?_, ?_, ?_, ?_, ?_,
    Or.inr ⟨by show P.addr + 32 ≤ X.addr; omega, by show X.addr + 32 ≤ P.addr + (X.size + P.size); omega⟩,
    ?_⟩
  · apply noadj_close key _ hn
    apply last_alloc_of_noadj h.noadj hP (by omega)
    intro b hb
    have := Tiles_bounds t1 b hb
    have := (g.sizes b (by simp [hb])).1
    omega
  · simp [f1]
  · simp [f2]
  · simp [f3]
  · rw [get_alloc_eq]
    have a1 : X.addr - 8 ≠ X.addr + X.size - 16 := by omega
    have a2 : X.addr - 8 ≠ P.addr - 8 := by omega
    simp only [put_mem, if_neg a1, if_neg a2]
    rw [htagX.1, ← get_alloc_eq]
    have := (h.blocks X (by simp)).2.1
    rw [hXfree] at this
    exact this
  · intro d hd
    simp only [List.mem_append, List.mem_cons]
    constructor
    · rintro (h1 | rfl | h1)
      · tauto
      · simp at hd
      · tauto
    · rintro (h1 | rfl | rfl | h1)
      · tauto
      · rw [hP] at hd; simp at hd
      · rw [hXfree] at hd; simp at hd
      · tauto

theorem coalesce_post3 {s : Heap} {pre post : List Blk} {P X N : Blk} {L : Nat → List Nat}
    (h : PreInv s (pre ++ P :: X :: N :: post) L X.addr)
    (hpa : get_alloc s (X.addr - 16) = false) (hP : P.alloc = false)
    (hna : get_alloc s (X.addr + X.size - 8) = false) (hN : N.alloc = false) :
    CoalescePost s (pre ++ P :: X :: N :: post) X.addr (coalesce s X.addr) := by
  have g := h.pre_geom
  obtain ⟨t1, t2⟩ := Tiles_split g.tiles
  have hXa : X.addr = P.addr + P.size := t2.1
  have hNa : N.addr = X.addr + X.size := by
    have := t2.2.1
    omega
  have fX := g.facts (b := X) (by simp)
  have fP := g.facts (b := P) (by simp)
  have fN := g.facts (b := N) (by simp)
  have hsz : get_size s (get_header X.addr) = X.size := (h.blocks X (by simp)).1
  have hszP : get_size s (get_header P.addr) = P.size := (h.blocks P (by simp)).1
  have hszN : get_size s (get_header N.addr) = N.size := (h.blocks N (by simp)).1
  have hftP : get_size s (X.addr - DSIZE) = P.size := by
    have := (h.blocks P (by simp)).2.2.1
    have e : P.addr + P.size - DSIZE = X.addr - DSIZE := by omega
    rw [e] at this; exact this
  have hpb : get_prevblk s X.addr = P.addr := by simp only [get_prevblk, hftP]; omega
  have hnb : get_nextblk s X.addr = N.addr := by simp only [get_nextblk, hsz]; omega
  have hPl : P.addr ∈ L (pick_root P.size) := h.complete P (by simp) hP (by omega)
  have hNl : N.addr ∈ L (pick_root N.size) := h.complete N (by simp) hN (by omega)
  obtain ⟨hF, hfr, f1, f2, f3⟩ := reset_listed h.pre_toFInv (pick_root_lt _) hPl
  have hNl' : N.addr ∈ Function.update L (pick_root P.size)
      ((L (pick_root P.size)).erase P.addr) (pick_root N.size) := by
    by_cases e : pick_root N.size = pick_root P.size
    · rw [e, Function.update_same]
      rw [e] at hNl
      exact (List.mem_erase_of_ne (by omega)).2 hNl
    · rw [Function.update_noteq e]; exact hNl
  obtain ⟨_, hfr2, k1, k2, k3⟩ := reset_listed hF (pick_root_lt _) hNl'
  have htagX := h.pre_toFInv.tag_after_reset (pick_root_lt _) hPl (d := X) (by simp)
  have htagN := h.pre_toFInv.tag_after_reset (pick_root_lt _) hPl (d := N) (by simp)
  have htagX2 := hF.tag_after_reset (pick_root_lt _) hNl' (d := X) (by simp)
  have htagN2 := hF.tag_after_reset (pick_root_lt _) hNl' (d := N) (by simp)
  have hft : get_footer (put (reset_free (reset_free s P.addr) N.addr) (get_header P.addr)
      (pack (add64 (add64 X.size P.size) N.size) 0)) N.addr = N.addr + N.size - 16 := by
    simp only [get_footer, get_size_eq, get_header, WSIZE, DSIZE, put_mem]
    have : N.addr - 8 ≠ P.addr - 8 := by omega
    rw [if_neg this, htagN2.1, htagN.1]
    have := hszN
    simp only [get_size_eq, get_header, WSIZE] at this
    rw [this]
  have e : coalesce s X.addr = (P.addr,
      put (put (reset_free (reset_free s P.addr) N.addr) (P.addr - 8)
          (pack (X.size + P.size + N.size) 0))
        (N.addr + N.size - 16) (pack (X.size + P.size + N.size) 0)) := by
    rw [coalesce_eq3 hpa (by rw [get_nextblk, hsz]; simp only [get_header, WSIZE]; exact hna)]
    rw [hpb, hnb, hsz, hszP, hszN, hft, add64_eq (a := X.size) (by omega), add64_eq (by omega)]
    rfl
  rw [e]
  have key := coalesce_both h hP hN
  have hXfree : X.alloc = false := by
    obtain ⟨b, hb, e, hf⟩ := h.pending
    have := g.addr_inj hb (by simp) e
    subst this; exact hf
  refine ⟨_, _, ⟨P.addr, X.size + P.size + N.size, false⟩, by simp, rfl, key, ?_, ?_, ?_, ?_,
    ?_, Or.inr ⟨by show P.addr + 32 ≤ X.addr; omega,
      by show X.addr + 32 ≤ P.addr + (X.size + P.size + N.size); omega⟩, ?_⟩
  · apply noadj_close key
    · apply last_alloc_of_noadj h.noadj hP (by omega)
      intro b hb
      have := Tiles_bounds t1 b hb
      have := (g.sizes b (by simp [hb])).1
      omega
    · intro n hn
      obtain ⟨c1, c2, _⟩ := List.chain'_append.1 h.noadj
      have c3 := (List.chain'_cons'.1 c2).2
      have c4 := (List.chain'_cons'.1 c3).2
      have c5 := (List.chain'_cons'.1 c4).1 n hn
      have : n ∈ post := List.mem_of_mem_head? hn
      have fn := Tiles_bounds t2.2.2 n this
      rcases c5 with c5 | c5 | c5 | c5
      · rw [hN] at c5; exact absurd c5 (by simp)
      · exact c5
      · omega
      · omega
  · simp [k1, f1]
  · simp [k2, f2]
  · simp [k3, f3]
  · rw [get_alloc_eq]
    have a1 : X.addr - 8 ≠ N.addr + N.size - 16 := by omega
    have a2 : X.addr - 8 ≠ P.addr - 8 := by omega
    simp only [put_mem, if_neg a1, if_neg a2]
    rw [htagX2.1, htagX.1, ← get_alloc_eq]
    have := (h.blocks X (by simp)).2.1
    rw [hXfree] at this
    exact this
  · intro d hd
    simp only [List.mem_append, List.mem_cons]
    constructor
    · rintro (h1 | rfl | h1)
      · tauto
      · simp at hd
      · tauto
    · rintro (h1 | rfl | rfl | rfl | h1)
      · tauto
      · rw [hP] at hd; simp at hd
      · rw [hXfree] at hd; simp at hd
      · rw [hN] at hd; simp at hd
      · tauto

/-- `coalesce` on a pending block: whatever the neighbours, the result is
one pending block with allocated neighbours. -/
theorem coalesce_pending {s : Heap} {pre post : List Blk} {X : Blk} {L : Nat → List Nat}
    (h : PreInv s (pre ++ X :: post) L X.addr) :
    CoalescePost s (pre ++ X :: post) X.addr (coalesce s X.addr) := by
  obtain ⟨_, hp, hn⟩ := neighbour_reads h
  rcases hp with ⟨hpa, hp⟩ | ⟨hpa, pre', P, rfl, hP, _, _⟩
  · rcases hn with ⟨hna, hn⟩ | ⟨hna, N, post', rfl, hN, _⟩
    · exact coalesce_post4 h hpa hp hna hn
    · exact coalesce_post2 h hpa hp hna hN
  · have e : ∀ r, pre' ++ [P] ++ X :: r = pre' ++ P :: X :: r := by intro r; simp
    rcases hn with ⟨hna, hn⟩ | ⟨hna, N, post', rfl, hN, _⟩
    · rw [e] at h ⊢
      exact coalesce_post1 h hpa hP hna hn
    · rw [e] at h ⊢
      exact coalesce_post3 h hpa hP hna hN


/-! ### `free` -/

theorem get_size_set_prevalloc (s : Heap) (p a : Nat) :
    get_size (set_prevalloc s p) a = get_size s a := by
  simp only [get_size_eq, set_prevalloc_mem]
  by_cases h : a = p
  · subst h
    simp only [if_true, Nat.mod_mod]
    have h1 : (s.mem a ||| 2) % SIZE_MOD = (s.mem a % SIZE_MOD) ||| 2 := by
      unfold SIZE_MOD
      have : (18446744073709551616 : Nat) = 2 ^ 64 := by norm_num
      rw [this]
      apply Nat.eq_of_testBit_eq
      intro i
      simp only [Nat.testBit_mod_two_pow, Nat.testBit_or]
      by_cases hi : i < 64
      · simp [hi]
      · simp only [hi, decide_False, Bool.false_and, Bool.false_or]
        have : (2 : Nat) = 2 ^ 1 := rfl
        rw [this, Nat.testBit_two_pow]
        simp; omega
    rw [h1, lor_two_div]
  · simp [h]

theorem get_alloc_set_prevalloc (s : Heap) (p a : Nat) :
    get_alloc (set_prevalloc s p) a = get_alloc s a := by
  simp only [get_alloc_eq, set_prevalloc_mem]
  by_cases h : a = p
  · subst h
    simp only [if_true]
    have : (s.mem a ||| 2) % SIZE_MOD % 2 = (s.mem a ||| 2) % 2 := by
      unfold SIZE_MOD; omega
    rw [this, lor_two_mod_two]
  · simp [h]

theorem BlockOk_set_prevalloc {s : Heap} {b : Blk} (p : Nat) (h : BlockOk s b) :
    BlockOk (set_prevalloc s p) b := by
  unfold BlockOk at *
  simp only [get_size_set_prevalloc, get_alloc_set_prevalloc]
  exact h

theorem free_marked_mem {s : Heap} {p z a : Nat} (h1 : a ≠ p - 8) (h2 : a ≠ p + z - 16)
    (h3 : a ≠ p + z - 8) (h4 : a ≠ p) (h5 : a ≠ p + 8) :
    (free_marked s p z).mem a = s.mem a := by
  simp [free_marked, h1, h2, h3, h4, h5]

theorem free_mark {s : Heap} {pre post : List Blk} {B : Blk} {L : Nat → List Nat}
    (h : Inv s (pre ++ B :: post) L) (hB : B.alloc = true) :
    PreInv (free_marked s B.addr B.size) (pre ++ ⟨B.addr, B.size, false⟩ :: post) L B.addr := by
  have g := h.geom
  obtain ⟨t1, t2⟩ := Tiles_split g.tiles
  have fB := g.facts (b := B) (by simp)
  have hpre : ∀ b ∈ pre, s.heap_listp + 96 ≤ b.addr ∧ b.addr + b.size ≤ B.addr ∧
      32 ≤ b.size := by
    intro b hb
    have := Tiles_bounds t1 b hb
    have := (g.sizes b (by simp [hb])).1
    omega
  have hpost : ∀ b ∈ post, B.addr + B.size ≤ b.addr ∧ b.addr + b.size ≤ s.brk ∧
      32 ≤ b.size := by
    intro b hb
    have := Tiles_bounds t2 b hb
    have := (g.sizes b (by simp [hb])).1
    omega
  set t := free_marked s B.addr B.size with ht
  have hpk : pack B.size 0 % SIZE_MOD = B.size := by
    rw [pack_eq _ _ (by omega) (by norm_num)]
    exact Nat.mod_eq_of_lt (by omega)
  -- tags of the other blocks read as before
  have hother : ∀ d, (d ∈ pre ∨ d ∈ post) → BlockOk s d → BlockOk t d := by
    intro d hd hok
    have e : t = set_ptr (set_ptr (set_prevalloc (put (put s (B.addr - 8) (pack B.size 0))
        (B.addr + B.size - 16) (pack B.size 0)) (B.addr + B.size - 8)) B.addr 0)
        (B.addr + 8) 0 := rfl
    rw [e]
    have hd' : (s.heap_listp + 96 ≤ d.addr ∧ d.addr + d.size ≤ B.addr ∧ 32 ≤ d.size) ∨
        (B.addr + B.size ≤ d.addr ∧ d.addr + d.size ≤ s.brk ∧ 32 ≤ d.size) := by
      rcases hd with hd | hd
      · exact Or.inl (hpre d hd)
      · exact Or.inr (hpost d hd)
    refine BlockOk_congr (s := set_prevalloc (put (put s (B.addr - 8) (pack B.size 0))
        (B.addr + B.size - 16) (pack B.size 0)) (B.addr + B.size - 8)) ?_ ?_ ?_
    · apply BlockOk_set_prevalloc
      refine BlockOk_congr hok ?_ ?_
      · have a1 : d.addr - 8 ≠ B.addr + B.size - 16 := by omega
        have a2 : d.addr - 8 ≠ B.addr - 8 := by omega
        simp [a1, a2]
      · have a1 : d.addr + d.size - 16 ≠ B.addr + B.size - 16 := by omega
        have a2 : d.addr + d.size - 16 ≠ B.addr - 8 := by omega
        simp [a1, a2]
    · have a1 : d.addr - 8 ≠ B.addr + 8 := by omega
      have a2 : d.addr - 8 ≠ B.addr := by omega
      simp only [set_ptr_mem, if_neg a1, if_neg a2]
    · have a1 : d.addr + d.size - 16 ≠ B.addr + 8 := by omega
      have a2 : d.addr + d.size - 16 ≠ B.addr := by omega
      simp only [set_ptr_mem, if_neg a1, if_neg a2]
  have halloc : ∀ a, a ≠ B.addr - 8 → a ≠ B.addr + B.size - 16 → a ≠ B.addr → a ≠ B.addr + 8 →
      get_alloc t a = get_alloc s a := by
    intro a h1 h2 h4 h5
    have e : get_alloc t a = get_alloc (set_prevalloc (put (put s (B.addr - 8) (pack B.size 0))
        (B.addr + B.size - 16) (pack B.size 0)) (B.addr + B.size - 8)) a := by
      simp only [get_alloc_eq, ht, free_marked, set_ptr_mem, if_neg h4, if_neg h5]
    rw [e, get_alloc_set_prevalloc]
    simp only [get_alloc_eq, put_mem, if_neg h1, if_neg h2]
  have hnode : ∀ c, c < 9 → ∀ y ∈ L c, ∃ b, (b ∈ pre ∨ b ∈ post) ∧ b.addr = y ∧
      b.alloc = false ∧ pick_root b.size = c := by
    intro c hc y hy
    obtain ⟨b, hb, e1, e2, e3⟩ := h.listed c hc y hy
    refine ⟨b, ?_, e1, e2, e3⟩
    simp only [List.mem_append, List.mem_cons] at hb
    rcases hb with hb | rfl | hb
    · exact Or.inl hb
    · rw [hB] at e2; exact absurd e2 (by simp)
    · exact Or.inr hb
  refine ⟨g.hl16, g.hlpos, g.brk_le, g.max_le, ?_, ?_, ?_, ?_, ?_, ?_, ?_, ?_, h.nodup, ?_⟩
  · exact Tiles_join t1 t2
  · intro d hd
    simp only [List.mem_append, List.mem_cons] at hd
    rcases hd with hd | rfl | hd
    · exact hother d (Or.inl hd) (h.blocks d (by simp [hd]))
    · unfold BlockOk
      simp only [get_size_eq, get_alloc_eq, get_header, WSIZE, DSIZE, ht, free_marked,
        set_ptr_mem, set_prevalloc_mem, put_mem]
      have a1 : B.addr - 8 ≠ B.addr + 8 := by omega
      have a2 : B.addr - 8 ≠ B.addr := by omega
      have a3 : B.addr - 8 ≠ B.addr + B.size - 8 := by omega
      have a4 : B.addr - 8 ≠ B.addr + B.size - 16 := by omega
      have a5 : B.addr + B.size - 16 ≠ B.addr + 8 := by omega
      have a6 : B.addr + B.size - 16 ≠ B.addr := by omega
      have a7 : B.addr + B.size - 16 ≠ B.addr + B.size - 8 := by omega
      have hm : B.size % SIZE_MOD = B.size := Nat.mod_eq_of_lt (by omega)
      simp only [if_neg a1, if_neg a2, if_neg a3, if_neg a4, if_neg a5, if_neg a6, if_neg a7,
        if_true, hpk, hm]
      refine ⟨by omega, ?_, by omega, ?_, by omega, by omega⟩
      · simp; omega
      · simp; omega
    · exact hother d (Or.inr hd) (h.blocks d (by simp [hd]))
  · show get_alloc t (s.heap_listp + 80) = true
    rw [halloc _ (by omega) (by omega) (by omega) (by omega)]
    exact h.prologue
  · show get_alloc t (s.brk - 8) = true
    rw [halloc _ (by omega) (by omega) (by omega) (by omega)]
    exact h.epilogue
  · obtain ⟨c1, c2, c3⟩ := List.chain'_append.1 h.noadj
    obtain ⟨c4, c5⟩ := List.chain'_cons'.1 c2
    refine List.chain'_append.2 ⟨?_, ?_, ?_⟩
    · exact List.Chain'.imp (fun a b hab => by tauto) c1
    · refine List.chain'_cons'.2 ⟨?_, ?_⟩
      · intro y _
        right; right; left; rfl
      · exact List.Chain'.imp (fun a b hab => by tauto) c5
    · intro x _ y hy
      simp only [List.head?_cons, Option.mem_def, Option.some.injEq] at hy
      subst hy
      right; right; right; rfl
  · intro c hc
    have hr : root_array t c = s.heap_listp + c * 8 := rfl
    rw [hr]
    have hch := h.chains c hc
    rw [root_array_eq] at hch
    refine Chain_congr hch ?_ ?_
    · exact free_marked_mem (by omega) (by omega) (by omega) (by omega) (by omega)
    · intro y hy
      obtain ⟨b, hb, rfl, _⟩ := hnode c hc y hy
      rcases hb with hb | hb
      · have := hpre b hb
        exact ⟨free_marked_mem (by omega) (by omega) (by omega) (by omega) (by omega),
          free_marked_mem (by omega) (by omega) (by omega) (by omega) (by omega)⟩
      · have := hpost b hb
        exact ⟨free_marked_mem (by omega) (by omega) (by omega) (by omega) (by omega),
          free_marked_mem (by omega) (by omega) (by omega) (by omega) (by omega)⟩
  · intro c hc y hy
    obtain ⟨b, hb, e1, e2, e3⟩ := hnode c hc y hy
    refine ⟨b, ?_, e1, e2, e3, ?_⟩
    · simp only [List.mem_append, List.mem_cons]
      tauto
    · rintro rfl
      rcases hb with hb | hb
      · have := hpre b hb; omega
      · have := hpost b hb; omega
  · intro d hd hfree hne
    simp only [List.mem_append, List.mem_cons] at hd
    rcases hd with hd | rfl | hd
    · exact h.complete d (by simp [hd]) hfree
    · exact absurd rfl hne
    · exact h.complete d (by simp [hd]) hfree
  · exact ⟨⟨B.addr, B.size, false⟩, by simp, rfl, rfl⟩


theorem free_eq {s : Heap} {p : Nat} (hp : p ≠ 0) (ha : get_alloc s (get_header p) = true) :
    free s p =
      insert_free (coalesce (free_marked s p (get_size s (get_header p))) p).2
        (coalesce (free_marked s p (get_size s (get_header p))) p).1
        (get_size (coalesce (free_marked s p (get_size s (get_header p))) p).2
          (get_header (coalesce (free_marked s p (get_size s (get_header p))) p).1)) := by
  have hz : get_size s (get_header p) % 16 = 0 := by
    rw [get_size_eq]; omega
  have hlt : get_size s (get_header p) < SIZE_MOD := by
    rw [get_size_eq]
    have := Nat.mod_lt (s.mem (get_header p)) (by unfold SIZE_MOD; norm_num : SIZE_MOD > 0)
    omega
  have e1 : get_footer (put s (get_header p) (pack (get_size s (get_header p)) 0)) p
      = p + get_size s (get_header p) - 16 := by
    unfold get_footer
    congr 2
    rw [get_size_eq, put_mem, if_pos rfl, pack_eq _ _ hz (by norm_num)]
    simp only [Nat.add_zero, Nat.mod_mod]
    rw [Nat.mod_eq_of_lt hlt]
    omega
  unfold free
  rw [if_neg hp]
  simp only [ha, Bool.not_true, Bool.false_eq_true, if_false]
  rw [e1]
  rfl

/-- `free` of an allocated block keeps the invariant; afterwards the header
word of the block reads as free, and the other allocated blocks are the
allocated blocks. -/
theorem free_ok {s : Heap} {bs : List Blk} {L : Nat → List Nat} {B : Blk}
    (h : Inv s bs L) (hB : B ∈ bs) (hBa : B.alloc = true) :
    ∃ bs' L', Inv (free s B.addr) bs' L' ∧ (free s B.addr).brk = s.brk ∧
      (free s B.addr).max = s.max ∧ (free s B.addr).heap_listp = s.heap_listp ∧
      get_alloc (free s B.addr) (B.addr - 8) = false ∧
      (∀ d : Blk, d.alloc = true → (d ∈ bs' ↔ (d ∈ bs ∧ d.addr ≠ B.addr))) := by
  obtain ⟨pre, post, rfl⟩ := List.append_of_mem hB
  have g := h.geom
  have fB := g.facts hB
  have hok := h.blocks B hB
  have hmark := free_mark h hBa
  have hco := coalesce_pending hmark
  rw [free_eq (by omega) (by rw [hok.2.1, hBa]), hok.1]
  obtain ⟨bs', L', M, hM, e1, hpre, hadj, f1, f2, f3, hx, hpos, hal⟩ := hco
  have hMs : get_size (coalesce (free_marked s B.addr B.size) B.addr).2
      (get_header (coalesce (free_marked s B.addr B.size) B.addr).1) = M.size := by
    have := (hpre.blocks M hM).1
    rw [← e1] at this
    exact this
  simp only at e1 hx hpos
  rw [hMs, e1]
  obtain ⟨hinv, hframe⟩ := insert_pending hpre hadj hM
  obtain ⟨i1, i2, i3⟩ := insert_free_fields (coalesce (free_marked s B.addr B.size) B.addr).2
    M.addr M.size
  have g' := hpre.pre_geom
  have fM := g'.facts hM
  have hhl : (coalesce (free_marked s B.addr B.size) B.addr).2.heap_listp = s.heap_listp := f3
  refine ⟨bs', _, hinv, by rw [i1, f1]; rfl, by rw [i2, f2]; rfl, by rw [i3, f3]; rfl, ?_, ?_⟩
  · rw [get_alloc_eq, hframe, ← get_alloc_eq]
    · exact hx
    · rintro (e | ⟨z, hz, e⟩)
      · rw [root_array_eq, hhl] at e
        have := pick_root_lt M.size
        omega
      · have hzb : ∃ f ∈ bs', f.addr = z := by
          rcases List.mem_cons.1 hz with rfl | hz
          · exact ⟨M, hM, rfl⟩
          · obtain ⟨f, hf, e2, _⟩ := hpre.listed _ (pick_root_lt _) z hz
            exact ⟨f, hf, e2⟩
        obtain ⟨f, hf, rfl⟩ := hzb
        have ff := g'.facts hf
        rcases hpos with hpos | hpos
        · have := g'.tag_ne_cell hM hf
          rw [hpos] at this
          rcases e with e | e
          · exact this.1 e
          · exact this.2.1 e
        · rcases g'.sep hM hf with e2 | e2 | e2
          · subst e2; omega
          · omega
          · omega
  · intro d hd
    rw [hal d hd]
    simp only [List.mem_append, List.mem_cons]
    obtain ⟨t1, t2⟩ := Tiles_split g.tiles
    constructor
    · rintro (h1 | rfl | h1)
      · have := Tiles_bounds t1 d h1
        have := (g.sizes d (by simp [h1])).1
        exact ⟨Or.inl h1, by omega⟩
      · simp at hd
      · have := Tiles_bounds t2 d h1
        exact ⟨Or.inr (Or.inr h1), by omega⟩
    · rintro ⟨h1 | rfl | h1, h2⟩
      · exact Or.inl h1
      · exact absurd rfl h2
      · exact Or.inr (Or.inr h1)


/-! ### Rewriting the tags of a run of pending blocks -/

theorem chain'_of_left {α : Type} {R : α → α → Prop} {l : List α}
    (h : ∀ b ∈ l, ∀ c, R b c) : List.Chain' R l := by
  induction l with
  | nil => exact List.chain'_nil
  | cons a t ih =>
    refine List.chain'_cons'.2 ⟨fun y _ => h a (by simp) y, ih (fun b hb => h b (by simp [hb]))⟩

/-- A state that differs from a well-formed one only inside a run of pending
blocks, and in which that run is tagged anew, is well formed. -/
theorem retag {s t : Heap} {pre mid mid' post : List Blk} {L : Nat → List Nat}
    {U U' : Nat → Prop} {a e : Nat}
    (h : FInv s (pre ++ mid ++ post) L U)
    (hU : ∀ x, U x ↔ ∃ b ∈ mid, b.addr = x)
    (ha : Tiles (s.heap_listp + 96) pre a) (hm : Tiles a mid e) (hp : Tiles e post s.brk)
    (hae : a + 32 ≤ e)
    (f1 : t.brk = s.brk) (f2 : t.max = s.max) (f3 : t.heap_listp = s.heap_listp)
    (hframe : ∀ x, (x < a - 8 ∨ e - 8 ≤ x) → t.mem x = s.mem x)
    (hm' : Tiles a mid' e) (hok : ∀ b ∈ mid', BlockOk t b)
    (hU1 : ∀ b ∈ mid', b.alloc = false → U' b.addr)
    (hU2 : ∀ x, U' x → ∃ b ∈ mid', b.addr = x ∧ b.alloc = false) :
    FInv t (pre ++ mid' ++ post) L U' := by
  have g := h.geom
  have hsz : ∀ b ∈ pre ++ mid ++ post, 32 ≤ b.size ∧ b.size % 16 = 0 := g.sizes
  have hla : s.heap_listp + 96 ≤ a := Tiles_le ha
  have heb : e ≤ s.brk := Tiles_le hp
  have hpre : ∀ b ∈ pre, s.heap_listp + 96 ≤ b.addr ∧ b.addr + b.size ≤ a ∧ 32 ≤ b.size := by
    intro b hb
    have := Tiles_bounds ha b hb
    have := hsz b (by simp [hb])
    omega
  have hpost : ∀ b ∈ post, e ≤ b.addr ∧ b.addr + b.size ≤ s.brk ∧ 32 ≤ b.size := by
    intro b hb
    have := Tiles_bounds hp b hb
    have := hsz b (by simp [hb])
    omega
  have hmidb : ∀ b ∈ mid, a ≤ b.addr ∧ b.addr + b.size ≤ e ∧ 32 ≤ b.size := by
    intro b hb
    have := Tiles_bounds hm b hb
    have := hsz b (by simp [hb])
    omega
  have hmidb' : ∀ b ∈ mid', a ≤ b.addr ∧ b.addr + b.size ≤ e ∧ 32 ≤ b.size := by
    intro b hb
    have := Tiles_bounds hm' b hb
    have := (hok b hb).2.2.2.2.1
    omega
  have hnotU_pre : ∀ b ∈ pre, ¬ U b.addr ∧ ¬ U' b.addr := by
    intro b hb
    have := hpre b hb
    constructor
    · intro hu
      obtain ⟨m, hm1, e'⟩ := (hU _).1 hu
      have := hmidb m hm1
      omega
    · intro hu
      obtain ⟨m, hm1, e', _⟩ := hU2 _ hu
      have := hmidb' m hm1
      omega
  have hnotU_post : ∀ b ∈ post, ¬ U b.addr ∧ ¬ U' b.addr := by
    intro b hb
    have := hpost b hb
    constructor
    · intro hu
      obtain ⟨m, hm1, e'⟩ := (hU _).1 hu
      have := hmidb m hm1
      omega
    · intro hu
      obtain ⟨m, hm1, e', _⟩ := hU2 _ hu
      have := hmidb' m hm1
      omega
  have hnode : ∀ c, c < 9 → ∀ y ∈ L c, ∃ b, (b ∈ pre ∨ b ∈ post) ∧ b.addr = y ∧
      b.alloc = false ∧ pick_root b.size = c := by
    intro c hc y hy
    obtain ⟨b, hb, e1, e2, e3, e4⟩ := h.listed c hc y hy
    refine ⟨b, ?_, e1, e2, e3⟩
    simp only [List.mem_append] at hb
    rcases hb with (hb | hb) | hb
    · exact Or.inl hb
    · exact absurd ((hU y).2 ⟨b, hb, e1⟩) e4
    · exact Or.inr hb
  have htiles : Tiles (s.heap_listp + 96) (pre ++ mid' ++ post) s.brk := by
    rw [List.append_assoc]
    exact Tiles_append.2 ⟨a, ha, Tiles_append.2 ⟨e, hm', hp⟩⟩
  refine ⟨⟨by rw [f3]; exact g.hl16, by rw [f3]; exact g.hlpos, by rw [f1, f2]; exact g.brk_le,
    by rw [f2]; exact g.max_le, by rw [f1, f3]; exact htiles, ?_⟩, ?_, ?_, ?_, ?_, ?_, ?_, ?_,
    h.nodup, ?_⟩
  · intro b hb
    simp only [List.mem_append] at hb
    rcases hb with (hb | hb) | hb
    · exact hsz b (by simp [hb])
    · exact (hok b hb).2.2.2.2
    · exact hsz b (by simp [hb])
  · intro b hb
    simp only [List.mem_append] at hb
    rcases hb with (hb | hb) | hb
    · have := hpre b hb
      exact BlockOk_congr (h.blocks b (by simp [hb])) (hframe _ (by omega)) (hframe _ (by omega))
    · exact hok b hb
    · have := hpost b hb
      exact BlockOk_congr (h.blocks b (by simp [hb])) (hframe _ (by omega)) (hframe _ (by omega))
  · rw [f3, get_alloc_eq, hframe _ (by omega), ← get_alloc_eq]
    exact h.prologue
  · rw [f1, get_alloc_eq, hframe _ (by omega), ← get_alloc_eq]
    exact h.epilogue
  · have hn := h.noadj
    rw [List.append_assoc] at hn ⊢
    obtain ⟨c1, c2, c3⟩ := List.chain'_append.1 hn
    obtain ⟨_, c4, c5⟩ := List.chain'_append.1 c2
    have hmidR : ∀ b ∈ mid', ∀ c : Blk,
        b.alloc = true ∨ c.alloc = true ∨ U' b.addr ∨ U' c.addr := by
      intro b hb c
      cases hba : b.alloc with
      | true => left; rfl
      | false => right; right; left; exact hU1 b hb hba
    have hmidL : ∀ c ∈ mid', ∀ b : Blk,
        b.alloc = true ∨ c.alloc = true ∨ U' b.addr ∨ U' c.addr := by
      intro c hc b
      cases hca : c.alloc with
      | true => right; left; rfl
      | false => right; right; right; exact hU1 c hc hca
    refine List.chain'_append.2 ⟨?_, ?_, ?_⟩
    · refine Chain'_imp_mem ?_ c1
      intro x y hx hy hxy
      have := (hnotU_pre x hx).1
      have := (hnotU_pre y hy).1
      tauto
    · refine List.chain'_append.2 ⟨chain'_of_left hmidR, ?_, ?_⟩
      · refine Chain'_imp_mem ?_ c4
        intro x y hx hy hxy
        have := (hnotU_post x hx).1
        have := (hnotU_post y hy).1
        tauto
      · intro x hx y _
        exact hmidR x (List.mem_of_getLast?_eq_some hx) y
    · intro x hx y hy
      cases hmid' : mid' with
      | nil =>
        -- an empty run has no extent
        rw [hmid'] at hm'
        have : a = e := hm'
        omega
      | cons m0 rest =>
        rw [hmid'] at hy
        simp only [List.cons_append, List.head?_cons, Option.mem_def, Option.some.injEq] at hy
        subst hy
        exact hmidL _ (by rw [hmid']; simp) x
  · intro c hc
    have hr : root_array t c = s.heap_listp + c * 8 := by rw [root_array_eq, f3]
    rw [hr]
    have hch := h.chains c hc
    rw [root_array_eq] at hch
    refine Chain_congr hch (hframe _ (by omega)) ?_
    intro y hy
    obtain ⟨b, hb, rfl, _⟩ := hnode c hc y hy
    rcases hb with hb | hb
    · have := hpre b hb
      exact ⟨hframe _ (by omega), hframe _ (by omega)⟩
    · have := hpost b hb
      exact ⟨hframe _ (by omega), hframe _ (by omega)⟩
  · intro c hc y hy
    obtain ⟨b, hb, e1, e2, e3⟩ := hnode c hc y hy
    refine ⟨b, ?_, e1, e2, e3, ?_⟩
    · simp only [List.mem_append]
      tauto
    · subst e1
      rcases hb with hb | hb
      · exact (hnotU_pre b hb).2
      · exact (hnotU_post b hb).2
  · intro d hd hfree hne
    simp only [List.mem_append] at hd
    rcases hd with (hd | hd) | hd
    · exact h.complete d (by simp [hd]) hfree (hnotU_pre d hd).1
    · exact absurd (hU1 d hd hfree) hne
    · exact h.complete d (by simp [hd]) hfree (hnotU_post d hd).1
  · intro x hx
    obtain ⟨b, hb, e1, e2⟩ := hU2 x hx
    exact ⟨b, by simp [hb], e1, e2⟩


/-! ### `allocate` -/

theorem sub64_eq {a b : Nat} (ha : a < SIZE_MOD) (hb : b ≤ a) : sub64 a b = a - b := by
  unfold sub64
  have hb' : b < SIZE_MOD := by omega
  rw [Nat.mod_eq_of_lt ha, Nat.mod_eq_of_lt hb']
  have : a + SIZE_MOD - b = (a - b) + SIZE_MOD := by omega
  rw [this, Nat.add_mod_right]
  exact Nat.mod_eq_of_lt (by omega)

theorem get_size_lt (s : Heap) (p : Nat) : get_size s p < SIZE_MOD := by
  rw [get_size_eq]
  have := Nat.mod_lt (s.mem p) (by unfold SIZE_MOD; norm_num : SIZE_MOD > 0)
  omega

theorem allocate_eq_split {s : Heap} {bp r T : Nat} (hT : get_size s (get_header bp) = T)
    (hr : r + 16 ≤ T) (hrem : 32 ≤ T - r - 16) (hr16 : r % 16 = 0) (hT16 : T % 16 = 0) :
    allocate s bp r =
      insert_free (coalesce (split_marked (reset_free s bp) bp (r + 16) (T - r - 16))
          (bp + (r + 16))).2
        (coalesce (split_marked (reset_free s bp) bp (r + 16) (T - r - 16)) (bp + (r + 16))).1
        (get_size (coalesce (split_marked (reset_free s bp) bp (r + 16) (T - r - 16))
          (bp + (r + 16))).2
          (get_header (coalesce (split_marked (reset_free s bp) bp (r + 16) (T - r - 16))
            (bp + (r + 16))).1)) := by
  have hTlt : T < SIZE_MOD := hT ▸ get_size_lt s _
  have e1 : sub64 (sub64 T r) DSIZE = T - r - 16 := by
    rw [sub64_eq hTlt (by omega), sub64_eq (by omega) (by simp only [DSIZE]; omega)]
    rfl
  have e2 : add64 r DSIZE = r + 16 := add64_eq (by simp only [DSIZE]; omega)
  have e3 : get_footer (put (put (put (reset_free s bp) (get_header bp) (pack (r + 16) 1))
      (bp + (r + 16) - DSIZE) (pack (r + 16) 1)) (get_header (bp + (r + 16)))
      (pack (T - r - 16) 0)) (bp + (r + 16)) = bp + (r + 16) + (T - r - 16) - 16 := by
    have hm : (T - r - 16) % SIZE_MOD = T - r - 16 := Nat.mod_eq_of_lt (by omega)
    have hgs : get_size (put (put (put (reset_free s bp) (get_header bp) (pack (r + 16) 1))
        (bp + (r + 16) - DSIZE) (pack (r + 16) 1)) (get_header (bp + (r + 16)))
        (pack (T - r - 16) 0)) (get_header (bp + (r + 16))) = T - r - 16 := by
      rw [get_size_eq, put_mem, if_pos rfl, pack_eq _ _ (by omega) (by norm_num)]
      simp only [Nat.add_zero, Nat.mod_mod]
      rw [hm]
      omega
    rw [get_footer, hgs]; rfl
  unfold allocate
  simp only [hT, e1, e2, WSIZE]
  rw [if_pos (by omega), e3]
  rfl

theorem allocate_eq_whole {s : Heap} {bp r T : Nat} (hT : get_size s (get_header bp) = T)
    (hr : r + 16 ≤ T) (hrem : T - r - 16 < 32) (hT16 : T % 16 = 0) :
    allocate s bp r =
      put (put (reset_free s bp) (bp - 8) (pack T 1)) (bp + T - 16) (pack T 1) := by
  have hTlt : T < SIZE_MOD := hT ▸ get_size_lt s _
  have e1 : sub64 (sub64 T r) DSIZE = T - r - 16 := by
    rw [sub64_eq hTlt (by omega), sub64_eq (by omega) (by simp only [DSIZE]; omega)]
    rfl
  have e3 : get_footer (put (reset_free s bp) (get_header bp) (pack T 1)) bp
      = bp + T - 16 := by
    have hm : (T + 1) % SIZE_MOD = T + 1 := Nat.mod_eq_of_lt (by unfold SIZE_MOD at *; omega)
    have hgs : get_size (put (reset_free s bp) (get_header bp) (pack T 1)) (get_header bp)
        = T := by
      rw [get_size_eq, put_mem, if_pos rfl, pack_eq _ _ hT16 (by norm_num)]
      simp only [Nat.mod_mod]
      rw [hm]
      omega
    rw [get_footer, hgs]; rfl
  unfold allocate
  simp only [hT, e1, WSIZE]
  rw [if_neg (by omega), e3]
  rfl


theorem split_marked_mem {s : Heap} {bp need rem a : Nat} (h1 : a ≠ bp - 8)
    (h2 : a ≠ bp + need - 16) (h3 : a ≠ bp + need - 8) (h4 : a ≠ bp + need + rem - 16)
    (h5 : a ≠ bp + need) (h6 : a ≠ bp + need + 8) :
    (split_marked s bp need rem).mem a = s.mem a := by
  simp [split_marked, h1, h2, h3, h4, h5, h6]

theorem pack_one_mod {z : Nat} (h16 : z % 16 = 0) (hlt : z < SIZE_MOD) :
    pack z 1 % SIZE_MOD = z + 1 := by
  rw [pack_eq _ _ h16 (by norm_num)]
  exact Nat.mod_eq_of_lt (by unfold SIZE_MOD at *; omega)

theorem pack_zero_mod {z : Nat} (h16 : z % 16 = 0) (hlt : z < SIZE_MOD) :
    pack z 0 % SIZE_MOD = z := by
  rw [pack_eq _ _ h16 (by norm_num)]
  exact Nat.mod_eq_of_lt (by omega)

/-- What `allocate` achieves on a listed free block `b`, for an aligned
payload size `r` with `r + 16 ≤ b.size`. -/
theorem allocate_ok {s : Heap} {bs : List Blk} {L : Nat → List Nat} {b : Blk} {r : Nat}
    (h : Inv s bs L) (hb : b ∈ bs) (hf : b.alloc = false) (hr16 : r % 16 = 0)
    (hr : 16 ≤ r) (hrT : r + 16 ≤ b.size) :
    ∃ bs' L' A, Inv (allocate s b.addr r) bs' L' ∧
      (allocate s b.addr r).brk = s.brk ∧ (allocate s b.addr r).max = s.max ∧
      (allocate s b.addr r).heap_listp = s.heap_listp ∧
      A ∈ bs' ∧ A.addr = b.addr ∧ A.alloc = true ∧
      (32 ≤ b.size - r - 16 → A.size = r + 16) ∧ (b.size - r - 16 < 32 → A.size = b.size) ∧
      (∀ d : Blk, d.alloc = true → (d ∈ bs' ↔ (d ∈ bs ∨ d = A))) := by
  obtain ⟨pre, post, rfl⟩ := List.append_of_mem hb
  have g := h.geom
  have fb := g.facts hb
  have hok := h.blocks b hb
  obtain ⟨t1, t2⟩ := Tiles_split g.tiles
  have hbl : b.addr ∈ L (pick_root b.size) := h.complete b hb hf
  obtain ⟨hF, hfr, f1, f2, f3⟩ := reset_listed h.toFInv (pick_root_lt _) hbl
  have hbs : pre ++ b :: post = pre ++ [b] ++ post := by simp
  have hU : ∀ x, (x = b.addr ∨ False) ↔ ∃ c ∈ [b], c.addr = x := by
    intro x; simp [eq_comm]
  have hTlt : b.size < SIZE_MOD := by omega
  have hpre : ∀ d ∈ pre, d.addr ≠ b.addr := by
    intro d hd
    have := Tiles_bounds t1 d hd
    have := (g.sizes d (by simp [hd])).1
    omega
  have hpost : ∀ d ∈ post, d.addr ≠ b.addr := by
    intro d hd
    have := Tiles_bounds t2 d hd
    omega
  by_cases hrem : 32 ≤ b.size - r - 16
  · -- split
    rw [allocate_eq_split hok.1 hrT hrem hr16 fb.2.2.2.2.1]
    set t := split_marked (reset_free s b.addr) b.addr (r + 16) (b.size - r - 16) with ht
    have hA : BlockOk t ⟨b.addr, r + 16, true⟩ := by
      unfold BlockOk
      simp only [get_size_eq, get_alloc_eq, get_header, WSIZE, DSIZE, ht, split_marked,
        set_ptr_mem, put_mem]
      have a1 : b.addr - 8 ≠ b.addr + (r + 16) + 8 := by omega
      have a2 : b.addr - 8 ≠ b.addr + (r + 16) := by omega
      have a3 : b.addr - 8 ≠ b.addr + (r + 16) + (b.size - r - 16) - 16 := by omega
      have a4 : b.addr - 8 ≠ b.addr + (r + 16) - 8 := by omega
      have a5 : b.addr - 8 ≠ b.addr + (r + 16) - 16 := by omega
      have a6 : b.addr + (r + 16) - 16 ≠ b.addr + (r + 16) + 8 := by omega
      have a7 : b.addr + (r + 16) - 16 ≠ b.addr + (r + 16) := by omega
      have a8 : b.addr + (r + 16) - 16 ≠ b.addr + (r + 16) + (b.size - r - 16) - 16 := by omega
      have a9 : b.addr + (r + 16) - 16 ≠ b.addr + (r + 16) - 8 := by omega
      have hm := pack_one_mod (z := r + 16) (by omega) (by omega)
      simp only [if_neg a1, if_neg a2, if_neg a3, if_neg a4, if_neg a5, if_neg a6, if_neg a7,
        if_neg a8, if_neg a9, if_true, hm]
      have hm2 : (r + 16 + 1) % SIZE_MOD = r + 16 + 1 :=
        Nat.mod_eq_of_lt (by unfold SIZE_MOD at *; omega)
      rw [hm2]
      refine ⟨by omega, ?_, by omega, ?_, by omega, by omega⟩
      · simp; omega
      · simp; omega
    have hR : BlockOk t ⟨b.addr + (r + 16), b.size - r - 16, false⟩ := by
      unfold BlockOk
      simp only [get_size_eq, get_alloc_eq, get_header, WSIZE, DSIZE, ht, split_marked,
        set_ptr_mem, put_mem]
      have a1 : b.addr + (r + 16) - 8 ≠ b.addr + (r + 16) + 8 := by omega
      have a2 : b.addr + (r + 16) - 8 ≠ b.addr + (r + 16) := by omega
      have a3 : b.addr + (r + 16) - 8 ≠ b.addr + (r + 16) + (b.size - r - 16) - 16 := by omega
      have a6 : b.addr + (r + 16) + (b.size - r - 16) - 16 ≠ b.addr + (r + 16) + 8 := by omega
      have a7 : b.addr + (r + 16) + (b.size - r - 16) - 16 ≠ b.addr + (r + 16) := by omega
      have hm := pack_zero_mod (z := b.size - r - 16) (by omega) (by omega)
      simp only [if_neg a1, if_neg a2, if_neg a3, if_neg a6, if_neg a7, if_true, hm]
      have hm2 : (b.size - r - 16) % SIZE_MOD = b.size - r - 16 :=
        Nat.mod_eq_of_lt (by omega)
      rw [hm2]
      refine ⟨by omega, ?_, by omega, ?_, by omega, by omega⟩
      · simp; omega
      · simp; omega
    rw [hbs] at hF
    have hF2 : FInv t (pre ++ [⟨b.addr, r + 16, true⟩,
        ⟨b.addr + (r + 16), b.size - r - 16, false⟩] ++ post) _
        (fun x => x = b.addr + (r + 16)) :=
      retag (a := b.addr) (e := b.addr + b.size) hF hU (by rw [f3]; exact t1)
        ⟨rfl, rfl⟩ (by rw [f1]; exact t2) (by omega)
        (by simp [ht, split_marked]) (by simp [ht, split_marked])
        (by simp [ht, split_marked])
        (by
          intro x hx
          rw [ht]
          exact split_marked_mem (by omega) (by omega) (by omega) (by omega) (by omega)
            (by omega))
        ⟨rfl, rfl, by show b.addr + (r + 16) + (b.size - r - 16) = b.addr + b.size; omega⟩
        (by
          intro d hd
          simp only [List.mem_cons, List.mem_singleton, List.not_mem_nil, or_false] at hd
          rcases hd with rfl | rfl
          · exact hA
          · exact hR)
        (by
          intro d hd hfree
          simp only [List.mem_cons, List.mem_singleton, List.not_mem_nil, or_false] at hd
          rcases hd with rfl | rfl
          · simp at hfree
          · rfl)
        (by
          intro x hx
          exact ⟨⟨b.addr + (r + 16), b.size - r - 16, false⟩, by simp, hx.symm, rfl⟩)
    have hbs2 : pre ++ [(⟨b.addr, r + 16, true⟩ : Blk),
        ⟨b.addr + (r + 16), b.size - r - 16, false⟩] ++ post
        = (pre ++ [⟨b.addr, r + 16, true⟩]) ++
          (⟨b.addr + (r + 16), b.size - r - 16, false⟩ : Blk) :: post := by simp
    rw [hbs2] at hF2
    have hP := hF2.toPreInv
    have hco := coalesce_pending (X := ⟨b.addr + (r + 16), b.size - r - 16, false⟩) hP
    obtain ⟨bs', L', M, hM, e1, hpre', hadj, k1, k2, k3, _, _, hal⟩ := hco
    have hMs : get_size (coalesce t (b.addr + (r + 16))).2
        (get_header (coalesce t (b.addr + (r + 16))).1) = M.size := by
      have := (hpre'.blocks M hM).1
      rw [← e1] at this
      exact this
    simp only at e1
    rw [hMs, e1]
    obtain ⟨hinv, _⟩ := insert_pending hpre' hadj hM
    obtain ⟨i1, i2, i3⟩ := insert_free_fields (coalesce t (b.addr + (r + 16))).2 M.addr M.size
    have tb : t.brk = s.brk := by simp [ht, split_marked, f1]
    have tm : t.max = s.max := by simp [ht, split_marked, f2]
    have th : t.heap_listp = s.heap_listp := by simp [ht, split_marked, f3]
    refine ⟨bs', _, ⟨b.addr, r + 16, true⟩, hinv, by rw [i1, k1, tb], by rw [i2, k2, tm],
      by rw [i3, k3, th], ?_, rfl, rfl, fun _ => rfl, fun hh => absurd hrem (by omega), ?_⟩
    · exact (hal _ rfl).2 (by simp)
    · intro d hd
      rw [hal d hd]
      simp only [List.mem_append, List.mem_cons, List.mem_singleton, List.not_mem_nil,
        or_false]
      constructor
      · rintro ((h1 | rfl) | rfl | h1)
        · exact Or.inl (Or.inl h1)
        · exact Or.inr rfl
        · simp at hd
        · exact Or.inl (Or.inr (Or.inr h1))
      · rintro ((h1 | rfl | h1) | rfl)
        · exact Or.inl (Or.inl h1)
        · rw [hf] at hd; simp at hd
        · exact Or.inr (Or.inr h1)
        · exact Or.inl (Or.inr rfl)
  · -- the whole block
    have hrem' : b.size - r - 16 < 32 := by omega
    rw [allocate_eq_whole hok.1 hrT hrem' fb.2.2.2.2.1]
    set t := put (put (reset_free s b.addr) (b.addr - 8) (pack b.size 1))
      (b.addr + b.size - 16) (pack b.size 1) with ht
    have hA : BlockOk t ⟨b.addr, b.size, true⟩ := by
      unfold BlockOk
      simp only [get_size_eq, get_alloc_eq, get_header, WSIZE, DSIZE, ht, put_mem]
      have a1 : b.addr - 8 ≠ b.addr + b.size - 16 := by omega
      have hm := pack_one_mod (z := b.size) (by omega) (by omega)
      simp only [if_neg a1, if_true, hm]
      have hm2 : (b.size + 1) % SIZE_MOD = b.size + 1 :=
        Nat.mod_eq_of_lt (by unfold SIZE_MOD at *; omega)
      rw [hm2]
      refine ⟨by omega, ?_, by omega, ?_, by omega, by omega⟩
      · simp; omega
      · simp; omega
    rw [hbs] at hF
    have hF2 : FInv t (pre ++ [⟨b.addr, b.size, true⟩] ++ post) _ (fun _ => False) :=
      retag (a := b.addr) (e := b.addr + b.size) hF hU (by rw [f3]; exact t1)
        ⟨rfl, rfl⟩ (by rw [f1]; exact t2) (by omega)
        (by simp [ht, f1]) (by simp [ht, f2]) (by simp [ht, f3])
        (by
          intro x hx
          have a1 : x ≠ b.addr + b.size - 16 := by omega
          have a2 : x ≠ b.addr - 8 := by omega
          simp only [ht, put_mem, if_neg a1, if_neg a2])
        ⟨rfl, rfl⟩
        (by
          intro d hd
          simp only [List.mem_singleton] at hd
          subst hd
          exact hA)
        (by
          intro d hd hfree
          simp only [List.mem_singleton] at hd
          subst hd
          simp at hfree)
        (by intro x hx; exact hx.elim)
    refine ⟨_, _, ⟨b.addr, b.size, true⟩, hF2.toInv, by simp [ht, f1], by simp [ht, f2],
      by simp [ht, f3], by simp, rfl, rfl, fun hh => absurd hrem (by omega), fun _ => rfl, ?_⟩
    intro d hd
    simp only [List.mem_append, List.mem_cons, List.mem_singleton, List.not_mem_nil,
      or_false]
    constructor
    · rintro ((h1 | rfl) | h1)
      · exact Or.inl (Or.inl h1)
      · exact Or.inr rfl
      · exact Or.inl (Or.inr (Or.inr h1))
    · rintro ((h1 | rfl | h1) | rfl)
      · exact Or.inl (Or.inl h1)
      · rw [hf] at hd; simp at hd
      · exact Or.inr h1
      · exact Or.inl (Or.inr rfl)


/-! ### `find_free_list` -/

theorem find_in_list_chain {s : Heap} {req : Nat} {l : List Nat} :
    ∀ {fuel p c : Nat}, Chain s p c l → l.length < fuel →
      find_in_list s req fuel (s.mem c) = some ((l.find? (fits s req)).getD 0) := by
  induction l with
  | nil =>
    intro fuel p c h hf
    have h0 : s.mem c = 0 := h
    obtain ⟨f, rfl⟩ : ∃ f, fuel = f + 1 := ⟨fuel - 1, by simp at hf; omega⟩
    simp [find_in_list, h0]
  | cons x t ih =>
    intro fuel p c h hf
    obtain ⟨h1, h2, h3, h4⟩ := h
    have h1' : s.mem c = x := h1
    obtain ⟨f, rfl⟩ : ∃ f, fuel = f + 1 := ⟨fuel - 1, by simp at hf; omega⟩
    rw [h1']
    unfold find_in_list
    rw [if_neg h2]
    by_cases hfit : get_size s (get_header x) ≥ req
    · rw [if_pos hfit]
      simp [List.find?, fits, hfit]
    · rw [if_neg hfit]
      have hlen : t.length < f := by
        simp only [List.length_cons] at hf; omega
      have := ih h4 hlen
      simp only [get_ptr]
      rw [this]
      simp [List.find?, fits, hfit]

theorem find_from_root_chain {s : Heap} {req fuel : Nat} {L : Nat → List Nat} :
    ∀ {n i : Nat}, (∀ c, i ≤ c → c < i + n →
        Chain s (root_array s c) (root_array s c) (L c) ∧ (L c).length < fuel) →
      find_from_root s req fuel n i = some (first_fit s req L n i) := by
  intro n
  induction n with
  | zero => intro i _; rfl
  | succ n ih =>
    intro i h
    obtain ⟨hc, hl⟩ := h i (le_refl _) (by omega)
    have e := @find_in_list_chain _ req _ _ _ _ hc hl
    unfold find_from_root first_fit
    simp only [get_ptr]
    rw [e]
    cases hfind : (L i).find? (fits s req) with
    | none =>
      simp only [Option.getD_none]
      exact ih (fun c h1 h2 => h c (by omega) (by omega))
    | some y =>
      have hy : y ∈ L i := List.mem_of_find?_eq_some hfind
      have hy0 : y ≠ 0 := Chain_nonzero hc y hy
      obtain ⟨k, rfl⟩ : ∃ k, y = k + 1 := ⟨y - 1, by omega⟩
      simp

theorem first_fit_mem {s : Heap} {req : Nat} {L : Nat → List Nat} :
    ∀ {n i : Nat}, first_fit s req L n i ≠ 0 →
      ∃ c, i ≤ c ∧ c < i + n ∧ first_fit s req L n i ∈ L c ∧
        req ≤ get_size s (get_header (first_fit s req L n i)) := by
  intro n
  induction n with
  | zero => intro i h; exact absurd rfl h
  | succ n ih =>
    intro i h
    unfold first_fit at h ⊢
    cases hfind : (L i).find? (fits s req) with
    | none =>
      rw [hfind] at h
      simp only at h ⊢
      obtain ⟨c, h1, h2, h3, h4⟩ := ih h
      exact ⟨c, by omega, by omega, h3, h4⟩
    | some y =>
      simp only
      have hy : y ∈ L i := List.mem_of_find?_eq_some hfind
      have hfit := List.find?_some hfind
      exact ⟨i, le_refl _, by omega, hy, by simpa [fits] using hfit⟩

theorem first_fit_zero {s : Heap} {req : Nat} {L : Nat → List Nat} :
    ∀ {n i : Nat}, (∀ c, i ≤ c → c < i + n → ∀ y ∈ L c, y ≠ 0) →
      (first_fit s req L n i = 0 ↔
        ∀ c, i ≤ c → c < i + n → ∀ y ∈ L c, get_size s (get_header y) < req) := by
  intro n
  induction n with
  | zero =>
    intro i _
    constructor
    · intro _ c h1 h2; omega
    · intro _; rfl
  | succ n ih =>
    intro i hnz
    unfold first_fit
    cases hfind : (L i).find? (fits s req) with
    | none =>
      simp only
      rw [ih (fun c h1 h2 => hnz c (by omega) (by omega))]
      have hnone := List.find?_eq_none.1 hfind
      constructor
      · intro h c h1 h2 y hy
        by_cases e : c = i
        · subst e
          have := hnone y hy
          simpa [fits] using this
        · exact h c (by omega) (by omega) y hy
      · intro h c h1 h2 y hy
        exact h c (by omega) (by omega) y hy
    | some y =>
      simp only
      have hy : y ∈ L i := List.mem_of_find?_eq_some hfind
      have hfit := List.find?_some hfind
      have hy0 := hnz i (le_refl _) (by omega) y hy
      constructor
      · intro h; exact absurd h hy0
      · intro h
        have := h i (le_refl _) (by omega) y hy
        simp [fits] at hfit
        omega

/-- With enough fuel for the longest class list, `find_free_list` returns
the first fit. -/
theorem find_free_list_ok {s : Heap} {bs : List Blk} {L : Nat → List Nat} {fuel req : Nat}
    (h : Inv s bs L) (hfuel : ∀ c, c < 9 → (L c).length < fuel) :
    find_free_list s fuel req =
      some (first_fit s req L (9 - pick_root req) (pick_root req)) := by
  unfold find_free_list
  apply find_from_root_chain
  intro c h1 h2
  have := pick_root_lt req
  exact ⟨h.chains c (by omega), hfuel c (by omega)⟩


/-! ### The result of a search does not depend on the fuel -/

theorem find_in_list_some {s : Heap} {req : Nat} {l : List Nat} :
    ∀ {fuel p c r : Nat}, Chain s p c l → find_in_list s req fuel (s.mem c) = some r →
      r = (l.find? (fits s req)).getD 0 := by
  induction l with
  | nil =>
    intro fuel p c r h hr
    have h0 : s.mem c = 0 := h
    cases fuel with
    | zero => simp [find_in_list] at hr
    | succ f =>
      simp [find_in_list, h0] at hr
      simp [hr]
  | cons x t ih =>
    intro fuel p c r h hr
    obtain ⟨h1, h2, h3, h4⟩ := h
    have h1' : s.mem c = x := h1
    cases fuel with
    | zero => simp [find_in_list] at hr
    | succ f =>
      rw [h1'] at hr
      unfold find_in_list at hr
      rw [if_neg h2] at hr
      by_cases hfit : get_size s (get_header x) ≥ req
      · rw [if_pos hfit] at hr
        simp only [Option.some.injEq] at hr
        subst hr
        simp [List.find?, fits, hfit]
      · rw [if_neg hfit] at hr
        have := ih h4 hr
        rw [this]
        simp [List.find?, fits, hfit]

theorem find_from_root_some {s : Heap} {req fuel : Nat} {L : Nat → List Nat} :
    ∀ {n i r : Nat}, (∀ c, i ≤ c → c < i + n →
        Chain s (root_array s c) (root_array s c) (L c)) →
      find_from_root s req fuel n i = some r → r = first_fit s req L n i := by
  intro n
  induction n with
  | zero =>
    intro i r _ hr
    simp [find_from_root] at hr
    simp [first_fit, hr]
  | succ n ih =>
    intro i r h hr
    have hc := h i (le_refl _) (by omega)
    unfold find_from_root at hr
    unfold first_fit
    simp only [get_ptr] at hr
    cases hres : find_in_list s req fuel (s.mem (root_array s i)) with
    | none => rw [hres] at hr; simp at hr
    | some q =>
      have e := find_in_list_some hc hres
      rw [hres] at hr
      cases hfind : (L i).find? (fits s req) with
      | none =>
        rw [hfind] at e
        simp only [Option.getD_none] at e
        subst e
        simp only at hr ⊢
        exact ih (fun c h1 h2 => h c (by omega) (by omega)) hr
      | some y =>
        rw [hfind] at e
        simp only [Option.getD_some] at e
        subst e
        have hy : q ∈ L i := List.mem_of_find?_eq_some hfind
        have hy0 : q ≠ 0 := Chain_nonzero hc q hy
        obtain ⟨k, rfl⟩ : ∃ k, q = k + 1 := ⟨q - 1, by omega⟩
        simp only [Option.some.injEq] at hr ⊢
        exact hr.symm

theorem find_free_list_some {s : Heap} {bs : List Blk} {L : Nat → List Nat}
    {fuel req r : Nat} (h : Inv s bs L) (hr : find_free_list s fuel req = some r) :
    r = first_fit s req L (9 - pick_root req) (pick_root req) := by
  unfold find_free_list at hr
  refine find_from_root_some ?_ hr
  intro c h1 h2
  have := pick_root_lt req
  exact h.chains c (by omega)



/-! ### Fields that no helper changes -/

theorem reset_free_fields (s : Heap) (bp : Nat) :
    (reset_free s bp).brk = s.brk ∧ (reset_free s bp).max = s.max ∧
    (reset_free s bp).heap_listp = s.heap_listp := by
  rw [reset_free_eq]
  split_ifs <;> simp

theorem coalesce_fields (s : Heap) (bp : Nat) :
    (coalesce s bp).2.brk = s.brk ∧ (coalesce s bp).2.max = s.max ∧
    (coalesce s bp).2.heap_listp = s.heap_listp := by
  obtain ⟨r1, r2, r3⟩ := reset_free_fields s (get_prevblk s bp)
  obtain ⟨n1, n2, n3⟩ := reset_free_fields s (get_nextblk s bp)
  obtain ⟨m1, m2, m3⟩ := reset_free_fields (reset_free s (get_prevblk s bp)) (get_nextblk s bp)
  cases hpa : get_alloc s (bp - DSIZE) <;> cases hna : get_alloc s (get_header (get_nextblk s bp))
  · rw [coalesce_eq3 hpa hna]; simp [*]
  · rw [coalesce_eq1 hpa hna]; simp [*]
  · rw [coalesce_eq2 hpa hna]; simp [*]
  · rw [coalesce_eq4 hpa hna]; simp

theorem insert_coalesce_fields (t : Heap) (x z : Nat) :
    (insert_free (coalesce t x).2 (coalesce t x).1 z).brk = t.brk ∧
    (insert_free (coalesce t x).2 (coalesce t x).1 z).max = t.max ∧
    (insert_free (coalesce t x).2 (coalesce t x).1 z).heap_listp = t.heap_listp := by
  obtain ⟨a1, a2, a3⟩ := insert_free_fields (coalesce t x).2 (coalesce t x).1 z
  obtain ⟨b1, b2, b3⟩ := coalesce_fields t x
  exact ⟨a1.trans b1, a2.trans b2, a3.trans b3⟩

theorem allocate_pos {s : Heap} {bp r : Nat}
    (hc : sub64 (sub64 (get_size s (get_header bp)) r) DSIZE ≥ WSIZE * 4) :
    allocate s bp r =
      insert_free (coalesce (allocate_split_state s bp r) (bp + add64 r DSIZE)).2
        (coalesce (allocate_split_state s bp r) (bp + add64 r DSIZE)).1
        (get_size (coalesce (allocate_split_state s bp r) (bp + add64 r DSIZE)).2
          (get_header (coalesce (allocate_split_state s bp r) (bp + add64 r DSIZE)).1)) := by
  unfold allocate
  simp only []
  rw [if_pos hc]
  rfl

theorem allocate_neg {s : Heap} {bp r : Nat}
    (hc : ¬ sub64 (sub64 (get_size s (get_header bp)) r) DSIZE ≥ WSIZE * 4) :
    allocate s bp r =
      put (put (reset_free s bp) (get_header bp) (pack (get_size s (get_header bp)) 1))
        (get_footer (put (reset_free s bp) (get_header bp)
          (pack (get_size s (get_header bp)) 1)) bp)
        (pack (get_size s (get_header bp)) 1) := by
  unfold allocate
  simp only []
  rw [if_neg hc]

theorem allocate_split_state_fields (s : Heap) (bp r : Nat) :
    (allocate_split_state s bp r).brk = s.brk ∧ (allocate_split_state s bp r).max = s.max ∧
    (allocate_split_state s bp r).heap_listp = s.heap_listp := by
  obtain ⟨r1, r2, r3⟩ := reset_free_fields s bp
  unfold allocate_split_state
  simp only [set_ptr_brk, put_brk, set_ptr_max, put_max, set_ptr_heap_listp, put_heap_listp]
  exact ⟨r1, r2, r3⟩

theorem allocate_fields (s : Heap) (bp r : Nat) :
    (allocate s bp r).brk = s.brk ∧ (allocate s bp r).max = s.max ∧
    (allocate s bp r).heap_listp = s.heap_listp := by
  obtain ⟨r1, r2, r3⟩ := reset_free_fields s bp
  by_cases hc : sub64 (sub64 (get_size s (get_header bp)) r) DSIZE ≥ WSIZE * 4
  · rw [allocate_pos hc]
    obtain ⟨a1, a2, a3⟩ := insert_coalesce_fields (allocate_split_state s bp r)
      (bp + add64 r DSIZE)
      (get_size (coalesce (allocate_split_state s bp r) (bp + add64 r DSIZE)).2
          (get_header (coalesce (allocate_split_state s bp r) (bp + add64 r DSIZE)).1))
    obtain ⟨t1, t2, t3⟩ := allocate_split_state_fields s bp r
    exact ⟨a1.trans t1, a2.trans t2, a3.trans t3⟩
  · rw [allocate_neg hc]
    exact ⟨r1, r2, r3⟩

theorem free_pos {s : Heap} {p : Nat} (hp : p ≠ 0) (ha : get_alloc s (get_header p) = true) :
    free s p =
      insert_free (coalesce (free_mark_state s p) p).2 (coalesce (free_mark_state s p) p).1
        (get_size (coalesce (free_mark_state s p) p).2
          (get_header (coalesce (free_mark_state s p) p).1)) := by
  unfold free
  simp only []
  rw [if_neg hp]
  simp only [ha, Bool.not_true, Bool.false_eq_true, if_false]
  rfl

theorem free_null (s : Heap) : free s 0 = s := by
  unfold free; simp

theorem free_of_free {s : Heap} {p : Nat} (ha : get_alloc s (get_header p) = false) :
    free s p = s := by
  unfold free
  simp only []
  by_cases hp : p = 0
  · rw [if_pos hp]
  · rw [if_neg hp]
    simp [ha]

theorem free_fields (s : Heap) (p : Nat) :
    (free s p).brk = s.brk ∧ (free s p).max = s.max ∧
    (free s p).heap_listp = s.heap_listp := by
  by_cases hp : p = 0
  · subst hp; rw [free_null]; exact ⟨rfl, rfl, rfl⟩
  · cases ha : get_alloc s (get_header p)
    · rw [free_of_free ha]; exact ⟨rfl, rfl, rfl⟩
    · rw [free_pos hp ha]
      obtain ⟨a1, a2, a3⟩ := insert_coalesce_fields (free_mark_state s p) p
        (get_size (coalesce (free_mark_state s p) p).2
          (get_header (coalesce (free_mark_state s p) p).1))
      exact ⟨a1.trans rfl, a2.trans rfl, a3.trans rfl⟩


/-! ### `extend_heap` and `malloc` as equations -/

theorem align_spec {x : Nat} (h : x + 15 < SIZE_MOD) :
    align x = (x + 15) / 16 * 16 ∧ x ≤ align x ∧ align x % 16 = 0 ∧ align x < x + 16 := by
  have e : align x = (x + 15) / 16 * 16 := by
    unfold align ALIGNMENT
    have h1 : (x + 16 - 1) % SIZE_MOD = x + 15 := Nat.mod_eq_of_lt (by omega)
    rw [h1]
    have h2 : 16 * ((x + 15) / 16) < SIZE_MOD := by omega
    rw [Nat.mod_eq_of_lt h2]
    omega
  rw [e]
  refine ⟨rfl, by omega, by omega, by omega⟩

theorem align_eq {x : Nat} (h16 : x % 16 = 0) (h : x + 15 < SIZE_MOD) : align x = x := by
  rw [(align_spec h).1]; omega

theorem extend_heap_fail {s : Heap} {w : Nat} (h : ¬ s.brk + extend_size w ≤ s.max) :
    extend_heap s w = (0, s) := by
  unfold extend_heap mm_sbrk
  simp only []
  have : (if align w < WSIZE * 4 then WSIZE * 4 else align w) = extend_size w := rfl
  rw [this, if_neg h]

theorem extend_heap_ok {s : Heap} {w : Nat} (h : s.brk + extend_size w ≤ s.max) :
    extend_heap s w = (s.brk, extend_state s w) := by
  unfold extend_heap mm_sbrk
  simp only []
  have : (if align w < WSIZE * 4 then WSIZE * 4 else align w) = extend_size w := rfl
  rw [this, if_pos h]
  rfl

theorem malloc_zero (fuel : Nat) (s : Heap) : malloc fuel s 0 = some (0, s) := by
  unfold malloc; simp

theorem malloc_found {fuel : Nat} {s : Heap} {n p : Nat} (hn : n ≠ 0) (hp : p ≠ 0)
    (h : find_free_list s fuel (add64 (align n) DSIZE) = some p) :
    malloc fuel s n = some (p, allocate s p (align n)) := by
  obtain ⟨k, rfl⟩ : ∃ k, p = k + 1 := ⟨p - 1, by omega⟩
  unfold malloc
  simp only []
  rw [if_neg (by omega), h]

theorem malloc_none {fuel : Nat} {s : Heap} {n : Nat} (hn : n ≠ 0)
    (h : find_free_list s fuel (add64 (align n) DSIZE) = none) :
    malloc fuel s n = none := by
  unfold malloc
  simp only []
  rw [if_neg (by omega), h]

theorem malloc_extend_fail {fuel : Nat} {s : Heap} {n : Nat} (hn : n ≠ 0)
    (h : find_free_list s fuel (add64 (align n) DSIZE) = some 0)
    (hx : ¬ s.brk + extend_size (add64 (align n) DSIZE) ≤ s.max) :
    malloc fuel s n = some (0, s) := by
  unfold malloc
  simp only []
  rw [if_neg (by omega), h]
  simp only [extend_heap_fail hx, if_true]

theorem malloc_extend_ok {fuel : Nat} {s : Heap} {n : Nat} (hn : n ≠ 0)
    (h : find_free_list s fuel (add64 (align n) DSIZE) = some 0)
    (hx : s.brk + extend_size (add64 (align n) DSIZE) ≤ s.max) (hb : s.brk ≠ 0) :
    malloc fuel s n = some (s.brk, malloc_extend_state s (add64 (align n) DSIZE)) := by
  unfold malloc
  simp only []
  rw [if_neg (by omega), h]
  simp only [extend_heap_ok hx, if_neg hb]
  rfl


/-! ### A block laid over an extension of the heap -/

/-- A state that extends a well-formed heap by one tagged block, and agrees
with it below the old epilogue, is well formed; a free new block is pending. -/
theorem append_block {s t : Heap} {bs : List Blk} {L : Nat → List Nat} {z : Nat} {al : Bool}
    (h : Inv s bs L) (f1 : t.brk = s.brk + z) (f2 : t.max = s.max)
    (f3 : t.heap_listp = s.heap_listp) (hfit : s.brk + z ≤ s.max)
    (hframe : ∀ x, x < s.brk - 8 → t.mem x = s.mem x)
    (hA : BlockOk t ⟨s.brk, z, al⟩) (hepi : get_alloc t (s.brk + z - 8) = true) :
    FInv t (bs ++ [⟨s.brk, z, al⟩]) L (fun x => al = false ∧ x = s.brk) := by
  have g := h.geom
  have hlb : s.heap_listp + 96 ≤ s.brk := Tiles_le g.tiles
  have hl16 := g.hl16
  have hold : ∀ b ∈ bs, s.heap_listp + 96 ≤ b.addr ∧ b.addr + b.size ≤ s.brk ∧ 32 ≤ b.size :=
    fun b hb => by
      have := g.facts hb
      omega
  have hnode : ∀ c, c < 9 → ∀ y ∈ L c, ∃ b ∈ bs, b.addr = y ∧
      b.alloc = false ∧ pick_root b.size = c := h.listed
  refine ⟨⟨by rw [f3]; exact g.hl16, by rw [f3]; exact g.hlpos, by rw [f1, f2]; exact hfit,
    by rw [f2]; exact g.max_le, ?_, ?_⟩, ?_, ?_, ?_, ?_, ?_, ?_, ?_, h.nodup, ?_⟩
  · rw [f1, f3]
    exact Tiles_append.2 ⟨s.brk, g.tiles, rfl, rfl⟩
  · intro b hb
    simp only [List.mem_append, List.mem_singleton] at hb
    rcases hb with hb | rfl
    · exact g.sizes b hb
    · exact hA.2.2.2.2
  · intro b hb
    simp only [List.mem_append, List.mem_singleton] at hb
    rcases hb with hb | rfl
    · have := hold b hb
      exact BlockOk_congr (h.blocks b hb) (hframe _ (by omega)) (hframe _ (by omega))
    · exact hA
  · rw [f3, get_alloc_eq, hframe _ (by omega), ← get_alloc_eq]
    exact h.prologue
  · rw [f1]; exact hepi
  · refine List.chain'_append.2 ⟨?_, List.chain'_singleton _, ?_⟩
    · exact List.Chain'.imp (fun a b hab => by tauto) h.noadj
    · intro x _ y hy
      simp only [List.head?_cons, Option.mem_def, Option.some.injEq] at hy
      subst hy
      cases al with
      | true => right; left; rfl
      | false => right; right; right; exact ⟨rfl, rfl⟩
  · intro c hc
    have hr : root_array t c = s.heap_listp + c * 8 := by rw [root_array_eq, f3]
    rw [hr]
    have hch := h.chains c hc
    rw [root_array_eq] at hch
    refine Chain_congr hch (hframe _ (by omega)) ?_
    intro y hy
    obtain ⟨b, hb, rfl, _⟩ := hnode c hc y hy
    have := hold b hb
    exact ⟨hframe _ (by omega), hframe _ (by omega)⟩
  · intro c hc y hy
    obtain ⟨b, hb, e1, e2, e3⟩ := hnode c hc y hy
    refine ⟨b, by simp [hb], e1, e2, e3, ?_⟩
    rintro ⟨_, rfl⟩
    have := hold b hb
    omega
  · intro d hd hfree hU
    simp only [List.mem_append, List.mem_singleton] at hd
    rcases hd with hd | rfl
    · exact h.complete d hd hfree
    · exact absurd ⟨hfree, rfl⟩ hU
  · rintro x ⟨hal, rfl⟩
    exact ⟨⟨s.brk, z, al⟩, by simp, rfl, hal⟩

theorem Inv.brk_facts {s : Heap} {bs : List Blk} {L : Nat → List Nat} (h : Inv s bs L) :
    s.heap_listp + 96 ≤ s.brk ∧ s.brk % 16 = 0 ∧ s.brk ≤ SIZE_MOD ∧ s.heap_listp % 16 = 0 := by
  have g := h.geom
  have h1 := Tiles_le g.tiles
  have hl := g.hl16
  have h2 := (Tiles_aligned g.tiles (by omega) (fun c hc => (g.sizes c hc).2)).2
  have := g.brk_le
  have := g.max_le
  exact ⟨h1, h2, by omega, hl⟩

/-- What the extension of `extend_heap` writes. -/
theorem extend_state_mem {s : Heap} {w z : Nat} (hz : extend_size w = z) (hz32 : 32 ≤ z)
    (hz16 : z % 16 = 0) (hlt : z < SIZE_MOD) (hb : 8 ≤ s.brk) (x : Nat) :
    (extend_state s w).mem x =
      if x = s.brk + z - 8 then 3 else if x = s.brk + z - 16 then z
      else if x = s.brk + 8 then 0 else if x = s.brk then 0
      else if x = s.brk - 8 then z else s.mem x := by
  have hpk : pack z 0 % SIZE_MOD = z := pack_zero_mod hz16 hlt
  have e1 : get_footer (set_ptr (set_ptr (put { s with brk := s.brk + z } (get_header s.brk)
      (pack z 0)) s.brk 0) (s.brk + WSIZE) 0) s.brk = s.brk + z - 16 := by
    have hgs : get_size (set_ptr (set_ptr (put { s with brk := s.brk + z } (get_header s.brk)
        (pack z 0)) s.brk 0) (s.brk + WSIZE) 0) (get_header s.brk) = z := by
      rw [get_size_eq]
      simp only [set_ptr_mem, put_mem, get_header, WSIZE]
      have a1 : s.brk - 8 ≠ s.brk + 8 := by omega
      have a2 : s.brk - 8 ≠ s.brk := by omega
      simp only [if_neg a1, if_neg a2, if_true, hpk]
      rw [Nat.mod_eq_of_lt hlt]; omega
    rw [get_footer, hgs]; rfl
  have e2 : get_nextblk (put (set_ptr (set_ptr (put { s with brk := s.brk + z }
      (get_header s.brk) (pack z 0)) s.brk 0) (s.brk + WSIZE) 0) (s.brk + z - 16) (pack z 0))
      s.brk = s.brk + z := by
    rw [get_nextblk, get_size_eq]
    simp only [set_ptr_mem, put_mem, get_header, WSIZE]
    have a1 : s.brk - 8 ≠ s.brk + 8 := by omega
    have a2 : s.brk - 8 ≠ s.brk := by omega
    have a3 : s.brk - 8 ≠ s.brk + z - 16 := by omega
    simp only [if_neg a1, if_neg a2, if_neg a3, if_true, hpk]
    rw [Nat.mod_eq_of_lt hlt]; omega
  unfold extend_state
  simp only [hz]
  rw [e1, e2]
  simp only [put_mem, set_ptr_mem, get_header, WSIZE, hpk]
  have : pack 0 3 % SIZE_MOD = 3 := by decide
  rw [this]
  simp

theorem extend_state_fields (s : Heap) (w : Nat) :
    (extend_state s w).brk = s.brk + extend_size w ∧ (extend_state s w).max = s.max ∧
    (extend_state s w).heap_listp = s.heap_listp := by
  unfold extend_state
  simp only [put_brk, put_max, put_heap_listp, set_ptr_brk, set_ptr_max, set_ptr_heap_listp]
  simp


/-! ### `malloc` -/

theorem FInv.congr_U {s : Heap} {bs : List Blk} {L : Nat → List Nat} {U U' : Nat → Prop}
    (h : FInv s bs L U) (hU : ∀ x, U x ↔ U' x) : FInv s bs L U' := by
  have e : U = U' := funext (fun x => propext (hU x))
  rw [← e]; exact h

theorem extend_size_ge (w : Nat) : 32 ≤ extend_size w := by
  unfold extend_size WSIZE; split_ifs <;> omega

theorem extend_size_eq {w : Nat} (h16 : w % 16 = 0) (h32 : 32 ≤ w) (hlt : w + 15 < SIZE_MOD) :
    extend_size w = w := by
  unfold extend_size
  rw [align_eq h16 hlt, if_neg (by simp only [WSIZE]; omega)]

theorem malloc_extend_state_fields (s : Heap) (w : Nat) :
    (malloc_extend_state s w).brk = s.brk + extend_size w ∧
    (malloc_extend_state s w).max = s.max ∧
    (malloc_extend_state s w).heap_listp = s.heap_listp := by
  obtain ⟨e1, e2, e3⟩ := extend_state_fields s w
  unfold malloc_extend_state
  simp only [put_brk, put_max, put_heap_listp]
  exact ⟨e1, e2, e3⟩

theorem malloc_extend_state_mem {s : Heap} {z : Nat} (hz32 : 32 ≤ z)
    (hz16 : z % 16 = 0) (hlt : z + 15 < SIZE_MOD) (hb : 8 ≤ s.brk) (x : Nat) :
    (malloc_extend_state s z).mem x =
      if x = s.brk + z - 16 then z + 1 else if x = s.brk - 8 then z + 1
      else if x = s.brk + z - 8 then 3
      else if x = s.brk + 8 then 0 else if x = s.brk then 0 else s.mem x := by
  have hes := extend_size_eq hz16 hz32 hlt
  have hmem := extend_state_mem (s := s) hes hz32 hz16 (by omega) hb
  have hpk : pack z 1 % SIZE_MOD = z + 1 := pack_one_mod hz16 (by omega)
  have e1 : get_footer (put (extend_state s z) (get_header s.brk) (pack z 1)) s.brk
      = s.brk + z - 16 := by
    have hgs : get_size (put (extend_state s z) (get_header s.brk) (pack z 1))
        (get_header s.brk) = z := by
      rw [get_size_eq, put_mem, if_pos rfl, hpk]
      have : (z + 1) % SIZE_MOD = z + 1 := Nat.mod_eq_of_lt (by unfold SIZE_MOD at *; omega)
      rw [this]; omega
    rw [get_footer, hgs]; rfl
  unfold malloc_extend_state
  simp only []
  rw [e1]
  simp only [put_mem, hpk, hmem, get_header, WSIZE]
  by_cases c1 : x = s.brk + z - 16
  · simp [c1]
  · by_cases c2 : x = s.brk - 8
    · simp [c1, c2]
    · simp [c1, c2]

/-- The aligned payload size of a request that the size arithmetic can
represent. -/
theorem align_request {n : Nat} (hn : n ≠ 0) (hn' : n ≤ SIZE_MOD - 32) :
    align n % 16 = 0 ∧ 16 ≤ align n ∧ n ≤ align n ∧ align n ≤ SIZE_MOD - 32 ∧
      add64 (align n) DSIZE = align n + 16 := by
  have hlt : n + 15 < SIZE_MOD := by unfold SIZE_MOD at *; omega
  obtain ⟨e, h1, h2, h3⟩ := align_spec hlt
  have h4 : 16 ≤ align n := by rw [e]; omega
  have h5 : align n ≤ SIZE_MOD - 32 := by rw [e]; unfold SIZE_MOD at *; omega
  refine ⟨h2, h4, h1, h5, ?_⟩
  exact add64_eq (by simp only [DSIZE]; unfold SIZE_MOD at *; omega)


/-- The extension path of `malloc`: the new block is appended, allocated. -/
theorem malloc_extend_inv {s : Heap} {bs : List Blk} {L : Nat → List Nat} {z : Nat}
    (h : Inv s bs L) (hz32 : 32 ≤ z) (hz16 : z % 16 = 0) (hlt : z + 15 < SIZE_MOD)
    (hfit : s.brk + z ≤ s.max) :
    Inv (malloc_extend_state s z) (bs ++ [⟨s.brk, z, true⟩]) L := by
  have hb := h.brk_facts
  have hes := extend_size_eq hz16 hz32 hlt
  obtain ⟨f1, f2, f3⟩ := malloc_extend_state_fields s z
  rw [hes] at f1
  have hmem := malloc_extend_state_mem (s := s) hz32 hz16 hlt (by omega)
  have hm1 : (z + 1) % SIZE_MOD = z + 1 := Nat.mod_eq_of_lt (by unfold SIZE_MOD at *; omega)
  have hF := @append_block _ _ _ _ _ true h f1 f2 f3 hfit
    (by
      intro x hx
      rw [hmem]
      have a1 : x ≠ s.brk + z - 16 := by omega
      have a2 : x ≠ s.brk - 8 := by omega
      have a3 : x ≠ s.brk + z - 8 := by omega
      have a4 : x ≠ s.brk + 8 := by omega
      have a5 : x ≠ s.brk := by omega
      simp only [if_neg a1, if_neg a2, if_neg a3, if_neg a4, if_neg a5])
    (by
      unfold BlockOk
      simp only [get_size_eq, get_alloc_eq, get_header, WSIZE, DSIZE, hmem]
      have a1 : s.brk - 8 ≠ s.brk + z - 16 := by omega
      simp only [if_neg a1, if_true, hm1]
      refine ⟨by omega, ?_, by omega, ?_, by omega, by omega⟩
      · simp; omega
      · simp; omega)
    (by
      rw [get_alloc_eq, hmem]
      have a1 : s.brk + z - 8 ≠ s.brk + z - 16 := by omega
      have a2 : s.brk + z - 8 ≠ s.brk - 8 := by omega
      simp [a1, a2])
  exact (@FInv.congr_U _ _ _ _ (fun _ => False) hF (fun x => by simp)).toInv

/-- The outcome of `malloc(n)` for a request `0 < n ≤ 2^64 - 32`. -/
theorem malloc_ok {s : Heap} {bs : List Blk} {L : Nat → List Nat} (h : Inv s bs L)
    {n : Nat} (hn : n ≠ 0) (hn' : n ≤ SIZE_MOD - 32) {fuel p : Nat} {s' : Heap}
    (hm : malloc fuel s n = some (p, s')) :
    (p = 0 → s' = s) ∧
    (p ≠ 0 → ∃ bs' L' A, Inv s' bs' L' ∧ A ∈ bs' ∧ A.addr = p ∧ A.alloc = true ∧
      s'.max = s.max ∧ s'.heap_listp = s.heap_listp ∧
      (∀ d : Blk, d.alloc = true → (d ∈ bs' ↔ (d ∈ bs ∨ d = A))) ∧
      (∀ d ∈ bs, d.alloc = true → d.addr ≠ p) ∧
      ((s'.brk = s.brk ∧ ∃ b ∈ bs, b.alloc = false ∧ b.addr = p ∧ align n + 16 ≤ b.size ∧
          (32 ≤ b.size - align n - 16 → A.size = align n + 16) ∧
          (b.size - align n - 16 < 32 → A.size = b.size)) ∨
        (p = s.brk ∧ A.size = align n + 16 ∧ s'.brk = s.brk + (align n + 16) ∧
          first_fit s (align n + 16) L (9 - pick_root (align n + 16))
            (pick_root (align n + 16)) = 0))) := by
  obtain ⟨r16, r16le, hnr, rle, hadd⟩ := align_request hn hn'
  have g := h.geom
  have hb := h.brk_facts
  cases hfind : find_free_list s fuel (add64 (align n) DSIZE) with
  | none => rw [malloc_none hn hfind] at hm; exact absurd hm (by simp)
  | some q =>
    have hq := find_free_list_some h hfind
    rw [hadd] at hq hfind
    by_cases hq0 : q = 0
    · subst hq0
      by_cases hfit : s.brk + extend_size (align n + 16) ≤ s.max
      · rw [← hadd] at hfind hfit
        rw [malloc_extend_ok hn hfind hfit (by omega), hadd] at hm
        rw [hadd] at hfit
        simp only [Option.some.injEq, Prod.mk.injEq] at hm
        obtain ⟨rfl, rfl⟩ := hm
        have hlt : align n + 16 + 15 < SIZE_MOD := by unfold SIZE_MOD at *; omega
        have hes := extend_size_eq (w := align n + 16) (by omega) (by omega) hlt
        rw [hes] at hfit
        have hinv := malloc_extend_inv h (z := align n + 16) (by omega) (by omega) hlt hfit
        obtain ⟨f1, f2, f3⟩ := malloc_extend_state_fields s (align n + 16)
        rw [hes] at f1
        refine ⟨fun e => absurd e (by omega), fun _ => ⟨_, _, ⟨s.brk, align n + 16, true⟩,
          hinv, by simp, rfl, rfl, f2, f3, ?_, ?_, Or.inr ⟨rfl, rfl, f1, hq.symm⟩⟩⟩
        · intro d _
          simp only [List.mem_append, List.mem_singleton]
        · intro d hd _
          have := g.facts hd
          omega
      · rw [← hadd] at hfind hfit
        rw [malloc_extend_fail hn hfind hfit] at hm
        simp only [Option.some.injEq, Prod.mk.injEq] at hm
        obtain ⟨rfl, rfl⟩ := hm
        exact ⟨fun _ => rfl, fun e => absurd rfl e⟩
    · rw [← hadd] at hfind
      rw [malloc_found hn hq0 hfind] at hm
      simp only [Option.some.injEq, Prod.mk.injEq] at hm
      obtain ⟨rfl, rfl⟩ := hm
      have hq' := hq
      rw [hq] at hq0
      obtain ⟨c, hc1, hc2, hmem, hsz⟩ := first_fit_mem hq0
      rw [← hq] at hmem hsz
      have hc9 : c < 9 := by have := pick_root_lt (align n + 16); omega
      obtain ⟨b, hbm, hba, hbf, _⟩ := h.listed c hc9 q hmem
      subst hba
      have hbsz : get_size s (get_header b.addr) = b.size := (h.blocks b hbm).1
      rw [hbsz] at hsz
      obtain ⟨bs', L', A, hinv, f1, f2, f3, hA, hAa, hAal, hs1, hs2, hal⟩ :=
        allocate_ok h hbm hbf r16 r16le hsz
      refine ⟨fun e => absurd e (by rw [hq]; exact hq0), fun _ => ⟨bs', L', A, hinv, hA, hAa,
        hAal, f2, f3, hal, ?_, Or.inl ⟨f1, b, hbm, hbf, rfl, hsz, hs1, hs2⟩⟩⟩
      intro d hd hdal e
      have := g.addr_inj hd hbm e
      subst this
      rw [hbf] at hdal; exact absurd hdal (by simp)

/-- Any non-null pointer `malloc` returns on a well-formed heap is aligned
and lies between the prologue and the epilogue, whatever the request. -/
theorem malloc_ptr {s : Heap} {bs : List Blk} {L : Nat → List Nat} (h : Inv s bs L)
    {fuel n p : Nat} {s' : Heap} (hm : malloc fuel s n = some (p, s')) (hp : p ≠ 0) :
    p % 16 = 0 ∧ s.heap_listp + 96 ≤ p ∧ p + 32 ≤ s'.brk ∧
      s'.heap_listp = s.heap_listp := by
  have g := h.geom
  have hb := h.brk_facts
  by_cases hn : n = 0
  · subst hn
    rw [malloc_zero] at hm
    simp only [Option.some.injEq, Prod.mk.injEq] at hm
    exact absurd hm.1.symm hp
  · cases hfind : find_free_list s fuel (add64 (align n) DSIZE) with
    | none => rw [malloc_none hn hfind] at hm; exact absurd hm (by simp)
    | some q =>
      have hq := find_free_list_some h hfind
      by_cases hq0 : q = 0
      · subst hq0
        by_cases hfit : s.brk + extend_size (add64 (align n) DSIZE) ≤ s.max
        · rw [malloc_extend_ok hn hfind hfit (by omega)] at hm
          simp only [Option.some.injEq, Prod.mk.injEq] at hm
          obtain ⟨rfl, rfl⟩ := hm
          obtain ⟨f1, f2, f3⟩ := malloc_extend_state_fields s (add64 (align n) DSIZE)
          have := extend_size_ge (add64 (align n) DSIZE)
          exact ⟨hb.2.1, hb.1, by omega, f3⟩
        · rw [malloc_extend_fail hn hfind hfit] at hm
          simp only [Option.some.injEq, Prod.mk.injEq] at hm
          exact absurd hm.1.symm hp
      · rw [malloc_found hn hq0 hfind] at hm
        simp only [Option.some.injEq, Prod.mk.injEq] at hm
        obtain ⟨rfl, rfl⟩ := hm
        rw [hq] at hq0
        obtain ⟨c, hc1, hc2, hmem, _⟩ := first_fit_mem hq0
        rw [← hq] at hmem
        have hc9 : c < 9 := by
          have := pick_root_lt (add64 (align n) DSIZE); omega
        obtain ⟨b, hbm, hba, _⟩ := h.listed c hc9 q hmem
        subst hba
        have fb := g.facts hbm
        obtain ⟨f1, f2, f3⟩ := allocate_fields s b.addr (align n)
        exact ⟨fb.2.2.1, fb.1, by omega, f3⟩


/-! ### `mm_init` -/

theorem mm_init_fail {s : Heap} (h : ¬ s.brk + 96 ≤ s.max) : mm_init s = (false, s) := by
  unfold mm_init mm_sbrk
  have : ¬ s.brk + 12 * WSIZE ≤ s.max := by simpa [WSIZE] using h
  rw [if_neg this]

theorem mm_init_eq {s : Heap} (h : s.brk + 96 ≤ s.max) :
    mm_init s =
      if (extend_heap (init_prelude s) 512).1 = 0 then
        (false, (extend_heap (init_prelude s) 512).2)
      else (true, insert_free (extend_heap (init_prelude s) 512).2
        (extend_heap (init_prelude s) 512).1 512) := by
  unfold mm_init mm_sbrk
  have : s.brk + 12 * WSIZE ≤ s.max := by simpa [WSIZE] using h
  rw [if_pos this]
  rfl

theorem init_prelude_fields (s : Heap) :
    (init_prelude s).brk = s.brk + 96 ∧ (init_prelude s).max = s.max ∧
    (init_prelude s).heap_listp = s.brk := by
  simp [init_prelude, List.range, List.range.loop, WSIZE]

theorem init_prelude_mem (s : Heap) (x : Nat) :
    (init_prelude s).mem x =
      if x = s.brk + 96 then 3 else if x = s.brk + 88 then 17 else if x = s.brk + 80 then 17
      else if x = s.brk + 72 then 0 else if x = s.brk + 64 then 0
      else if x = s.brk + 56 then 0 else if x = s.brk + 48 then 0
      else if x = s.brk + 40 then 0 else if x = s.brk + 32 then 0
      else if x = s.brk + 24 then 0 else if x = s.brk + 16 then 0
      else if x = s.brk + 8 then 0 else if x = s.brk then 0 else s.mem x := by
  have e1 : pack DSIZE 1 % SIZE_MOD = 17 := by decide
  have e2 : pack 0 3 % SIZE_MOD = 3 := by decide
  simp [init_prelude, List.range, List.range.loop, WSIZE, root_array, e1, e2]

/-- The prelude alone is a well-formed heap with no block. -/
theorem init_prelude_inv {s : Heap} (h16 : s.brk % 16 = 0) (hpos : 0 < s.brk)
    (hmax : s.max ≤ SIZE_MOD) (hfit : s.brk + 96 ≤ s.max) :
    Inv (init_prelude s) [] (fun _ => []) := by
  obtain ⟨f1, f2, f3⟩ := init_prelude_fields s
  refine ⟨by rw [f3]; exact h16, by rw [f3]; exact hpos, by rw [f1, f2]; exact hfit,
    by rw [f2]; exact hmax, by rw [f1, f3]; rfl, fun b hb => absurd hb (List.not_mem_nil b),
    ?_, ?_, List.chain'_nil, ?_, fun c _ y hy => absurd hy (List.not_mem_nil y),
    fun b hb => absurd hb (List.not_mem_nil b), fun c _ => List.nodup_nil⟩
  · rw [f3, get_alloc_eq, init_prelude_mem]
    have a1 : s.brk + 80 ≠ s.brk + 96 := by omega
    have a2 : s.brk + 80 ≠ s.brk + 88 := by omega
    simp [a1, a2]
  · rw [f1, get_alloc_eq, init_prelude_mem]
    have a0 : s.brk + 96 - 8 = s.brk + 88 := by omega
    have a1 : s.brk + 88 ≠ s.brk + 96 := by omega
    rw [a0]
    simp [a1]
  · intro c hc
    show (init_prelude s).mem (root_array (init_prelude s) c) = 0
    rw [root_array_eq, f3, init_prelude_mem]
    have : c = 0 ∨ c = 1 ∨ c = 2 ∨ c = 3 ∨ c = 4 ∨ c = 5 ∨ c = 6 ∨ c = 7 ∨ c = 8 := by omega
    rcases this with rfl | rfl | rfl | rfl | rfl | rfl | rfl | rfl | rfl <;> simp


theorem extend_free_inv {s : Heap} {bs : List Blk} {L : Nat → List Nat} {z : Nat}
    (h : Inv s bs L) (hz32 : 32 ≤ z) (hz16 : z % 16 = 0) (hlt : z + 15 < SIZE_MOD)
    (hfit : s.brk + z ≤ s.max) :
    PreInv (extend_state s z) (bs ++ [⟨s.brk, z, false⟩]) L s.brk := by
  have hb := h.brk_facts
  have hes := extend_size_eq hz16 hz32 hlt
  obtain ⟨f1, f2, f3⟩ := extend_state_fields s z
  rw [hes] at f1
  have hmem := extend_state_mem (s := s) hes hz32 hz16 (by omega) (by omega)
  have hzm : z % SIZE_MOD = z := Nat.mod_eq_of_lt (by omega)
  have hF := @append_block _ _ _ _ _ false h f1 f2 f3 hfit
    (by
      intro x hx
      rw [hmem]
      have a1 : x ≠ s.brk + z - 8 := by omega
      have a2 : x ≠ s.brk + z - 16 := by omega
      have a3 : x ≠ s.brk + 8 := by omega
      have a4 : x ≠ s.brk := by omega
      have a5 : x ≠ s.brk - 8 := by omega
      simp only [if_neg a1, if_neg a2, if_neg a3, if_neg a4, if_neg a5])
    (by
      refine ⟨?_, ?_, ?_, ?_, hz32, hz16⟩
      · show get_size _ (get_header s.brk) = z
        rw [get_size_eq, hmem]
        have e0 : get_header s.brk = s.brk - 8 := rfl
        rw [e0]
        have a1 : s.brk - 8 ≠ s.brk + z - 8 := by omega
        have a2 : s.brk - 8 ≠ s.brk + z - 16 := by omega
        have a3 : s.brk - 8 ≠ s.brk + 8 := by omega
        have a4 : s.brk - 8 ≠ s.brk := by omega
        simp only [if_neg a1, if_neg a2, if_neg a3, if_neg a4, if_true]
        omega
      · show get_alloc _ (get_header s.brk) = false
        rw [get_alloc_eq, hmem]
        have e0 : get_header s.brk = s.brk - 8 := rfl
        rw [e0]
        have a1 : s.brk - 8 ≠ s.brk + z - 8 := by omega
        have a2 : s.brk - 8 ≠ s.brk + z - 16 := by omega
        have a3 : s.brk - 8 ≠ s.brk + 8 := by omega
        have a4 : s.brk - 8 ≠ s.brk := by omega
        simp only [if_neg a1, if_neg a2, if_neg a3, if_neg a4, if_true]
        have : z % 2 = 0 := by omega
        simp [this]
      · show get_size _ (s.brk + z - DSIZE) = z
        rw [get_size_eq, hmem]
        have e0 : s.brk + z - DSIZE = s.brk + z - 16 := rfl
        rw [e0]
        have a1 : s.brk + z - 16 ≠ s.brk + z - 8 := by omega
        simp only [if_neg a1, if_true]
        omega
      · show get_alloc _ (s.brk + z - DSIZE) = false
        rw [get_alloc_eq, hmem]
        have e0 : s.brk + z - DSIZE = s.brk + z - 16 := rfl
        rw [e0]
        have a1 : s.brk + z - 16 ≠ s.brk + z - 8 := by omega
        simp only [if_neg a1, if_true]
        have : z % 2 = 0 := by omega
        simp [this])
    (by
      rw [get_alloc_eq, hmem]
      simp)
  exact (hF.congr_U (fun x => by simp)).toPreInv

theorem mm_init_eq_of {s : Heap} (h : s.brk + 96 ≤ s.max) {p : Nat} {t : Heap}
    (hx : extend_heap (init_prelude s) 512 = (p, t)) :
    mm_init s = if p = 0 then (false, t) else (true, insert_free t p 512) := by
  rw [mm_init_eq h, hx]

theorem mm_init_ok_aux {s P : Heap}
    (hq : ∀ p t, extend_heap P 512 = (p, t) →
      mm_init s = if p = 0 then (false, t) else (true, insert_free t p 512))
    (f1 : P.brk = s.brk + 96) (f2 : P.max = s.max) (f3 : P.heap_listp = s.brk)
    (hI : Inv P [] (fun _ => [])) :
    ∃ ok t, mm_init s = (ok, t) ∧ (ok = true ↔ s.brk + 608 ≤ s.max) ∧
    (ok = true →
      Inv t [⟨s.brk + 96, 512, false⟩] (Function.update (fun _ => []) 4 [s.brk + 96]) ∧
      t.heap_listp = s.brk ∧ t.brk = s.brk + 608 ∧ t.max = s.max) := by
  have hes : extend_size 512 = 512 := by decide
  by_cases hfit : s.brk + 608 ≤ s.max
  swap
  · have hx : extend_heap P 512 = (0, P) :=
      extend_heap_fail (by rw [f1, f2, hes]; omega)
    have e : mm_init s = (false, P) := by
      rw [hq _ _ hx, if_pos rfl]
    exact ⟨false, _, e, ⟨fun h => by simp at h, fun h => absurd h hfit⟩, fun h => by simp at h⟩
  have hx : extend_heap P 512 = (P.brk, extend_state P 512) :=
    extend_heap_ok (by rw [f1, f2, hes]; omega)
  have hne : ¬ P.brk = 0 := by rw [f1]; omega
  have e : mm_init s = (true, insert_free (extend_state P 512) P.brk 512) := by
    rw [hq _ _ hx, if_neg hne]
  have hP := extend_free_inv (z := 512) hI (by omega) (by omega) (by unfold SIZE_MOD; omega)
    (by rw [f1, f2]; omega)
  have hI2 := (insert_pending (b := ⟨P.brk, 512, false⟩) hP
    (List.chain'_singleton _) (List.mem_singleton.2 rfl)).1
  obtain ⟨g1, g2, g3⟩ := extend_state_fields P 512
  obtain ⟨k1, k2, k3⟩ := insert_free_fields (extend_state P 512) P.brk 512
  refine ⟨true, _, e, ⟨fun _ => hfit, fun _ => rfl⟩, fun _ => ⟨?_, ?_, ?_, ?_⟩⟩
  · have hpr : pick_root 512 = 4 := by decide
    have hins : ∀ t x, ins t x [] = [x] := fun _ _ => rfl
    rw [List.nil_append] at hI2
    rw [show (Blk.mk P.brk 512 false).size = 512 from rfl, hpr, hins,
      show (Blk.mk P.brk 512 false).addr = P.brk from rfl] at hI2
    rw [f1] at hI2 ⊢
    exact hI2
  · rw [k3, g3, f3]
  · rw [k1, g1, f1, hes]
  · rw [k2, g2, f2]

/-- What `mm_init` does on a provider whose break is 16-aligned and not at
address 0: it succeeds exactly when 608 bytes fit, and then the heap is one
free 512-byte block, alone on the class-4 list. -/
theorem mm_init_ok {s : Heap} (h16 : s.brk % 16 = 0) (hpos : 0 < s.brk)
    (hmax : s.max ≤ SIZE_MOD) :
    ∃ ok t, mm_init s = (ok, t) ∧ (ok = true ↔ s.brk + 608 ≤ s.max) ∧
    (ok = true →
      Inv t [⟨s.brk + 96, 512, false⟩] (Function.update (fun _ => []) 4 [s.brk + 96]) ∧
      t.heap_listp = s.brk ∧ t.brk = s.brk + 608 ∧ t.max = s.max) := by
  by_cases h96 : s.brk + 96 ≤ s.max
  swap
  · exact ⟨false, s, mm_init_fail h96, ⟨fun h => by simp at h, fun h => by omega⟩,
      fun h => by simp at h⟩
  obtain ⟨f1, f2, f3⟩ := init_prelude_fields s
  exact mm_init_ok_aux (fun p t hx => mm_init_eq_of h96 hx) f1 f2 f3
    (init_prelude_inv h16 hpos hmax h96)


/-! ### The state after `mm_init` on the concrete provider -/

theorem pick_root_table (z : Nat) :
    (z ≤ 32 ∧ pick_root z = 0) ∨ (32 < z ∧ z ≤ 64 ∧ pick_root z = 1) ∨
    (64 < z ∧ z ≤ 128 ∧ pick_root z = 2) ∨ (128 < z ∧ z ≤ 256 ∧ pick_root z = 3) ∨
    (256 < z ∧ z ≤ 512 ∧ pick_root z = 4) ∨ (512 < z ∧ z ≤ 1024 ∧ pick_root z = 5) ∨
    (1024 < z ∧ z ≤ 8192 ∧ pick_root z = 6) ∨ (8192 < z ∧ z ≤ 16384 ∧ pick_root z = 7) ∨
    (16384 < z ∧ pick_root z = 8) := by
  unfold pick_root
  split_ifs <;> omega

theorem pick_root_mono {a b : Nat} (h : a ≤ b) : pick_root a ≤ pick_root b := by
  rcases pick_root_table a with h1 | h1 | h1 | h1 | h1 | h1 | h1 | h1 | h1 <;>
  rcases pick_root_table b with h2 | h2 | h2 | h2 | h2 | h2 | h2 | h2 | h2 <;>
  omega

theorem Inv.node_size {s : Heap} {bs : List Blk} {L : Nat → List Nat} (h : Inv s bs L)
    {c y : Nat} (hc : c < 9) (hy : y ∈ L c) :
    pick_root (get_size s (get_header y)) = c ∧ get_alloc s (get_header y) = false ∧
      32 ≤ get_size s (get_header y) := by
  obtain ⟨b, hb, rfl, hf, hcl⟩ := h.listed c hc y hy
  have hok := h.blocks b hb
  rw [hok.1, hok.2.1]
  exact ⟨hcl, hf, hok.2.2.2.2.1⟩

theorem heap1_inv : Inv heap1 [⟨4192, 512, false⟩] (Function.update (fun _ => []) 4 [4192]) ∧
    heap1.heap_listp = 4096 ∧ heap1.brk = 4704 ∧ heap1.max = 69632 := by
  obtain ⟨ok, t, e, hiff, hinv⟩ := mm_init_ok (s := heap0) (by decide) (by decide) (by decide)
  have hok : ok = true := hiff.2 (by decide)
  have ht : heap1 = t := by
    show (mm_init heap0).2 = t
    rw [e]
  rw [ht]
  exact hinv hok

theorem heap1_fuel : ∀ c, c < 9 →
    ((Function.update (fun _ => []) 4 [4192] : Nat → List Nat) c).length < 16 := by
  intro c _
  by_cases e : c = 4
  · subst e; simp
  · rw [Function.update_noteq e]; simp


/-- `insert_free` on the pending block, the lists only: whatever the
neighbours of the block, every class list is well formed afterwards, and the
list of the block's class is `ins` of the former one. -/
theorem insert_pending_chains {s : Heap} {bs : List Blk} {L : Nat → List Nat} {b : Blk}
    (h : PreInv s bs L b.addr) (hb : b ∈ bs) :
    ∀ c', c' < 9 →
      Chain (insert_free s b.addr b.size) (root_array (insert_free s b.addr b.size) c')
        (root_array (insert_free s b.addr b.size) c')
        (Function.update L (pick_root b.size) (ins s b.addr (L (pick_root b.size))) c') := by
  have g := h.pre_geom
  set c := pick_root b.size with hc
  have hc9 : c < 9 := pick_root_lt _
  obtain ⟨b', hb', e', hfree'⟩ := h.pending
  have ebb : b' = b := g.addr_inj hb' hb e'
  subst ebb
  have hxl : b'.addr ∉ L c := by
    intro hm
    obtain ⟨_, _, _, _, _, hne⟩ := h.listed c hc9 _ hm
    exact hne rfl
  have hnodes : ∀ y ∈ b'.addr :: L c, ∃ b ∈ bs, b.addr = y := by
    intro y hy
    rcases List.mem_cons.1 hy with rfl | hy
    · exact ⟨b', hb, rfl⟩
    · obtain ⟨b2, hb2, e2, _⟩ := h.listed c hc9 y hy
      exact ⟨b2, hb2, e2⟩
  have hnd : (b'.addr :: L c).Nodup := List.nodup_cons.2 ⟨hxl, h.nodup c hc9⟩
  obtain ⟨hchain, hframe⟩ := insert_free_frame_cells (z := b'.size) g hc9 rfl (h.chains c hc9)
    hnodes hnd
  obtain ⟨f1, f2, f3⟩ := insert_free_fields s b'.addr b'.size
  -- every changed word is a root cell or a link word of a block
  have hcell : ∀ a, (insert_free s b'.addr b'.size).mem a ≠ s.mem a →
      a = root_array s c ∨ ∃ f ∈ bs, f.addr ∈ b'.addr :: L c ∧ (a = f.addr ∨ a = f.addr + 8) := by
    intro a ha
    by_contra hcon
    apply ha
    apply hframe
    rintro (e | ⟨z, hz, e⟩)
    · exact hcon (Or.inl e)
    · obtain ⟨f, hf, rfl⟩ := hnodes z hz
      exact hcon (Or.inr ⟨f, hf, hz, e⟩)
  have hsame : ∀ a, (a ≠ root_array s c) →
      (∀ f ∈ bs, f.addr ∈ b'.addr :: L c → a ≠ f.addr ∧ a ≠ f.addr + 8) →
      (insert_free s b'.addr b'.size).mem a = s.mem a := by
    intro a h1 h2
    by_contra hne
    rcases hcell a hne with e | ⟨f, hf, hm, e⟩
    · exact h1 e
    · have := h2 f hf hm
      rcases e with e | e
      · exact this.1 e
      · exact this.2 e
  intro c' hc'
  have hr : ∀ i, root_array (insert_free s b'.addr b'.size) i = root_array s i := by
    intro i; unfold root_array; rw [f3]
  rw [hr]
  by_cases e : c' = c
  · subst e
    rw [Function.update_same]
    exact hchain
  · rw [Function.update_noteq e]
    refine Chain_congr (h.chains c' hc') ?_ ?_
    · apply hsame
      · rw [root_array_eq, root_array_eq]; omega
      · intro f hf _
        have := g.facts hf
        rw [root_array_eq]; omega
    · intro y hy
      obtain ⟨by', hby, rfl, _, hcl, hne⟩ := h.listed c' hc' y hy
      have fy := g.facts hby
      have key : ∀ f ∈ bs, f.addr ∈ b'.addr :: L c → f ≠ by' := by
        intro f hf hm e2
        subst e2
        rcases List.mem_cons.1 hm with e3 | hm
        · exact hne e3
        · obtain ⟨b3, hb3, e3, _, hcl3, _⟩ := h.listed c hc9 _ hm
          have := g.addr_inj hb3 hf e3
          subst this
          exact e (hcl.symm.trans hcl3)
      constructor
      · apply hsame
        · rw [root_array_eq]; omega
        · intro f hf hm
          have ff := g.facts hf
          rcases g.sep hf hby with e2 | e2 | e2
          · exact absurd e2 (key f hf hm)
          · omega
          · omega
      · apply hsame
        · rw [root_array_eq]; omega
        · intro f hf hm
          have ff := g.facts hf
          rcases g.sep hf hby with e2 | e2 | e2
          · exact absurd e2 (key f hf hm)
          · omega
          · omega

/-- The state inside `mm_init` on `heap0`, after `extend_heap` and before
`insert_free`: the one block is free and pending. -/
theorem heap0_extended_pre :
    PreInv (extend_state (init_prelude heap0) 512) [⟨4192, 512, false⟩] (fun _ => []) 4192 := by
  obtain ⟨f1, f2, f3⟩ := init_prelude_fields heap0
  have hI := init_prelude_inv (s := heap0) (by decide) (by decide) (by decide) (by decide)
  have hP := extend_free_inv (z := 512) hI (by omega) (by omega) (by unfold SIZE_MOD; omega)
    (by rw [f1, f2]; decide)
  have e : (init_prelude heap0).brk = 4192 := f1
  rw [e, List.nil_append] at hP
  exact hP


/-- With well-formed class lists that respect the classes, `find_free_list`
returns the first fit, and null exactly when no listed block is big enough. -/
theorem find_free_list_complete {s : Heap} {L : Nat → List Nat} {fuel : Nat}
    (need : Nat)
    (hchain : ∀ c, c < 9 → Chain s (root_array s c) (root_array s c) (L c))
    (hclass : ∀ c, c < 9 → ∀ y ∈ L c, pick_root (get_size s (get_header y)) = c)
    (hfuel : ∀ c, c < 9 → (L c).length < fuel) :
    find_free_list s fuel need =
        some (first_fit s need L (9 - pick_root need) (pick_root need)) ∧
      (find_free_list s fuel need = some 0 ↔
        ∀ c, c < 9 → ∀ y ∈ L c, get_size s (get_header y) < need) := by
  have hlt := pick_root_lt need
  have e : find_free_list s fuel need =
      some (first_fit s need L (9 - pick_root need) (pick_root need)) := by
    unfold find_free_list
    apply find_from_root_chain
    intro c h1 h2
    exact ⟨hchain c (by omega), hfuel c (by omega)⟩
  refine ⟨e, ?_⟩
  rw [e, Option.some.injEq,
    first_fit_zero (fun c h1 h2 y hy => Chain_nonzero (hchain c (by omega)) y hy)]
  constructor
  · intro h c hc y hy
    by_cases hcl : pick_root need ≤ c
    · exact h c hcl (by omega) y hy
    · by_contra hge
      have := pick_root_mono (Nat.le_of_not_lt hge)
      rw [hclass c hc y hy] at this
      omega
  · intro h c h1 h2 y hy
    exact h c (by omega) y hy


theorem coalesce_state2 {s : Heap} {pre post : List Blk} {X N : Blk} {L : Nat → List Nat}
    (h : PreInv s (pre ++ X :: N :: post) L X.addr)
    (hpa : get_alloc s (X.addr - 16) = true)
    (hna : get_alloc s (X.addr + X.size - 8) = false) (hN : N.alloc = false) :
    coalesce s X.addr = (X.addr,
      put (put (reset_free s N.addr) (X.addr - 8) (pack (X.size + N.size) 0))
        (N.addr + N.size - 16) (pack (X.size + N.size) 0)) := by
  have g := h.pre_geom
  obtain ⟨t1, t2⟩ := Tiles_split g.tiles
  have hNa : N.addr = X.addr + X.size := t2.1
  have fX := g.facts (b := X) (by simp)
  have fN := g.facts (b := N) (by simp)
  have hsz : get_size s (get_header X.addr) = X.size := (h.blocks X (by simp)).1
  have hszN : get_size s (get_header N.addr) = N.size := (h.blocks N (by simp)).1
  have hnb : get_nextblk s X.addr = N.addr := by simp only [get_nextblk, hsz]; omega
  have hNl : N.addr ∈ L (pick_root N.size) := h.complete N (by simp) hN (by omega)
  obtain ⟨_, hfr, f1, f2, f3⟩ := reset_listed h.pre_toFInv (pick_root_lt _) hNl
  have htagN := h.pre_toFInv.tag_after_reset (pick_root_lt _) hNl (d := N) (by simp)
  have hft : get_footer (put (reset_free s N.addr) (get_header X.addr)
      (pack (add64 X.size N.size) 0)) N.addr = N.addr + N.size - 16 := by
    simp only [get_footer, get_size_eq, get_header, WSIZE, DSIZE, put_mem]
    have : N.addr - 8 ≠ X.addr - 8 := by omega
    rw [if_neg this, htagN.1]
    have := hszN
    simp only [get_size_eq, get_header, WSIZE] at this
    rw [this]
  have e : coalesce s X.addr = (X.addr,
      put (put (reset_free s N.addr) (X.addr - 8) (pack (X.size + N.size) 0))
        (N.addr + N.size - 16) (pack (X.size + N.size) 0)) := by
    rw [coalesce_eq2 hpa (by rw [get_nextblk, hsz]; simp only [get_header, WSIZE]; exact hna)]
    rw [hnb, hsz, hszN, hft, add64_eq (by omega)]
    rfl
  exact e

theorem coalesce_state1 {s : Heap} {pre post : List Blk} {P X : Blk} {L : Nat → List Nat}
    (h : PreInv s (pre ++ P :: X :: post) L X.addr)
    (hpa : get_alloc s (X.addr - 16) = false) (hP : P.alloc = false)
    (hna : get_alloc s (X.addr + X.size - 8) = true) :
    coalesce s X.addr = (P.addr,
      put (put (reset_free s P.addr) (P.addr - 8) (pack (X.size + P.size) 0))
        (X.addr + X.size - 16) (pack (X.size + P.size) 0)) := by
  have g := h.pre_geom
  obtain ⟨t1, t2⟩ := Tiles_split g.tiles
  have hXa : X.addr = P.addr + P.size := t2.1
  have fX := g.facts (b := X) (by simp)
  have fP := g.facts (b := P) (by simp)
  have hsz : get_size s (get_header X.addr) = X.size := (h.blocks X (by simp)).1
  have hszP : get_size s (get_header P.addr) = P.size := (h.blocks P (by simp)).1
  have hftP : get_size s (X.addr - DSIZE) = P.size := by
    have := (h.blocks P (by simp)).2.2.1
    have e : P.addr + P.size - DSIZE = X.addr - DSIZE := by omega
    rw [e] at this; exact this
  have hpb : get_prevblk s X.addr = P.addr := by simp only [get_prevblk, hftP]; omega
  have hPl : P.addr ∈ L (pick_root P.size) := h.complete P (by simp) hP (by omega)
  obtain ⟨_, hfr, f1, f2, f3⟩ := reset_listed h.pre_toFInv (pick_root_lt _) hPl
  have htagX := h.pre_toFInv.tag_after_reset (pick_root_lt _) hPl (d := X) (by simp)
  have hft : get_footer (put (reset_free s P.addr) (get_header P.addr)
      (pack (add64 X.size P.size) 0)) X.addr = X.addr + X.size - 16 := by
    simp only [get_footer, get_size_eq, get_header, WSIZE, DSIZE, put_mem]
    have : X.addr - 8 ≠ P.addr - 8 := by omega
    rw [if_neg this, htagX.1]
    have := hsz
    simp only [get_size_eq, get_header, WSIZE] at this
    rw [this]
  have e : coalesce s X.addr = (P.addr,
      put (put (reset_free s P.addr) (P.addr - 8) (pack (X.size + P.size) 0))
        (X.addr + X.size - 16) (pack (X.size + P.size) 0)) := by
    rw [coalesce_eq1 hpa (by rw [get_nextblk, hsz]; simp only [get_header, WSIZE]; exact hna)]
    rw [hpb, hsz, hszP, hft, add64_eq (by omega)]
    rfl
  exact e

theorem coalesce_state3 {s : Heap} {pre post : List Blk} {P X N : Blk} {L : Nat → List Nat}
    (h : PreInv s (pre ++ P :: X :: N :: post) L X.addr)
    (hpa : get_alloc s (X.addr - 16) = false) (hP : P.alloc = false)
    (hna : get_alloc s (X.addr + X.size - 8) = false) (hN : N.alloc = false) :
    coalesce s X.addr = (P.addr,
      put (put (reset_free (reset_free s P.addr) N.addr) (P.addr - 8)
          (pack (X.size + P.size + N.size) 0))
        (N.addr + N.size - 16) (pack (X.size + P.size + N.size) 0)) := by
  have g := h.pre_geom
  obtain ⟨t1, t2⟩ := Tiles_split g.tiles
  have hXa : X.addr = P.addr + P.size := t2.1
  have hNa : N.addr = X.addr + X.size := by
    have := t2.2.1
    omega
  have fX := g.facts (b := X) (by simp)
  have fP := g.facts (b := P) (by simp)
  have fN := g.facts (b := N) (by simp)
  have hsz : get_size s (get_header X.addr) = X.size := (h.blocks X (by simp)).1
  have hszP : get_size s (get_header P.addr) = P.size := (h.blocks P (by simp)).1
  have hszN : get_size s (get_header N.addr) = N.size := (h.blocks N (by simp)).1
  have hftP : get_size s (X.addr - DSIZE) = P.size := by
    have := (h.blocks P (by simp)).2.2.1
    have e : P.addr + P.size - DSIZE = X.addr - DSIZE := by omega
    rw [e] at this; exact this
  have hpb : get_prevblk s X.addr = P.addr := by simp only [get_prevblk, hftP]; omega
  have hnb : get_nextblk s X.addr = N.addr := by simp only [get_nextblk, hsz]; omega
  have hPl : P.addr ∈ L (pick_root P.size) := h.complete P (by simp) hP (by omega)
  have hNl : N.addr ∈ L (pick_root N.size) := h.complete N (by simp) hN (by omega)
  obtain ⟨hF, hfr, f1, f2, f3⟩ := reset_listed h.pre_toFInv (pick_root_lt _) hPl
  have hNl' : N.addr ∈ Function.update L (pick_root P.size)
      ((L (pick_root P.size)).erase P.addr) (pick_root N.size) := by
    by_cases e : pick_root N.size = pick_root P.size
    · rw [e, Function.update_same]
      rw [e] at hNl
      exact (List.mem_erase_of_ne (by omega)).2 hNl
    · rw [Function.update_noteq e]; exact hNl
  obtain ⟨_, hfr2, k1, k2, k3⟩ := reset_listed hF (pick_root_lt _) hNl'
  have htagX := h.pre_toFInv.tag_after_reset (pick_root_lt _) hPl (d := X) (by simp)
  have htagN := h.pre_toFInv.tag_after_reset (pick_root_lt _) hPl (d := N) (by simp)
  have htagX2 := hF.tag_after_reset (pick_root_lt _) hNl' (d := X) (by simp)
  have htagN2 := hF.tag_after_reset (pick_root_lt _) hNl' (d := N) (by simp)
  have hft : get_footer (put (reset_free (reset_free s P.addr) N.addr) (get_header P.addr)
      (pack (add64 (add64 X.size P.size) N.size) 0)) N.addr = N.addr + N.size - 16 := by
    simp only [get_footer, get_size_eq, get_header, WSIZE, DSIZE, put_mem]
    have : N.addr - 8 ≠ P.addr - 8 := by omega
    rw [if_neg this, htagN2.1, htagN.1]
    have := hszN
    simp only [get_size_eq, get_header, WSIZE] at this
    rw [this]
  have e : coalesce s X.addr = (P.addr,
      put (put (reset_free (reset_free s P.addr) N.addr) (P.addr - 8)
          (pack (X.size + P.size + N.size) 0))
        (N.addr + N.size - 16) (pack (X.size + P.size + N.size) 0)) := by
    rw [coalesce_eq3 hpa (by rw [get_nextblk, hsz]; simp only [get_header, WSIZE]; exact hna)]
    rw [hpb, hnb, hsz, hszP, hszN, hft, add64_eq (a := X.size) (by omega), add64_eq (by omega)]
    rfl
  exact e

theorem free_size_alloc {o : Option Blk} (h : ∀ p ∈ o, p.alloc = true) : free_size o = 0 := by
  cases o with
  | none => rfl
  | some b =>
    have := h b rfl
    simp [free_size, this]

theorem free_size_free {b : Blk} (h : b.alloc = false) : free_size (some b) = b.size := by
  simp [free_size, h]

/-- A list node is never an address inside the pending block. -/
theorem PreInv.inside_not_listed {s : Heap} {bs : List Blk} {L : Nat → List Nat} {M : Blk}
    (h : PreInv s bs L M.addr) (hM : M ∈ bs) {a : Nat} (h1 : M.addr ≤ a)
    (h2 : a < M.addr + M.size) {c : Nat} (hc : c < 9) : a ∉ L c := by
  intro ha
  obtain ⟨b, hb, rfl, _, _, hne⟩ := h.listed c hc a ha
  have g := h.pre_geom
  have fb := g.facts hb
  rcases g.sep hb hM with e | e | e
  · subst e; exact hne rfl
  · omega
  · omega

/-- The four cases of `coalesce` on a pending block `X`: the result is the
pending block `M` that starts at the previous block when that one is free and
at `X` otherwise, and whose size is the size of `X` plus the sizes of the free
neighbours. -/
theorem coalesce_detail {s : Heap} {pre post : List Blk} {X : Blk} {L : Nat → List Nat}
    (h : PreInv s (pre ++ X :: post) L X.addr) :
    ∃ bs' L' M, M ∈ bs' ∧ (coalesce s X.addr).1 = M.addr ∧
      PreInv (coalesce s X.addr).2 bs' L' M.addr ∧ M.alloc = false ∧
      (∀ P ∈ pre.getLast?, P.alloc = false → M.addr = P.addr) ∧
      ((∀ P ∈ pre.getLast?, P.alloc = true) → M.addr = X.addr) ∧
      M.addr ≤ X.addr ∧
      M.size = X.size + free_size pre.getLast? + free_size post.head? ∧
      X.addr + X.size + free_size post.head? = M.addr + M.size := by
  have hXf := h.pending_free
  have g := h.pre_geom
  obtain ⟨_, hp, hn⟩ := neighbour_reads h
  rcases hp with ⟨hpa, hp⟩ | ⟨hpa, pre', P, rfl, hP, _, hPX⟩
  · rcases hn with ⟨hna, hn⟩ | ⟨hna, N, post', rfl, hN, hNa⟩
    · have hsz : get_size s (get_header X.addr) = X.size := (h.blocks X (by simp)).1
      have e : coalesce s X.addr = (X.addr, s) := by
        apply coalesce_eq4
        · exact hpa
        · rw [get_nextblk, hsz]; simp only [get_header, WSIZE]; exact hna
      rw [e]
      refine ⟨_, L, X, by simp, rfl, h, hXf, ?_, fun _ => rfl, le_refl _, ?_, ?_⟩
      · intro P hPm hPf
        rw [hp P hPm] at hPf
        exact absurd hPf (by simp)
      · rw [free_size_alloc hp, free_size_alloc hn]; rfl
      · rw [free_size_alloc hn]; rfl
    · rw [coalesce_state2 h hpa hna hN]
      have key := coalesce_next h hN
      refine ⟨_, _, ⟨X.addr, X.size + N.size, false⟩, by simp, rfl, key, rfl, ?_,
        fun _ => rfl, le_refl _, ?_, ?_⟩
      · intro P hPm hPf
        rw [hp P hPm] at hPf
        exact absurd hPf (by simp)
      · show X.size + N.size = _
        rw [free_size_alloc hp, List.head?_cons, free_size_free hN]; omega
      · show _ = X.addr + (X.size + N.size)
        rw [List.head?_cons, free_size_free hN]
        omega
  · have e : ∀ r, pre' ++ [P] ++ X :: r = pre' ++ P :: X :: r := by intro r; simp
    have hlast : (pre' ++ [P]).getLast? = some P := getLast?_concat' pre' P
    rw [hlast]
    rcases hn with ⟨hna, hn⟩ | ⟨hna, N, post', rfl, hN, hNa⟩
    · rw [e] at h
      rw [coalesce_state1 h hpa hP hna]
      have key := coalesce_prev h hP
      refine ⟨_, _, ⟨P.addr, X.size + P.size, false⟩, by simp, rfl, key, rfl, ?_, ?_, ?_, ?_, ?_⟩
      · intro P' hP' _
        cases hP'; rfl
      · intro hall
        rw [hall P rfl] at hP
        exact absurd hP (by simp)
      · show P.addr ≤ X.addr; omega
      · show X.size + P.size = _
        rw [free_size_free hP, free_size_alloc hn]; omega
      · show _ = P.addr + (X.size + P.size)
        rw [free_size_alloc hn]
        omega
    · rw [e] at h
      rw [coalesce_state3 h hpa hP hna hN]
      have key := coalesce_both h hP hN
      refine ⟨_, _, ⟨P.addr, X.size + P.size + N.size, false⟩, by simp, rfl, key, rfl, ?_, ?_,
        ?_, ?_, ?_⟩
      · intro P' hP' _
        cases hP'; rfl
      · intro hall
        rw [hall P rfl] at hP
        exact absurd hP (by simp)
      · show P.addr ≤ X.addr; omega
      · show X.size + P.size + N.size = _
        rw [free_size_free hP, List.head?_cons, free_size_free hN]
      · show _ = P.addr + (X.size + P.size + N.size)
        rw [List.head?_cons, free_size_free hN]
        omega


/-! ### `allocate`, with the blocks it leaves -/

/-- The state of `allocate`, splitting, just before it calls `coalesce`: the
block is allocated with the requested size and the remainder is a pending
free block. -/
theorem allocate_split_pre {s : Heap} {pre post : List Blk} {L : Nat → List Nat} {b : Blk}
    {r : Nat} (h : Inv s (pre ++ b :: post) L) (hf : b.alloc = false) (hr16 : r % 16 = 0)
    (hr : 16 ≤ r) (hrT : r + 16 ≤ b.size) (hrem : 32 ≤ b.size - r - 16) :
    ∃ L', PreInv (split_marked (reset_free s b.addr) b.addr (r + 16) (b.size - r - 16))
        ((pre ++ [⟨b.addr, r + 16, true⟩]) ++
          (⟨b.addr + (r + 16), b.size - r - 16, false⟩ : Blk) :: post) L'
        (b.addr + (r + 16)) ∧
      (split_marked (reset_free s b.addr) b.addr (r + 16) (b.size - r - 16)).brk = s.brk ∧
      (split_marked (reset_free s b.addr) b.addr (r + 16) (b.size - r - 16)).max = s.max ∧
      (split_marked (reset_free s b.addr) b.addr (r + 16) (b.size - r - 16)).heap_listp
        = s.heap_listp := by
  have hb : b ∈ pre ++ b :: post := by simp
  have g := h.geom
  have fb := g.facts hb
  have hok := h.blocks b hb
  obtain ⟨t1, t2⟩ := Tiles_split g.tiles
  have hbl : b.addr ∈ L (pick_root b.size) := h.complete b hb hf
  obtain ⟨hF, hfr, f1, f2, f3⟩ := reset_listed h.toFInv (pick_root_lt _) hbl
  have hbs : pre ++ b :: post = pre ++ [b] ++ post := by simp
  have hU : ∀ x, (x = b.addr ∨ False) ↔ ∃ c ∈ [b], c.addr = x := by
    intro x; simp [eq_comm]
  have hTlt : b.size < SIZE_MOD := by omega
  have hpre : ∀ d ∈ pre, d.addr ≠ b.addr := by
    intro d hd
    have := Tiles_bounds t1 d hd
    have := (g.sizes d (by simp [hd])).1
    omega
  have hpost : ∀ d ∈ post, d.addr ≠ b.addr := by
    intro d hd
    have := Tiles_bounds t2 d hd
    omega
  set t := split_marked (reset_free s b.addr) b.addr (r + 16) (b.size - r - 16) with ht
  have hA : BlockOk t ⟨b.addr, r + 16, true⟩ := by
    unfold BlockOk
    simp only [get_size_eq, get_alloc_eq, get_header, WSIZE, DSIZE, ht, split_marked,
      set_ptr_mem, put_mem]
    have a1 : b.addr - 8 ≠ b.addr + (r + 16) + 8 := by omega
    have a2 : b.addr - 8 ≠ b.addr + (r + 16) := by omega
    have a3 : b.addr - 8 ≠ b.addr + (r + 16) + (b.size - r - 16) - 16 := by omega
    have a4 : b.addr - 8 ≠ b.addr + (r + 16) - 8 := by omega
    have a5 : b.addr - 8 ≠ b.addr + (r + 16) - 16 := by omega
    have a6 : b.addr + (r + 16) - 16 ≠ b.addr + (r + 16) + 8 := by omega
    have a7 : b.addr + (r + 16) - 16 ≠ b.addr + (r + 16) := by omega
    have a8 : b.addr + (r + 16) - 16 ≠ b.addr + (r + 16) + (b.size - r - 16) - 16 := by omega
    have a9 : b.addr + (r + 16) - 16 ≠ b.addr + (r + 16) - 8 := by omega
    have hm := pack_one_mod (z := r + 16) (by omega) (by omega)
    simp only [if_neg a1, if_neg a2, if_neg a3, if_neg a4, if_neg a5, if_neg a6, if_neg a7,
      if_neg a8, if_neg a9, if_true, hm]
    have hm2 : (r + 16 + 1) % SIZE_MOD = r + 16 + 1 :=
      Nat.mod_eq_of_lt (by unfold SIZE_MOD at *; omega)
    rw [hm2]
    refine ⟨by omega, ?_, by omega, ?_, by omega, by omega⟩
    · simp; omega
    · simp; omega
  have hR : BlockOk t ⟨b.addr + (r + 16), b.size - r - 16, false⟩ := by
    unfold BlockOk
    simp only [get_size_eq, get_alloc_eq, get_header, WSIZE, DSIZE, ht, split_marked,
      set_ptr_mem, put_mem]
    have a1 : b.addr + (r + 16) - 8 ≠ b.addr + (r + 16) + 8 := by omega
    have a2 : b.addr + (r + 16) - 8 ≠ b.addr + (r + 16) := by omega
    have a3 : b.addr + (r + 16) - 8 ≠ b.addr + (r + 16) + (b.size - r - 16) - 16 := by omega
    have a6 : b.addr + (r + 16) + (b.size - r - 16) - 16 ≠ b.addr + (r + 16) + 8 := by omega
    have a7 : b.addr + (r + 16) + (b.size - r - 16) - 16 ≠ b.addr + (r + 16) := by omega
    have hm := pack_zero_mod (z := b.size - r - 16) (by omega) (by omega)
    simp only [if_neg a1, if_neg a2, if_neg a3, if_neg a6, if_neg a7, if_true, hm]
    have hm2 : (b.size - r - 16) % SIZE_MOD = b.size - r - 16 :=
      Nat.mod_eq_of_lt (by omega)
    rw [hm2]
    refine ⟨by omega, ?_, by omega, ?_, by omega, by omega⟩
    · simp; omega
    · simp; omega
  rw [hbs] at hF
  have hF2 : FInv t (pre ++ [⟨b.addr, r + 16, true⟩,
      ⟨b.addr + (r + 16), b.size - r - 16, false⟩] ++ post) _
      (fun x => x = b.addr + (r + 16)) :=
    retag (a := b.addr) (e := b.addr + b.size) hF hU (by rw [f3]; exact t1)
      ⟨rfl, rfl⟩ (by rw [f1]; exact t2) (by omega)
      (by simp [ht, split_marked]) (by simp [ht, split_marked])
      (by simp [ht, split_marked])
      (by
        intro x hx
        rw [ht]
        exact split_marked_mem (by omega) (by omega) (by omega) (by omega) (by omega)
          (by omega))
      ⟨rfl, rfl, by show b.addr + (r + 16) + (b.size - r - 16) = b.addr + b.size; omega⟩
      (by
        intro d hd
        simp only [List.mem_cons, List.mem_singleton, List.not_mem_nil, or_false] at hd
        rcases hd with rfl | rfl
        · exact hA
        · exact hR)
      (by
        intro d hd hfree
        simp only [List.mem_cons, List.mem_singleton, List.not_mem_nil, or_false] at hd
        rcases hd with rfl | rfl
        · simp at hfree
        · rfl)
      (by
        intro x hx
        exact ⟨⟨b.addr + (r + 16), b.size - r - 16, false⟩, by simp, hx.symm, rfl⟩)
  have hbs2 : pre ++ [(⟨b.addr, r + 16, true⟩ : Blk),
      ⟨b.addr + (r + 16), b.size - r - 16, false⟩] ++ post
      = (pre ++ [⟨b.addr, r + 16, true⟩]) ++
        (⟨b.addr + (r + 16), b.size - r - 16, false⟩ : Blk) :: post := by simp
  rw [hbs2] at hF2
  have hP := hF2.toPreInv
  have tb : t.brk = s.brk := by simp [ht, split_marked, f1]
  have tm : t.max = s.max := by simp [ht, split_marked, f2]
  have th : t.heap_listp = s.heap_listp := by simp [ht, split_marked, f3]
  exact ⟨_, hP, tb, tm, th⟩

/-- The state `allocate` leaves when it takes the whole block. -/
theorem allocate_whole_inv {s : Heap} {pre post : List Blk} {L : Nat → List Nat} {b : Blk}
    {r : Nat} (h : Inv s (pre ++ b :: post) L) (hf : b.alloc = false)
    (hrT : r + 16 ≤ b.size) (hrem : ¬ 32 ≤ b.size - r - 16) :
    ∃ L', Inv (allocate s b.addr r) (pre ++ [⟨b.addr, b.size, true⟩] ++ post) L' := by
  have hb : b ∈ pre ++ b :: post := by simp
  have g := h.geom
  have fb := g.facts hb
  have hok := h.blocks b hb
  obtain ⟨t1, t2⟩ := Tiles_split g.tiles
  have hbl : b.addr ∈ L (pick_root b.size) := h.complete b hb hf
  obtain ⟨hF, hfr, f1, f2, f3⟩ := reset_listed h.toFInv (pick_root_lt _) hbl
  have hbs : pre ++ b :: post = pre ++ [b] ++ post := by simp
  have hU : ∀ x, (x = b.addr ∨ False) ↔ ∃ c ∈ [b], c.addr = x := by
    intro x; simp [eq_comm]
  have hTlt : b.size < SIZE_MOD := by omega
  have hpre : ∀ d ∈ pre, d.addr ≠ b.addr := by
    intro d hd
    have := Tiles_bounds t1 d hd
    have := (g.sizes d (by simp [hd])).1
    omega
  have hpost : ∀ d ∈ post, d.addr ≠ b.addr := by
    intro d hd
    have := Tiles_bounds t2 d hd
    omega
  have hrem' : b.size - r - 16 < 32 := by omega
  rw [allocate_eq_whole hok.1 hrT hrem' fb.2.2.2.2.1]
  set t := put (put (reset_free s b.addr) (b.addr - 8) (pack b.size 1))
    (b.addr + b.size - 16) (pack b.size 1) with ht
  have hA : BlockOk t ⟨b.addr, b.size, true⟩ := by
    unfold BlockOk
    simp only [get_size_eq, get_alloc_eq, get_header, WSIZE, DSIZE, ht, put_mem]
    have a1 : b.addr - 8 ≠ b.addr + b.size - 16 := by omega
    have hm := pack_one_mod (z := b.size) (by omega) (by omega)
    simp only [if_neg a1, if_true, hm]
    have hm2 : (b.size + 1) % SIZE_MOD = b.size + 1 :=
      Nat.mod_eq_of_lt (by unfold SIZE_MOD at *; omega)
    rw [hm2]
    refine ⟨by omega, ?_, by omega, ?_, by omega, by omega⟩
    · simp; omega
    · simp; omega
  rw [hbs] at hF
  have hF2 : FInv t (pre ++ [⟨b.addr, b.size, true⟩] ++ post) _ (fun _ => False) :=
    retag (a := b.addr) (e := b.addr + b.size) hF hU (by rw [f3]; exact t1)
      ⟨rfl, rfl⟩ (by rw [f1]; exact t2) (by omega)
      (by simp [ht, f1]) (by simp [ht, f2]) (by simp [ht, f3])
      (by
        intro x hx
        have a1 : x ≠ b.addr + b.size - 16 := by omega
        have a2 : x ≠ b.addr - 8 := by omega
        simp only [ht, put_mem, if_neg a1, if_neg a2])
      ⟨rfl, rfl⟩
      (by
        intro d hd
        simp only [List.mem_singleton] at hd
        subst hd
        exact hA)
      (by
        intro d hd hfree
        simp only [List.mem_singleton] at hd
        subst hd
        simp at hfree)
      (by intro x hx; exact hx.elim)
  exact ⟨_, hF2.toInv⟩

/-- What `allocate` leaves: the blocks before and behind the chosen one are
the same, and the chosen block is replaced by an allocated block of the
requested size and a free remainder when at least 32 bytes remain, and by one
allocated block of the whole size otherwise. -/
theorem allocate_blocks {s : Heap} {pre post : List Blk} {L : Nat → List Nat} {b : Blk}
    {r : Nat} (h : Inv s (pre ++ b :: post) L) (hf : b.alloc = false) (hr16 : r % 16 = 0)
    (hr : 16 ≤ r) (hrT : r + 16 ≤ b.size) :
    ∃ L', Inv (allocate s b.addr r)
      (pre ++ (if 32 ≤ b.size - r - 16 then
          [⟨b.addr, r + 16, true⟩, ⟨b.addr + (r + 16), b.size - r - 16, false⟩]
        else [⟨b.addr, b.size, true⟩]) ++ post) L' := by
  by_cases hrem : 32 ≤ b.size - r - 16
  swap
  · rw [if_neg hrem]
    exact allocate_whole_inv h hf hrT hrem
  rw [if_pos hrem]
  have hb : b ∈ pre ++ b :: post := by simp
  have hok := h.blocks b hb
  have fb := h.geom.facts hb
  obtain ⟨L1, hP, tb, tm, th⟩ := allocate_split_pre h hf hr16 hr hrT hrem
  have hp : ∀ p ∈ (pre ++ [(⟨b.addr, r + 16, true⟩ : Blk)]).getLast?, p.alloc = true := by
    intro p hp
    rw [getLast?_concat'] at hp
    cases hp
    rfl
  have hn : ∀ n ∈ post.head?, n.alloc = true := by
    intro n hn
    have c2 := (List.chain'_append.1 h.noadj).2.1
    rcases (List.chain'_cons'.1 c2).1 n hn with c | c
    · rw [hf] at c; exact absurd c (by simp)
    · exact c
  obtain ⟨hRsz, hpr, hnx⟩ := neighbour_reads hP
  have hpa : get_alloc (split_marked (reset_free s b.addr) b.addr (r + 16) (b.size - r - 16))
      (b.addr + (r + 16) - 16) = true := by
    rcases hpr with ⟨hpa, _⟩ | ⟨_, pre', P, e, hPf, _⟩
    · exact hpa
    · have := congrArg List.getLast? e
      rw [getLast?_concat', getLast?_concat'] at this
      cases this
      exact absurd hPf (by simp)
  have hna : get_alloc (split_marked (reset_free s b.addr) b.addr (r + 16) (b.size - r - 16))
      (b.addr + (r + 16) + (b.size - r - 16) - 8) = true := by
    rcases hnx with ⟨hna, _⟩ | ⟨_, N, post', e, hNf, _⟩
    · exact hna
    · have := hn N (by rw [e]; rfl)
      rw [hNf] at this
      exact absurd this (by simp)
  have hRsz' : get_size (split_marked (reset_free s b.addr) b.addr (r + 16) (b.size - r - 16))
      (get_header (b.addr + (r + 16))) = b.size - r - 16 := hRsz
  have e : coalesce (split_marked (reset_free s b.addr) b.addr (r + 16) (b.size - r - 16))
      (b.addr + (r + 16)) = (b.addr + (r + 16),
        split_marked (reset_free s b.addr) b.addr (r + 16) (b.size - r - 16)) := by
    apply coalesce_eq4
    · exact hpa
    · rw [get_nextblk, hRsz']; simp only [get_header, WSIZE]; exact hna
  rw [allocate_eq_split hok.1 hrT hrem hr16 fb.2.2.2.2.1, e]
  simp only []
  rw [hRsz']
  have hI := (insert_pending (b := ⟨b.addr + (r + 16), b.size - r - 16, false⟩) hP
    (noadj_close hP hp hn) (by simp)).1
  have el : pre ++ [(⟨b.addr, r + 16, true⟩ : Blk),
      ⟨b.addr + (r + 16), b.size - r - 16, false⟩] ++ post =
      (pre ++ [⟨b.addr, r + 16, true⟩]) ++
        (⟨b.addr + (r + 16), b.size - r - 16, false⟩ : Blk) :: post := by simp
  rw [el]
  exact ⟨_, hI⟩


/-! ### `realloc` -/

/-- A store into the payload of an allocated block, short of its footer,
keeps the invariant. -/
theorem Inv.payload_frame {s t : Heap} {bs : List Blk} {L : Nat → List Nat} {A : Blk}
    (h : Inv s bs L) (hA : A ∈ bs) (hal : A.alloc = true)
    (f1 : t.brk = s.brk) (f2 : t.max = s.max) (f3 : t.heap_listp = s.heap_listp)
    (hframe : ∀ x, (x < A.addr ∨ A.addr + A.size - 16 ≤ x) → t.mem x = s.mem x) :
    Inv t bs L := by
  have g := h.geom
  have fA := g.facts hA
  have hr : ∀ i, root_array t i = root_array s i := by
    intro i; unfold root_array; rw [f3]
  refine ⟨by rw [f3]; exact h.hl16, by rw [f3]; exact h.hlpos, by rw [f1, f2]; exact h.brk_le,
    by rw [f2]; exact h.max_le, by rw [f1, f3]; exact h.tiles, ?_, ?_, ?_, h.noadj, ?_,
    h.listed, h.complete, h.nodup⟩
  · intro d hd
    have fd := g.facts hd
    refine BlockOk_congr (h.blocks d hd) (hframe _ ?_) (hframe _ ?_)
    · rcases g.sep hd hA with e | e | e
      · subst e; omega
      · omega
      · omega
    · rcases g.sep hd hA with e | e | e
      · subst e; omega
      · omega
      · omega
  · rw [f3, get_alloc_eq, hframe _ (by omega), ← get_alloc_eq]
    exact h.prologue
  · rw [f1, get_alloc_eq, hframe _ (by omega), ← get_alloc_eq]
    exact h.epilogue
  · intro c hc
    rw [hr]
    refine Chain_congr (h.chains c hc) (hframe _ ?_) ?_
    · rw [root_array_eq]; omega
    · intro y hy
      obtain ⟨d, hd, rfl, hdf, _⟩ := h.listed c hc y hy
      have fd := g.facts hd
      rcases g.sep hd hA with e | e | e
      · subst e; rw [hal] at hdf; exact absurd hdf (by simp)
      · exact ⟨hframe _ (by omega), hframe _ (by omega)⟩
      · exact ⟨hframe _ (by omega), hframe _ (by omega)⟩

theorem mm_memcpy_frame (s : Heap) (dst src n : Nat) {x : Nat} (hx : x < dst ∨ dst + n ≤ x) :
    (mm_memcpy s dst src n).mem x = s.mem x := by
  unfold mm_memcpy
  simp only []
  rw [if_neg]
  omega

theorem realloc_zero (fuel : Nat) (s : Heap) (p : Nat) :
    realloc fuel s p 0 = some (0, free s p) := by
  unfold realloc
  rw [if_pos rfl]

theorem realloc_null {fuel : Nat} {s : Heap} {n : Nat} (hn : n ≠ 0) :
    realloc fuel s 0 n = malloc fuel s n := by
  unfold realloc
  rw [if_neg hn, if_pos rfl]

theorem realloc_fast {fuel : Nat} {s : Heap} {p n : Nat} (hn : n ≠ 0) (hp : p ≠ 0)
    (h : get_size s (get_header p) = add64 n DSIZE) :
    realloc fuel s p n = some (p, s) := by
  unfold realloc
  simp only []
  rw [if_neg hn, if_neg hp, if_pos h]

theorem realloc_fail {fuel : Nat} {s s1 : Heap} {p n : Nat} (hn : n ≠ 0) (hp : p ≠ 0)
    (h : get_size s (get_header p) ≠ add64 n DSIZE)
    (hm : malloc fuel s n = some (0, s1)) :
    realloc fuel s p n = some (0, s1) := by
  unfold realloc
  simp only []
  rw [if_neg hn, if_neg hp, if_neg h, hm]

theorem realloc_none {fuel : Nat} {s : Heap} {p n : Nat} (hn : n ≠ 0) (hp : p ≠ 0)
    (h : get_size s (get_header p) ≠ add64 n DSIZE)
    (hm : malloc fuel s n = none) :
    realloc fuel s p n = none := by
  unfold realloc
  simp only []
  rw [if_neg hn, if_neg hp, if_neg h, hm]

theorem realloc_move {fuel : Nat} {s s1 : Heap} {p n q : Nat} (hn : n ≠ 0) (hp : p ≠ 0)
    (h : get_size s (get_header p) ≠ add64 n DSIZE)
    (hm : malloc fuel s n = some (q, s1)) (hq : q ≠ 0) :
    realloc fuel s p n = some (q, free
      (if n < sub64 (get_size s (get_header p)) DSIZE then mm_memcpy s1 q p n
        else if n > sub64 (get_size s (get_header p)) DSIZE then
          mm_memcpy s1 q p (get_size s (get_header p))
        else s1) p) := by
  obtain ⟨k, rfl⟩ : ∃ k, q = k + 1 := ⟨q - 1, by omega⟩
  unfold realloc
  simp only []
  rw [if_neg hn, if_neg hp, if_neg h, hm]


theorem mm_memcpy_fields (s : Heap) (dst src n : Nat) :
    (mm_memcpy s dst src n).brk = s.brk ∧ (mm_memcpy s dst src n).max = s.max ∧
    (mm_memcpy s dst src n).heap_listp = s.heap_listp := ⟨rfl, rfl, rfl⟩

/-- The copy of `realloc` keeps the invariant: it stores at most as many bytes
as the payload of the new block holds. -/
theorem Inv.memcpy {s : Heap} {bs : List Blk} {L : Nat → List Nat} {A : Blk}
    (h : Inv s bs L) (hA : A ∈ bs) (hal : A.alloc = true) (src : Nat) {n : Nat}
    (hn : n + 16 ≤ A.size) : Inv (mm_memcpy s A.addr src n) bs L :=
  h.payload_frame hA hal rfl rfl rfl
    (fun x hx => mm_memcpy_frame s A.addr src n (by omega))

/-- `realloc` on a live block, for a request of `1 .. 2^64 - 32` bytes. -/
theorem realloc_ok {s : Heap} {bs : List Blk} {L : Nat → List Nat} {B : Blk}
    (h : Inv s bs L) (hB : B ∈ bs) (hBa : B.alloc = true)
    {n : Nat} (hn : n ≠ 0) (hn' : n ≤ SIZE_MOD - 32) {fuel q : Nat} {s' : Heap}
    (hr : realloc fuel s B.addr n = some (q, s')) :
    (q = 0 → s' = s) ∧
    (q ≠ 0 → ∃ bs' L', Inv s' bs' L' ∧ s'.max = s.max ∧ s'.heap_listp = s.heap_listp ∧
      s.brk ≤ s'.brk ∧ (q = B.addr ∨ ∀ d ∈ bs, d.alloc = true → d.addr ≠ q) ∧
      (∀ a, (∃ d ∈ bs', d.alloc = true ∧ d.addr = a) ↔
        (a = q ∨ ((∃ d ∈ bs, d.alloc = true ∧ d.addr = a) ∧ a ≠ B.addr)))) := by
  have g := h.geom
  have fB := g.facts hB
  have hp : B.addr ≠ 0 := by omega
  have hsz : get_size s (get_header B.addr) = B.size := (h.blocks B hB).1
  obtain ⟨r16, r16le, hnr, rle, hadd⟩ := align_request hn hn'
  by_cases hfast : get_size s (get_header B.addr) = add64 n DSIZE
  · rw [realloc_fast hn hp hfast] at hr
    simp only [Option.some.injEq, Prod.mk.injEq] at hr
    obtain ⟨rfl, rfl⟩ := hr
    refine ⟨fun h0 => absurd h0 hp, fun _ => ⟨bs, L, h, rfl, rfl, le_refl _, Or.inl rfl, ?_⟩⟩
    intro a
    constructor
    · rintro ⟨d, hd, hda, rfl⟩
      by_cases e : d.addr = B.addr
      · exact Or.inl e
      · exact Or.inr ⟨⟨d, hd, hda, rfl⟩, e⟩
    · rintro (rfl | ⟨hd, _⟩)
      · exact ⟨B, hB, hBa, rfl⟩
      · exact hd
  cases hm : malloc fuel s n with
  | none => rw [realloc_none hn hp hfast hm] at hr; exact absurd hr (by simp)
  | some r =>
    obtain ⟨m, s1⟩ := r
    obtain ⟨hm0, hm1⟩ := malloc_ok h hn hn' hm
    by_cases hmz : m = 0
    · subst hmz
      rw [realloc_fail hn hp hfast hm] at hr
      simp only [Option.some.injEq, Prod.mk.injEq] at hr
      obtain ⟨rfl, rfl⟩ := hr
      exact ⟨fun _ => hm0 rfl, fun h0 => absurd rfl h0⟩
    obtain ⟨bs1, L1, A, hI1, hA1, hAa, hAal, k2, k3, hiff, hfresh, hdisj⟩ := hm1 hmz
    rw [realloc_move hn hp hfast hm hmz, hsz] at hr
    simp only [Option.some.injEq, Prod.mk.injEq] at hr
    obtain ⟨rfl, rfl⟩ := hr
    have hAs : align n + 16 ≤ A.size ∧ s.brk ≤ s1.brk := by
      rcases hdisj with ⟨e, b, hb, _, _, hle, h1, h2⟩ | ⟨_, e, e2, _⟩
      · by_cases hc : 32 ≤ b.size - align n - 16
        · rw [h1 hc]; exact ⟨le_refl _, by omega⟩
        · rw [h2 (by omega)]; exact ⟨hle, by omega⟩
      · rw [e, e2]; exact ⟨le_refl _, by omega⟩
    have hsub : sub64 B.size DSIZE = B.size - 16 :=
      sub64_eq (by omega) (by simp only [DSIZE]; omega)
    rw [hsub]
    have hI2 : Inv (if n < B.size - 16 then mm_memcpy s1 m B.addr n
        else if n > B.size - 16 then mm_memcpy s1 m B.addr B.size else s1) bs1 L1 := by
      split_ifs with c1 c2
      · rw [← hAa]; exact hI1.memcpy hA1 hAal _ (by omega)
      · rw [← hAa]; exact hI1.memcpy hA1 hAal _ (by omega)
      · exact hI1
    have hf2 : (if n < B.size - 16 then mm_memcpy s1 m B.addr n
        else if n > B.size - 16 then mm_memcpy s1 m B.addr B.size else s1).brk = s1.brk ∧
        (if n < B.size - 16 then mm_memcpy s1 m B.addr n
        else if n > B.size - 16 then mm_memcpy s1 m B.addr B.size else s1).max = s1.max ∧
        (if n < B.size - 16 then mm_memcpy s1 m B.addr n
        else if n > B.size - 16 then mm_memcpy s1 m B.addr B.size else s1).heap_listp
          = s1.heap_listp := by
      split_ifs <;> exact ⟨rfl, rfl, rfl⟩
    have hB1 : B ∈ bs1 := (hiff B hBa).2 (Or.inl hB)
    obtain ⟨bs2, L2, hI3, j1, j2, j3, _, hiff2⟩ := free_ok hI2 hB1 hBa
    refine ⟨fun h0 => absurd h0 hmz, fun _ => ⟨bs2, L2, hI3, ?_, ?_, ?_, Or.inr hfresh, ?_⟩⟩
    · rw [j2, hf2.2.1, k2]
    · rw [j3, hf2.2.2, k3]
    · rw [j1, hf2.1]; exact hAs.2
    · intro a
      constructor
      · rintro ⟨d, hd, hda, rfl⟩
        obtain ⟨hd1, hne⟩ := (hiff2 d hda).1 hd
        rcases (hiff d hda).1 hd1 with hd0 | rfl
        · exact Or.inr ⟨⟨d, hd0, hda, rfl⟩, hne⟩
        · exact Or.inl hAa
      · rintro (rfl | ⟨⟨d, hd, hda, rfl⟩, hne⟩)
        · exact ⟨A, (hiff2 A hAal).2 ⟨hA1, by rw [hAa]; exact (hfresh B hB hBa).symm⟩, hAal, hAa⟩
        · exact ⟨d, (hiff2 d hda).2 ⟨(hiff d hda).2 (Or.inl hd), hne⟩, hda, rfl⟩


/-! ### The invariant of the reachable states -/

theorem LiveInv.not_null {s : Heap} {live : List Nat} (h : LiveInv s live) : 0 ∉ live := by
  obtain ⟨bs, L, hI, hl, _⟩ := h
  intro h0
  obtain ⟨d, hd, _, e⟩ := (hl 0).1 h0
  have := hI.geom.facts hd
  omega

theorem LiveInv.free {s : Heap} {live : List Nat} (h : LiveInv s live) {p : Nat}
    (hp : p = 0 ∨ p ∈ live) : LiveInv (free s p) (live.erase p) := by
  have h0 := h.not_null
  rcases hp with rfl | hp
  · rw [free_null, List.erase_of_not_mem h0]
    exact h
  obtain ⟨bs, L, hI, hl, hnd⟩ := h
  obtain ⟨B, hB, hBa, rfl⟩ := (hl p).1 hp
  obtain ⟨bs', L', hI', _, _, _, _, hiff⟩ := free_ok hI hB hBa
  refine ⟨bs', L', hI', ?_, hnd.erase _⟩
  intro a
  rw [hnd.mem_erase_iff, hl a]
  constructor
  · rintro ⟨hne, d, hd, hda, rfl⟩
    exact ⟨d, (hiff d hda).2 ⟨hd, hne⟩, hda, rfl⟩
  · rintro ⟨d, hd, hda, rfl⟩
    obtain ⟨hd0, hne⟩ := (hiff d hda).1 hd
    exact ⟨hne, d, hd0, hda, rfl⟩

theorem LiveInv.malloc {s : Heap} {live : List Nat} (h : LiveInv s live) {fuel n p : Nat}
    {s' : Heap} (hn' : n ≤ SIZE_MOD - 32) (hm : malloc fuel s n = some (p, s')) :
    LiveInv s' (if p = 0 then live else p :: live) := by
  by_cases hn : n = 0
  · subst hn
    rw [malloc_zero] at hm
    simp only [Option.some.injEq, Prod.mk.injEq] at hm
    obtain ⟨rfl, rfl⟩ := hm
    rw [if_pos rfl]
    exact h
  obtain ⟨bs, L, hI, hl, hnd⟩ := h
  obtain ⟨hm0, hm1⟩ := malloc_ok hI hn hn' hm
  by_cases hp : p = 0
  · rw [if_pos hp, hm0 hp]
    exact ⟨bs, L, hI, hl, hnd⟩
  rw [if_neg hp]
  obtain ⟨bs', L', A, hI', hA, hAa, hAal, _, _, hiff, hfresh, _⟩ := hm1 hp
  refine ⟨bs', L', hI', ?_, List.nodup_cons.2 ⟨?_, hnd⟩⟩
  · intro a
    rw [List.mem_cons, hl a]
    constructor
    · rintro (rfl | ⟨d, hd, hda, rfl⟩)
      · exact ⟨A, hA, hAal, hAa⟩
      · exact ⟨d, (hiff d hda).2 (Or.inl hd), hda, rfl⟩
    · rintro ⟨d, hd, hda, rfl⟩
      rcases (hiff d hda).1 hd with hd0 | rfl
      · exact Or.inr ⟨d, hd0, hda, rfl⟩
      · exact Or.inl hAa
  · intro hmem
    obtain ⟨d, hd, hda, e⟩ := (hl p).1 hmem
    exact hfresh d hd hda e

theorem LiveInv.realloc {s : Heap} {live : List Nat} (h : LiveInv s live)
    {fuel p n q : Nat} {s' : Heap} (hp : p = 0 ∨ p ∈ live) (hn' : n ≤ SIZE_MOD - 32)
    (hr : realloc fuel s p n = some (q, s')) :
    LiveInv s' (if n = 0 then live.erase p else if q = 0 then live else q :: live.erase p) := by
  have h0 := h.not_null
  by_cases hn : n = 0
  · subst hn
    rw [realloc_zero] at hr
    simp only [Option.some.injEq, Prod.mk.injEq] at hr
    obtain ⟨rfl, rfl⟩ := hr
    rw [if_pos rfl]
    exact h.free hp
  rw [if_neg hn]
  rcases hp with rfl | hp
  · rw [realloc_null hn] at hr
    rw [List.erase_of_not_mem h0]
    exact h.malloc hn' hr
  obtain ⟨bs, L, hI, hl, hnd⟩ := h
  obtain ⟨B, hB, hBa, rfl⟩ := (hl p).1 hp
  obtain ⟨hr0, hr1⟩ := realloc_ok hI hB hBa hn hn' hr
  by_cases hq : q = 0
  · rw [if_pos hq, hr0 hq]
    exact ⟨bs, L, hI, hl, hnd⟩
  rw [if_neg hq]
  obtain ⟨bs', L', hI', _, _, _, hfr, hiff⟩ := hr1 hq
  refine ⟨bs', L', hI', ?_, List.nodup_cons.2 ⟨?_, hnd.erase _⟩⟩
  · intro a
    rw [List.mem_cons, hnd.mem_erase_iff, hl a, hiff a]
    constructor
    · rintro (rfl | ⟨hne, hd⟩)
      · exact Or.inl rfl
      · exact Or.inr ⟨hd, hne⟩
    · rintro (rfl | ⟨hd, hne⟩)
      · exact Or.inl rfl
      · exact Or.inr ⟨hne, hd⟩
  · rw [hnd.mem_erase_iff]
    rintro ⟨hne, hmem⟩
    rcases hfr with e | hfr
    · exact hne e
    · obtain ⟨d, hd, hda, e⟩ := (hl q).1 hmem
      exact hfr d hd hda e

/-- Every reachable state satisfies the heap invariant, and the live pointers
are exactly the payload pointers of its allocated blocks. -/
theorem Reach.live_inv {s : Heap} {live : List Nat} (h : Reach s live) : LiveInv s live := by
  induction h with
  | by_init s0 s h16 hpos hmax hinit =>
    obtain ⟨ok, t, e, _, hinv⟩ := mm_init_ok h16 hpos hmax
    rw [hinit] at e
    simp only [Prod.mk.injEq] at e
    obtain ⟨rfl, rfl⟩ := e
    obtain ⟨hI, _⟩ := hinv rfl
    refine ⟨_, _, hI, ?_, List.nodup_nil⟩
    intro a
    constructor
    · intro ha; exact absurd ha (List.not_mem_nil a)
    · rintro ⟨d, hd, hda, _⟩
      rw [List.mem_singleton] at hd
      subst hd
      exact absurd hda (by simp)
  | by_malloc s live fuel n p s' _ hn' hm ih => exact ih.malloc hn' hm
  | by_free s live p _ hp ih => exact ih.free hp
  | by_realloc s live fuel p n q s' _ hp hn' hr ih => exact ih.realloc hp hn' hr


/-- In a reachable state every live pointer is 16-byte aligned, lies above
the prologue and below the epilogue header, and its block is marked
allocated. -/
theorem Reach.live_pointer {s : Heap} {live : List Nat} (h : Reach s live) {p : Nat}
    (hp : p ∈ live) :
    p % 16 = 0 ∧ s.heap_listp + 88 < p ∧ p < s.brk - 8 ∧
      get_alloc s (get_header p) = true := by
  obtain ⟨bs, L, hI, hl, _⟩ := h.live_inv
  obtain ⟨B, hB, hBa, rfl⟩ := (hl p).1 hp
  have f := hI.geom.facts hB
  refine ⟨f.2.2.1, by omega, by omega, ?_⟩
  rw [(hI.blocks B hB).2.1, hBa]


theorem grow_count_fits {n z a c : Nat} (hz : z % 16 = 0) (ha : a % 16 = 0) (hna : n ≤ a)
    (hg : ¬ n < z - 16) (hne : z ≠ n + 16) (hac : a + 16 ≤ c) : z ≤ c - 16 := by
  omega

/-- The copy of `realloc`, for a request of `1 .. 2^64 - 32` bytes on a block
of the heap that takes the allocate-copy-free path: the count passed to the copy is
`n` when shrinking and the old total size when growing, it is at most the
payload capacity of the new block, the bytes read lie inside the heap, and no
word outside the new payload is changed. -/
theorem realloc_copy_fits {s : Heap} {bs : List Blk} {L : Nat → List Nat} {B : Blk}
    (h : Inv s bs L) (hB : B ∈ bs)
    {n : Nat} (hn : n ≠ 0) (hn' : n ≤ SIZE_MOD - 32) {fuel q : Nat} {s1 : Heap}
    (hslow : get_size s (get_header B.addr) ≠ add64 n DSIZE)
    (hm : malloc fuel s n = some (q, s1)) (hq : q ≠ 0) :
    ∃ cnt, realloc fuel s B.addr n = some (q, free (mm_memcpy s1 q B.addr cnt) B.addr) ∧
      cnt = (if n < get_size s (get_header B.addr) - 16 then n
        else get_size s (get_header B.addr)) ∧
      cnt ≤ get_size s1 (get_header q) - 16 ∧
      s.heap_listp + 96 ≤ B.addr ∧ B.addr + cnt ≤ s1.brk ∧
      (∀ x, (x < q ∨ q + (get_size s1 (get_header q) - 16) ≤ x) →
        (mm_memcpy s1 q B.addr cnt).mem x = s1.mem x) := by
  have g := h.geom
  have fB := g.facts hB
  have hp : B.addr ≠ 0 := by omega
  have hsz : get_size s (get_header B.addr) = B.size := (h.blocks B hB).1
  obtain ⟨r16, r16le, hnr, rle, hadd⟩ := align_request hn hn'
  have hlt : n + 16 < SIZE_MOD := by
    have h1 := hn'
    simp only [SIZE_MOD] at h1 ⊢
    omega
  have hne : B.size ≠ n + 16 := by
    intro e
    apply hslow
    rw [hsz, add64_eq (by simp only [DSIZE]; exact hlt), e]
    rfl
  obtain ⟨_, hm1⟩ := malloc_ok h hn hn' hm
  obtain ⟨bs1, L1, A, hI1, hA1, hAa, _, _, _, _, _, hdisj⟩ := hm1 hq
  have hAs : align n + 16 ≤ A.size ∧ s.brk ≤ s1.brk := by
    rcases hdisj with ⟨e, b, hb, _, _, hle, h1, h2⟩ | ⟨_, e, e2, _⟩
    · by_cases hc : 32 ≤ b.size - align n - 16
      · rw [h1 hc]; exact ⟨le_refl _, by omega⟩
      · rw [h2 (by omega)]; exact ⟨hle, by omega⟩
    · rw [e, e2]; exact ⟨le_refl _, by omega⟩
  clear hdisj hm1
  have hqs : get_size s1 (get_header q) = A.size := by
    rw [← hAa]; exact (hI1.blocks A hA1).1
  have hsub : sub64 B.size DSIZE = B.size - 16 :=
    sub64_eq (by omega) (by simp only [DSIZE]; omega)
  have hmove := realloc_move hn hp hslow hm hq
  rw [hsz, hsub] at hmove
  rw [hsz, hqs]
  by_cases c1 : n < B.size - 16
  · rw [if_pos c1] at hmove
    refine ⟨n, hmove, by rw [if_pos c1], by omega, by omega, by omega, ?_⟩
    intro x hx
    exact mm_memcpy_frame s1 q B.addr n (by omega)
  · have c2 : n > B.size - 16 := by omega
    rw [if_neg c1, if_pos c2] at hmove
    have hfit : B.size ≤ A.size - 16 :=
      grow_count_fits fB.2.2.2.2.1 r16 hnr c1 hne hAs.1
    have hbrk : B.addr + B.size ≤ s1.brk := le_trans fB.2.1 hAs.2
    refine ⟨B.size, hmove, by rw [if_neg c1], hfit, fB.1, hbrk, ?_⟩
    intro x hx
    apply mm_memcpy_frame s1 q B.addr B.size
    rcases hx with hx | hx
    · exact Or.inl hx
    · exact Or.inr (le_trans (Nat.add_le_add_left hfit q) hx)


/-- For request sizes of at most `2^64 - 32` bytes double free is a no-op: in
every state `s` reached from a successful `mm_init` by public calls on null
or live pointers with such sizes, for every live pointer `p`, the state after
`free(p); free(p)` is the state after a single `free(p)`; and `free(NULL)`
leaves every state unchanged. -/
theorem Reach.free_twice {s : Heap} {live : List Nat} {p : Nat}
    (h : Reach s live) (hp : p ∈ live) :
    free s 0 = s ∧ free (free s p) p = free s p := by
  refine ⟨free_null s, ?_⟩
  obtain ⟨bs, L, hI, hl, _⟩ := h.live_inv
  obtain ⟨B, hB, hBa, rfl⟩ := (hl p).1 hp
  obtain ⟨_, _, _, _, _, _, hfree, _⟩ := free_ok hI hB hBa
  exact free_of_free hfree


/-- Inside `free(a)` after `a = malloc(16)`: the block `4192` is pending and
the block behind it, `4224` of size 480, is free and on the class-4 list. -/
theorem heap_a_marked_pre :
    PreInv (free_marked heap_a 4192 32)
      ([] ++ (⟨4192, 32, false⟩ : Blk) :: [⟨4224, 480, false⟩])
      (Function.update (fun _ => []) 4 [4224]) 4192 := by
  refine ⟨by decide, by decide, by decide, by decide, ?_, ?_, by decide, by decide, ?_, ?_,
    ?_, ?_, ?_, ?_⟩
  · simp only [Tiles, List.nil_append]; decide
  · intro b hb
    simp only [List.nil_append, List.mem_cons, List.mem_singleton, List.not_mem_nil,
      or_false] at hb
    rcases hb with rfl | rfl <;> (unfold BlockOk; decide)
  · simp [NoAdjFreeBut]
  · intro c hc
    interval_cases c <;> (simp only [Chain]; decide)
  · intro c hc y hy
    interval_cases c <;> simp [Function.update] at hy
    all_goals (subst hy; decide)
  · intro b hb
    simp only [List.nil_append, List.mem_cons, List.mem_singleton, List.not_mem_nil,
      or_false] at hb
    rcases hb with rfl | rfl <;> decide
  · intro c hc
    interval_cases c <;> simp [Function.update]
  · decide

/-- Inside `free(b)` after `a = malloc(16); b = malloc(16); free(a)`: the
block `4224` is pending, the block before it, `4192`, is free and on the
class-0 list, and the block behind it, `4256` of size 448, is free and on the
class-4 list. -/
theorem heap_ab_marked_pre :
    PreInv (free_marked (free heap_ab 4192) 4224 32)
      ([(⟨4192, 32, false⟩ : Blk)] ++ ⟨4224, 32, false⟩ :: [⟨4256, 448, false⟩])
      (Function.update (Function.update (fun _ => []) 0 [4192]) 4 [4256]) 4224 := by
  refine ⟨by decide, by decide, by decide, by decide, ?_, ?_, by decide, by decide, ?_, ?_,
    ?_, ?_, ?_, ?_⟩
  · simp only [Tiles, List.cons_append, List.nil_append]; decide
  · intro b hb
    simp only [List.cons_append, List.nil_append, List.mem_cons, List.mem_singleton,
      List.not_mem_nil, or_false] at hb
    rcases hb with rfl | rfl | rfl <;> (unfold BlockOk; decide)
  · simp [NoAdjFreeBut]
  · intro c hc
    interval_cases c <;> (simp only [Chain]; decide)
  · intro c hc y hy
    interval_cases c <;> simp [Function.update] at hy
    all_goals (subst hy; decide)
  · intro b hb
    simp only [List.cons_append, List.nil_append, List.mem_cons, List.mem_singleton,
      List.not_mem_nil, or_false] at hb
    rcases hb with rfl | rfl | rfl <;> decide
  · intro c hc
    interval_cases c <;> simp [Function.update]
  · decide

/-- Inside `free(b)` after `a = malloc(16); b = malloc(16); c = malloc(16);
free(a)`: the block `4224` is pending, the block before it, `4192`, is free
and on the class-0 list, and the block behind it, `4256`, is allocated. -/
theorem heap_abc_marked_pre :
    PreInv (free_marked (free heap_abc 4192) 4224 32)
      ([(⟨4192, 32, false⟩ : Blk)] ++ ⟨4224, 32, false⟩ ::
        [⟨4256, 32, true⟩, ⟨4288, 416, false⟩])
      (Function.update (Function.update (fun _ => []) 0 [4192]) 4 [4288]) 4224 := by
  refine ⟨by decide, by decide, by decide, by decide, ?_, ?_, by decide, by decide, ?_, ?_,
    ?_, ?_, ?_, ?_⟩
  · simp only [Tiles, List.cons_append, List.nil_append]; decide
  · intro b hb
    simp only [List.cons_append, List.nil_append, List.mem_cons, List.mem_singleton,
      List.not_mem_nil, or_false] at hb
    rcases hb with rfl | rfl | rfl | rfl <;> (unfold BlockOk; decide)
  · simp [NoAdjFreeBut]
  · intro c hc
    interval_cases c <;> (simp only [Chain]; decide)
  · intro c hc y hy
    interval_cases c <;> simp [Function.update] at hy
    all_goals (subst hy; decide)
  · intro b hb
    simp only [List.cons_append, List.nil_append, List.mem_cons, List.mem_singleton,
      List.not_mem_nil, or_false] at hb
    rcases hb with rfl | rfl | rfl | rfl <;> decide
  · intro c hc
    interval_cases c <;> simp [Function.update]
  · decide

/-- Inside `free(a)` after the five allocations of `heap_f5` and `free(e)`:
the block `a = 4192` of size 144 is pending, its neighbour is allocated, and
the class-3 list holds the block `e = 4368` of size 144. -/
theorem heap_f5_marked_a_pre :
    PreInv (free_marked (free heap_f5 4368) 4192 144)
      [⟨4192, 144, false⟩, ⟨4336, 32, true⟩, ⟨4368, 144, false⟩, ⟨4512, 32, true⟩,
        ⟨4544, 160, true⟩]
      (Function.update (fun _ => []) 3 [4368]) 4192 := by
  refine ⟨by decide, by decide, by decide, by decide, ?_, ?_, by decide, by decide, ?_, ?_,
    ?_, ?_, ?_, ?_⟩
  · simp only [Tiles]; decide
  · intro b hb
    simp only [List.mem_cons, List.mem_singleton, List.not_mem_nil, or_false] at hb
    rcases hb with rfl | rfl | rfl | rfl | rfl <;> (unfold BlockOk; decide)
  · simp [NoAdjFreeBut]
  · intro c hc
    interval_cases c <;> (simp only [Chain]; decide)
  · intro c hc y hy
    interval_cases c <;> simp [Function.update] at hy
    all_goals (subst hy; decide)
  · intro b hb
    simp only [List.mem_cons, List.mem_singleton, List.not_mem_nil, or_false] at hb
    rcases hb with rfl | rfl | rfl | rfl | rfl <;> decide
  · intro c hc
    interval_cases c <;> simp [Function.update]
  · decide

/-- Inside `free(c)` after the five allocations of `heap_f5`, `free(e)` and
`free(a)`: the block `c = 4544` of size 160 is pending, its neighbour is
allocated, and the class-3 list holds `a = 4192` and then `e = 4368`, both of
size 144. -/
theorem heap_f5_marked_c_pre :
    PreInv (free_marked (free (free heap_f5 4368) 4192) 4544 160)
      [⟨4192, 144, false⟩, ⟨4336, 32, true⟩, ⟨4368, 144, false⟩, ⟨4512, 32, true⟩,
        ⟨4544, 160, false⟩]
      (Function.update (fun _ => []) 3 [4192, 4368]) 4544 := by
  refine ⟨by decide, by decide, by decide, by decide, ?_, ?_, by decide, by decide, ?_, ?_,
    ?_, ?_, ?_, ?_⟩
  · simp only [Tiles]; decide
  · intro b hb
    simp only [List.mem_cons, List.mem_singleton, List.not_mem_nil, or_false] at hb
    rcases hb with rfl | rfl | rfl | rfl | rfl <;> (unfold BlockOk; decide)
  · simp [NoAdjFreeBut]
  · intro c hc
    interval_cases c <;> (simp only [Chain]; decide)
  · intro c hc y hy
    interval_cases c <;> simp [Function.update] at hy
    rcases hy with rfl | rfl <;> decide
  · intro b hb
    simp only [List.mem_cons, List.mem_singleton, List.not_mem_nil, or_false] at hb
    rcases hb with rfl | rfl | rfl | rfl | rfl <;> decide
  · intro c hc
    interval_cases c <;> simp [Function.update]
  · decide


/-- C8 (amended): on a provider whose break is 16-byte aligned, not null and
below `2^64`, after a successful `mm_init`, for every `n > 0` that is a
multiple of 16, other than 480 and at most `2^64 - 32`, if `p = malloc(n)` is
not null then the block at `p` has the total size `n + 16`, and `realloc(p, n)`
returns `p` itself and leaves the heap unchanged. -/
theorem C8_realloc_same_size_aligned {s0 s s1 : Heap} {n p fuel fuel' : Nat}
    (h16 : s0.brk % 16 = 0) (hpos : 0 < s0.brk) (hmax : s0.max ≤ SIZE_MOD)
    (hinit : mm_init s0 = (true, s))
    (hn : 0 < n) (hn16 : n % 16 = 0) (hne : n ≠ 480) (hn' : n ≤ SIZE_MOD - 32)
    (hm : malloc fuel s n = some (p, s1)) (hp : p ≠ 0) :
    get_size s1 (get_header p) = n + 16 ∧ realloc fuel' s1 p n = some (p, s1) := by
  have hlt : n + 16 < SIZE_MOD := by
    have h1 := hn'
    simp only [SIZE_MOD] at h1 ⊢
    omega
  obtain ⟨ok, t, e, _, hinv⟩ := mm_init_ok h16 hpos hmax
  rw [hinit] at e
  simp only [Prod.mk.injEq] at e
  obtain ⟨rfl, rfl⟩ := e
  obtain ⟨hI, _⟩ := hinv rfl
  have hn0 : n ≠ 0 := by omega
  have hal : align n = n := align_eq hn16 (by omega)
  obtain ⟨_, hm1⟩ := malloc_ok hI hn0 hn' hm
  obtain ⟨bs1, L1, A, hI1, hA1, hAa, _, _, _, _, _, hdisj⟩ := hm1 hp
  have hAs : A.size = n + 16 := by
    rw [hal] at hdisj
    rcases hdisj with ⟨_, b, hb, _, _, hle, h1, h2⟩ | ⟨_, e, _⟩
    · rw [List.mem_singleton] at hb
      subst hb
      have h4 : n + 16 ≤ 512 := hle
      by_cases hc : 32 ≤ 512 - n - 16
      · exact h1 hc
      · have h3 : A.size = 512 := h2 (Nat.lt_of_not_le hc)
        rw [h3]
        omega
    · exact e
  have hsz : get_size s1 (get_header p) = n + 16 := by
    rw [← hAa, (hI1.blocks A hA1).1, hAs]
  refine ⟨hsz, realloc_fast hn0 hp ?_⟩
  rw [hsz, add64_eq (by simp only [DSIZE]; exact hlt)]
  rfl

/-- C8 (amended), on `heap0` for `n = 16`: `malloc(16)` returns `4192`. -/
theorem C8_realloc_same_size_aligned_witness :
    get_size (allocate heap1 4192 (align 16)) (get_header 4192) = 16 + 16 ∧
    realloc 16 (allocate heap1 4192 (align 16)) 4192 16 =
      some (4192, allocate heap1 4192 (align 16)) :=
  @C8_realloc_same_size_aligned heap0 heap1 (allocate heap1 4192 (align 16)) 16 4192 16 16
    (by decide) (by decide) (by decide) rfl (by decide) (by decide) (by decide) (by decide)
    rfl (by decide)

/-- C10 (amended): after `mm_init(); a = malloc(24); b = malloc(24);
c = malloc(24); free(b)` on `heap0`, the blocks of `a` and `c` are still
allocated, the block of `b` is free with total size 48, the class-1 list
contains exactly one node, which is the block of `b`, and the class-0 list is
empty. -/
theorem C10_b_alone_on_class1 :
    ∃ a sa b sb c sc, malloc 16 heap1 24 = some (a, sa) ∧
      malloc 16 sa 24 = some (b, sb) ∧ malloc 16 sb 24 = some (c, sc) ∧
      a ≠ 0 ∧ b ≠ 0 ∧ c ≠ 0 ∧
      get_alloc (free sc b) (get_header a) = true ∧
      get_alloc (free sc b) (get_header c) = true ∧
      get_alloc (free sc b) (get_header b) = false ∧
      get_size (free sc b) (get_header b) = 48 ∧
      pick_root 48 = 1 ∧
      get_ptr (free sc b) (root_array (free sc b) 1) = b ∧
      get_ptr (free sc b) b = root_array (free sc b) 1 ∧
      get_ptr (free sc b) (b + WSIZE) = 0 ∧
      get_ptr (free sc b) (root_array (free sc b) 0) = 0 := by
  refine ⟨4192, _, 4240, _, 4288, _, rfl, rfl, rfl, ?_⟩
  decide


/-- C15: in a heap with the blocks `pre ++ X :: post` that satisfies the
invariant except that the free block `X` is on no list and may have free
neighbours, `coalesce(X)` returns the pointer of the previous block when
that block is free, and `X` otherwise; the returned block `M` has the size of
`X` plus the size of each free neighbour, and its header and its footer both
encode that size with `alloc = 0`; in the state after the call the class
lists `L'` are well formed, no merged neighbour is a node of any of them, and
neither is the returned block. -/
theorem C15_coalesce_four_cases {s : Heap} {pre post : List Blk} {X : Blk}
    {L : Nat → List Nat} (h : PreInv s (pre ++ X :: post) L X.addr) :
    ∃ (L' : Nat → List Nat) (M : Nat),
      (coalesce s X.addr).1 = M ∧
      (∀ P ∈ pre.getLast?, P.alloc = false → M = P.addr) ∧
      ((∀ P ∈ pre.getLast?, P.alloc = true) → M = X.addr) ∧
      get_size (coalesce s X.addr).2 (get_header M) =
        X.size + free_size pre.getLast? + free_size post.head? ∧
      get_alloc (coalesce s X.addr).2 (get_header M) = false ∧
      get_size (coalesce s X.addr).2 (get_footer (coalesce s X.addr).2 M) =
        X.size + free_size pre.getLast? + free_size post.head? ∧
      get_alloc (coalesce s X.addr).2 (get_footer (coalesce s X.addr).2 M) = false ∧
      (∀ c, c < 9 → Chain (coalesce s X.addr).2 (root_array (coalesce s X.addr).2 c)
        (root_array (coalesce s X.addr).2 c) (L' c)) ∧
      (∀ P ∈ pre.getLast?, P.alloc = false → ∀ c, c < 9 → P.addr ∉ L' c) ∧
      (∀ N ∈ post.head?, N.alloc = false → ∀ c, c < 9 → N.addr ∉ L' c) ∧
      (∀ c, c < 9 → M ∉ L' c) := by
  obtain ⟨bs', L', M, hM, e1, hP, hMf, ha1, ha2, hle, hsz, hend⟩ := coalesce_detail h
  have hok := hP.blocks M hM
  have g := h.pre_geom
  obtain ⟨t1, t2⟩ := Tiles_split g.tiles
  have hft : get_footer (coalesce s X.addr).2 M.addr = M.addr + M.size - DSIZE := by
    rw [get_footer, hok.1]
  refine ⟨L', M.addr, e1, ha1, ha2, ?_, ?_, ?_, ?_, hP.chains, ?_, ?_, ?_⟩
  · rw [hok.1, hsz]
  · rw [hok.2.1, hMf]
  · rw [hft, hok.2.2.1, hsz]
  · rw [hft, hok.2.2.2.1, hMf]
  · intro P hPm hPf c hc
    rw [← ha1 P hPm hPf]
    exact hP.inside_not_listed hM (le_refl _) (by have := hok.2.2.2.2.1; omega) hc
  · intro N hNm hNf c hc
    cases post with
    | nil => simp at hNm
    | cons N' post' =>
      simp only [List.head?_cons, Option.mem_def, Option.some.injEq] at hNm
      subst hNm
      have hNa : N'.addr = X.addr + X.size := t2.1
      have hNs := (g.sizes N' (by simp)).1
      rw [List.head?_cons, free_size_free hNf] at hend
      exact hP.inside_not_listed hM (by omega) (by omega) hc
  · intro c hc
    exact hP.inside_not_listed hM (le_refl _) (by have := hok.2.2.2.2.1; omega) hc

/-- C15, at three states inside `free` on `heap0` (after `mm_init`), each
with a merge.  (1) `a = malloc(16); free(a)`: the block behind `a = 4192`,
`4224` of size 480, is free; `coalesce` returns `4192` with size 512, and
`4224` is on no list.  (2) `a = malloc(16); b = malloc(16); free(a); free(b)`:
both neighbours of `b = 4224` are free; `coalesce` returns the previous block
`4192` with size `32 + 32 + 448 = 512`, and neither `4192` nor `4256` is on a
list.  (3) `a = malloc(16); b = malloc(16); c = malloc(16); free(a); free(b)`:
the previous block is free and the next one allocated; `coalesce` returns
`4192` with size 64. -/
theorem C15_coalesce_four_cases_witness :
    (malloc 16 heap1 16 = some (4192, heap_a) ∧
      free heap_a 4192 =
        insert_free (coalesce (free_marked heap_a 4192 32) 4192).2 4192 512 ∧
      PreInv (free_marked heap_a 4192 32)
        ([] ++ (⟨4192, 32, false⟩ : Blk) :: [⟨4224, 480, false⟩])
        (Function.update (fun _ => []) 4 [4224]) 4192 ∧
      ∃ L' : Nat → List Nat,
        (coalesce (free_marked heap_a 4192 32) 4192).1 = 4192 ∧
        get_size (coalesce (free_marked heap_a 4192 32) 4192).2 (get_header 4192) = 512 ∧
        get_alloc (coalesce (free_marked heap_a 4192 32) 4192).2 (get_header 4192) = false ∧
        get_size (coalesce (free_marked heap_a 4192 32) 4192).2
          (get_footer (coalesce (free_marked heap_a 4192 32) 4192).2 4192) = 512 ∧
        get_alloc (coalesce (free_marked heap_a 4192 32) 4192).2
          (get_footer (coalesce (free_marked heap_a 4192 32) 4192).2 4192) = false ∧
        (∀ c, c < 9 → Chain (coalesce (free_marked heap_a 4192 32) 4192).2
          (root_array (coalesce (free_marked heap_a 4192 32) 4192).2 c)
          (root_array (coalesce (free_marked heap_a 4192 32) 4192).2 c) (L' c)) ∧
        (∀ c, c < 9 → 4224 ∉ L' c) ∧ (∀ c, c < 9 → 4192 ∉ L' c)) ∧
    (malloc 16 heap_a 16 = some (4224, heap_ab) ∧
      free (free heap_ab 4192) 4224 =
        insert_free (coalesce (free_marked (free heap_ab 4192) 4224 32) 4224).2 4192 512 ∧
      PreInv (free_marked (free heap_ab 4192) 4224 32)
        ([(⟨4192, 32, false⟩ : Blk)] ++ ⟨4224, 32, false⟩ :: [⟨4256, 448, false⟩])
        (Function.update (Function.update (fun _ => []) 0 [4192]) 4 [4256]) 4224 ∧
      ∃ L' : Nat → List Nat,
        (coalesce (free_marked (free heap_ab 4192) 4224 32) 4224).1 = 4192 ∧
        get_size (coalesce (free_marked (free heap_ab 4192) 4224 32) 4224).2
          (get_header 4192) = 512 ∧
        get_alloc (coalesce (free_marked (free heap_ab 4192) 4224 32) 4224).2
          (get_header 4192) = false ∧
        get_size (coalesce (free_marked (free heap_ab 4192) 4224 32) 4224).2
          (get_footer (coalesce (free_marked (free heap_ab 4192) 4224 32) 4224).2 4192)
          = 512 ∧
        get_alloc (coalesce (free_marked (free heap_ab 4192) 4224 32) 4224).2
          (get_footer (coalesce (free_marked (free heap_ab 4192) 4224 32) 4224).2 4192)
          = false ∧
        (∀ c, c < 9 → Chain (coalesce (free_marked (free heap_ab 4192) 4224 32) 4224).2
          (root_array (coalesce (free_marked (free heap_ab 4192) 4224 32) 4224).2 c)
          (root_array (coalesce (free_marked (free heap_ab 4192) 4224 32) 4224).2 c)
          (L' c)) ∧
        (∀ c, c < 9 → 4256 ∉ L' c) ∧ (∀ c, c < 9 → 4192 ∉ L' c)) ∧
    (malloc 16 heap_ab 16 = some (4256, heap_abc) ∧
      free (free heap_abc 4192) 4224 =
        insert_free (coalesce (free_marked (free heap_abc 4192) 4224 32) 4224).2 4192 64 ∧
      PreInv (free_marked (free heap_abc 4192) 4224 32)
        ([(⟨4192, 32, false⟩ : Blk)] ++ ⟨4224, 32, false⟩ ::
          [⟨4256, 32, true⟩, ⟨4288, 416, false⟩])
        (Function.update (Function.update (fun _ => []) 0 [4192]) 4 [4288]) 4224 ∧
      ∃ L' : Nat → List Nat,
        (coalesce (free_marked (free heap_abc 4192) 4224 32) 4224).1 = 4192 ∧
        get_size (coalesce (free_marked (free heap_abc 4192) 4224 32) 4224).2
          (get_header 4192) = 64 ∧
        get_alloc (coalesce (free_marked (free heap_abc 4192) 4224 32) 4224).2
          (get_header 4192) = false ∧
        get_size (coalesce (free_marked (free heap_abc 4192) 4224 32) 4224).2
          (get_footer (coalesce (free_marked (free heap_abc 4192) 4224 32) 4224).2 4192)
          = 64 ∧
        get_alloc (coalesce (free_marked (free heap_abc 4192) 4224 32) 4224).2
          (get_footer (coalesce (free_marked (free heap_abc 4192) 4224 32) 4224).2 4192)
          = false ∧
        (∀ c, c < 9 → Chain (coalesce (free_marked (free heap_abc 4192) 4224 32) 4224).2
          (root_array (coalesce (free_marked (free heap_abc 4192) 4224 32) 4224).2 c)
          (root_array (coalesce (free_marked (free heap_abc 4192) 4224 32) 4224).2 c)
          (L' c)) ∧
        (∀ c, c < 9 → 4192 ∉ L' c)) := by
  refine ⟨⟨rfl, rfl, heap_a_marked_pre, ?_⟩, ⟨rfl, rfl, heap_ab_marked_pre, ?_⟩,
    ⟨rfl, rfl, heap_abc_marked_pre, ?_⟩⟩
  · obtain ⟨L', M, h1, _, h3, h4, h5, h6, h7, h8, _, h10, h11⟩ :=
      @C15_coalesce_four_cases _ [] [⟨4224, 480, false⟩] ⟨4192, 32, false⟩ _ heap_a_marked_pre
    have hM : M = 4192 := h3 (by simp)
    subst hM
    exact ⟨L', h1, h4, h5, h6, h7, h8, h10 ⟨4224, 480, false⟩ rfl rfl, h11⟩
  · obtain ⟨L', M, h1, h2, _, h4, h5, h6, h7, h8, _, h10, h11⟩ :=
      @C15_coalesce_four_cases _ [⟨4192, 32, false⟩] [⟨4256, 448, false⟩] ⟨4224, 32, false⟩ _
        heap_ab_marked_pre
    have hM : M = 4192 := h2 ⟨4192, 32, false⟩ rfl rfl
    subst hM
    exact ⟨L', h1, h4, h5, h6, h7, h8, h10 ⟨4256, 448, false⟩ rfl rfl, h11⟩
  · obtain ⟨L', M, h1, h2, _, h4, h5, h6, h7, h8, _, _, h11⟩ :=
      @C15_coalesce_four_cases _ [⟨4192, 32, false⟩] [⟨4256, 32, true⟩, ⟨4288, 416, false⟩]
        ⟨4224, 32, false⟩ _ heap_abc_marked_pre
    have hM : M = 4192 := h2 ⟨4192, 32, false⟩ rfl rfl
    subst hM
    exact ⟨L', h1, h4, h5, h6, h7, h8, h11⟩

/-- C16: in a state whose nine class lists `L 0 .. L 8` are well formed and
hold each block in the list of class `pick_root` of its size, and with fuel
for the longest list, `find_free_list(need)` returns the first fit: the first
node, in the order of the classes `pick_root(need) .. 8` and head-to-tail
within a class, whose size is at least `need` (`first_fit`, `0` standing for
null); and it returns null if and only if no node of any of the nine lists,
the classes below `pick_root(need)` included, has size at least `need`. -/
theorem C16_find_free_list_first_fit {s : Heap} {L : Nat → List Nat} {fuel : Nat}
    (need : Nat)
    (hchain : ∀ c, c < 9 → Chain s (root_array s c) (root_array s c) (L c))
    (hclass : ∀ c, c < 9 → ∀ y ∈ L c, pick_root (get_size s (get_header y)) = c)
    (hfuel : ∀ c, c < 9 → (L c).length < fuel) :
    find_free_list s fuel need =
        some (first_fit s need L (9 - pick_root need) (pick_root need)) ∧
      (find_free_list s fuel need = some 0 ↔
        ∀ c, c < 9 → ∀ y ∈ L c, get_size s (get_header y) < need) :=
  find_free_list_complete need hchain hclass hfuel

/-- C16, at the state after `mm_init` on `heap0`, whose class-4 list holds
the one block `4192` of size 512, for `need = 48`. -/
theorem C16_find_free_list_first_fit_witness :
    find_free_list heap1 16 48 =
        some (first_fit heap1 48 (Function.update (fun _ => []) 4 [4192]) (9 - pick_root 48)
          (pick_root 48)) ∧
      (find_free_list heap1 16 48 = some 0 ↔
        ∀ c, c < 9 → ∀ y ∈ (Function.update (fun _ => []) 4 [4192] : Nat → List Nat) c,
          get_size heap1 (get_header y) < 48) :=
  C16_find_free_list_first_fit 48 heap1_inv.1.chains
    (fun _ hc _ hy => (heap1_inv.1.node_size hc hy).1) heap1_fuel


/-- C17: in a heap with the blocks `pre ++ b :: post` that satisfies the
invariant, let `b` be a free block (so it is on the list of its class), of
total size `T`, and `r` a multiple of 16, at least 16, with `T >= r + 16`.
After `allocate(b, r)` the block at `b` is allocated, and its header and its
footer encode the size `r + 16` if `T - (r + 16) >= 32` and the size `T`
otherwise; in the first case the block that starts at `b + r + 16` is free
with header and footer encoding the size `T - (r + 16)`, it is a node of the
list of class `pick_root(T - (r + 16))`, and the two sizes sum to `T`; in
both cases the class lists `L'` are well formed and `b` is a node of none. -/
theorem C17_allocate_split_policy {s : Heap} {pre post : List Blk} {L : Nat → List Nat}
    {b : Blk} {r : Nat} (h : Inv s (pre ++ b :: post) L) (hf : b.alloc = false)
    (hr16 : r % 16 = 0) (hr : 16 ≤ r) (hrT : r + 16 ≤ b.size) :
    ∃ L' : Nat → List Nat,
      get_size s (get_header b.addr) = b.size ∧ b.addr ∈ L (pick_root b.size) ∧
      (∀ c, c < 9 → Chain (allocate s b.addr r) (root_array (allocate s b.addr r) c)
        (root_array (allocate s b.addr r) c) (L' c)) ∧
      get_alloc (allocate s b.addr r) (get_header b.addr) = true ∧
      get_alloc (allocate s b.addr r) (get_footer (allocate s b.addr r) b.addr) = true ∧
      (32 ≤ b.size - (r + 16) →
        get_size (allocate s b.addr r) (get_header b.addr) = r + 16 ∧
        get_size (allocate s b.addr r) (get_footer (allocate s b.addr r) b.addr) = r + 16 ∧
        get_footer (allocate s b.addr r) b.addr = b.addr + (r + 16) - DSIZE ∧
        get_size (allocate s b.addr r) (get_header (b.addr + (r + 16))) = b.size - (r + 16) ∧
        get_alloc (allocate s b.addr r) (get_header (b.addr + (r + 16))) = false ∧
        get_size (allocate s b.addr r) (get_footer (allocate s b.addr r) (b.addr + (r + 16)))
          = b.size - (r + 16) ∧
        get_alloc (allocate s b.addr r) (get_footer (allocate s b.addr r) (b.addr + (r + 16)))
          = false ∧
        b.addr + (r + 16) ∈ L' (pick_root (b.size - (r + 16))) ∧
        (r + 16) + (b.size - (r + 16)) = b.size) ∧
      (b.size - (r + 16) < 32 →
        get_size (allocate s b.addr r) (get_header b.addr) = b.size ∧
        get_size (allocate s b.addr r) (get_footer (allocate s b.addr r) b.addr) = b.size) ∧
      (∀ c, c < 9 → b.addr ∉ L' c) := by
  have hb : b ∈ pre ++ b :: post := by simp
  obtain ⟨L', hI⟩ := allocate_blocks h hf hr16 hr hrT
  have g' := hI.geom
  have ftr : ∀ {A : Blk}, BlockOk (allocate s b.addr r) A →
      get_footer (allocate s b.addr r) A.addr = A.addr + A.size - DSIZE := by
    intro A hA
    rw [get_footer, hA.1]
  by_cases hrem : 32 ≤ b.size - r - 16
  · rw [if_pos hrem] at hI g'
    have hA := hI.blocks ⟨b.addr, r + 16, true⟩ (by simp)
    have hR := hI.blocks ⟨b.addr + (r + 16), b.size - r - 16, false⟩ (by simp)
    have hRl := hI.complete ⟨b.addr + (r + 16), b.size - r - 16, false⟩ (by simp) rfl
    have e1 : b.size - (r + 16) = b.size - r - 16 := by omega
    refine ⟨L', (h.blocks b hb).1, h.complete b hb hf, hI.chains, hA.2.1, ?_, ?_, ?_, ?_⟩
    · rw [ftr hA]; exact hA.2.2.2.1
    · intro _
      rw [ftr hA, ftr hR, e1]
      exact ⟨hA.1, hA.2.2.1, rfl, hR.1, hR.2.1, hR.2.2.1, hR.2.2.2.1, hRl, by omega⟩
    · intro hlt; omega
    · intro c hc hm
      obtain ⟨d, hd, e, hdf, _⟩ := hI.listed c hc _ hm
      have := g'.addr_inj hd (c := ⟨b.addr, r + 16, true⟩) (by simp) e
      subst this
      exact absurd hdf (by simp)
  · rw [if_neg hrem] at hI g'
    have hA := hI.blocks ⟨b.addr, b.size, true⟩ (by simp)
    refine ⟨L', (h.blocks b hb).1, h.complete b hb hf, hI.chains, hA.2.1, ?_, ?_, ?_, ?_⟩
    · rw [ftr hA]; exact hA.2.2.2.1
    · intro hge; omega
    · intro _
      rw [ftr hA]
      exact ⟨hA.1, hA.2.2.1⟩
    · intro c hc hm
      obtain ⟨d, hd, e, hdf, _⟩ := hI.listed c hc _ hm
      have := g'.addr_inj hd (c := ⟨b.addr, b.size, true⟩) (by simp) e
      subst this
      exact absurd hdf (by simp)

/-- C17, at the state after `mm_init` on `heap0`: `allocate` places 32
payload bytes in the free block `4192` of size 512 and splits it. -/
theorem C17_allocate_split_policy_witness :
    ∃ L' : Nat → List Nat,
      get_size heap1 (get_header 4192) = 512 ∧ 4192 ∈
        (Function.update (fun _ => []) 4 [4192] : Nat → List Nat) (pick_root 512) ∧
      (∀ c, c < 9 → Chain (allocate heap1 4192 32) (root_array (allocate heap1 4192 32) c)
        (root_array (allocate heap1 4192 32) c) (L' c)) ∧
      get_alloc (allocate heap1 4192 32) (get_header 4192) = true ∧
      get_alloc (allocate heap1 4192 32) (get_footer (allocate heap1 4192 32) 4192) = true ∧
      (32 ≤ 512 - (32 + 16) →
        get_size (allocate heap1 4192 32) (get_header 4192) = 32 + 16 ∧
        get_size (allocate heap1 4192 32) (get_footer (allocate heap1 4192 32) 4192) = 32 + 16 ∧
        get_footer (allocate heap1 4192 32) 4192 = 4192 + (32 + 16) - DSIZE ∧
        get_size (allocate heap1 4192 32) (get_header (4192 + (32 + 16))) = 512 - (32 + 16) ∧
        get_alloc (allocate heap1 4192 32) (get_header (4192 + (32 + 16))) = false ∧
        get_size (allocate heap1 4192 32) (get_footer (allocate heap1 4192 32) (4192 + (32 + 16)))
          = 512 - (32 + 16) ∧
        get_alloc (allocate heap1 4192 32) (get_footer (allocate heap1 4192 32) (4192 + (32 + 16)))
          = false ∧
        4192 + (32 + 16) ∈ L' (pick_root (512 - (32 + 16))) ∧
        (32 + 16) + (512 - (32 + 16)) = 512) ∧
      (512 - (32 + 16) < 32 →
        get_size (allocate heap1 4192 32) (get_header 4192) = 512 ∧
        get_size (allocate heap1 4192 32) (get_footer (allocate heap1 4192 32) 4192) = 512) ∧
      (∀ c, c < 9 → 4192 ∉ L' c) :=
  @C17_allocate_split_policy heap1 [] [] _ ⟨4192, 512, false⟩ 32
    heap1_inv.1 rfl (by decide) (by decide) (by decide)


/-- C19: in a heap that satisfies the invariant except that the free block
`B` is on no list yet, let `l` be the node sequence of the class list rooted
at the root cell of `pick_root(size(B))`.  After `insert_free(B, size(B))`
that list is `[B]` if `l` is empty, `B` followed by `l` if the size in `B`'s
header is at most the size in the header of the head of `l`, and otherwise
the head of `l`, then `B`, then the rest of `l`; every one of the nine lists
is well formed afterwards (the head's back pointer is the root cell, every
other node's is its predecessor, the last forward pointer is null), and the
other eight lists have the node sequences they had. -/
theorem C19_insert_free_places {s : Heap} {bs : List Blk} {L : Nat → List Nat} {B : Blk}
    (h : PreInv s bs L B.addr) (hB : B ∈ bs) :
    ∃ l', get_size s (get_header B.addr) = B.size ∧
      (L (pick_root B.size) = [] → l' = [B.addr]) ∧
      (∀ H t, L (pick_root B.size) = H :: t →
        get_size s (get_header B.addr) ≤ get_size s (get_header H) →
        l' = B.addr :: H :: t) ∧
      (∀ H t, L (pick_root B.size) = H :: t →
        get_size s (get_header H) < get_size s (get_header B.addr) →
        l' = H :: B.addr :: t) ∧
      (∀ c', c' < 9 →
        Chain (insert_free s B.addr B.size) (root_array (insert_free s B.addr B.size) c')
          (root_array (insert_free s B.addr B.size) c')
          (if c' = pick_root B.size then l' else L c')) := by
  refine ⟨ins s B.addr (L (pick_root B.size)), (h.blocks B hB).1, ?_, ?_, ?_, ?_⟩
  · intro e; rw [e]; rfl
  · intro H t e hle
    rw [e]
    simp only [ins]
    rw [if_pos hle]
  · intro H t e hlt
    rw [e]
    simp only [ins]
    rw [if_neg (by omega)]
  · intro c' hc'
    have := insert_pending_chains h hB c' hc'
    by_cases e : c' = pick_root B.size
    · rw [if_pos e]
      rw [e, Function.update_same] at this
      rw [e]
      exact this
    · rw [if_neg e]
      rw [Function.update_noteq e] at this
      exact this

/-- C19, at three states on `heap0`, one for each place.  (1) Inside
`mm_init`: the block `4192` of size 512 is inserted into the empty class-4
list, which becomes `[4192]`.  (2) After `a = malloc(128); b = malloc(16);
e = malloc(128); d = malloc(16); c = malloc(144); free(e)`, inside `free(a)`:
the class-3 list is `[4368]`, the size of `a = 4192` is 144, not more than
the head's 144, and the list becomes `[4192, 4368]`.  (3) After the `free(a)`
as well, inside `free(c)`: the class-3 list is `[4192, 4368]`, the size of
`c = 4544` is 160, more than the head's 144, and the list becomes
`[4192, 4544, 4368]`.  In each state the other eight lists keep their node
sequences. -/
theorem C19_insert_free_places_witness :
    (PreInv (extend_state (init_prelude heap0) 512) [⟨4192, 512, false⟩] (fun _ => []) 4192 ∧
      pick_root 512 = 4 ∧
      ∀ c', c' < 9 →
        Chain (insert_free (extend_state (init_prelude heap0) 512) 4192 512)
          (root_array (insert_free (extend_state (init_prelude heap0) 512) 4192 512) c')
          (root_array (insert_free (extend_state (init_prelude heap0) 512) 4192 512) c')
          (if c' = 4 then [4192] else [])) ∧
    (malloc 16 heap1 128 = some (4192, heap_f1) ∧ malloc 16 heap_f1 16 = some (4336, heap_f2) ∧
      malloc 16 heap_f2 128 = some (4368, heap_f3) ∧
      malloc 16 heap_f3 16 = some (4512, heap_f4) ∧
      malloc 16 heap_f4 144 = some (4544, heap_f5) ∧
      coalesce (free_marked (free heap_f5 4368) 4192 144) 4192 =
        (4192, free_marked (free heap_f5 4368) 4192 144) ∧
      free (free heap_f5 4368) 4192 =
        insert_free (free_marked (free heap_f5 4368) 4192 144) 4192 144 ∧
      PreInv (free_marked (free heap_f5 4368) 4192 144)
        [⟨4192, 144, false⟩, ⟨4336, 32, true⟩, ⟨4368, 144, false⟩, ⟨4512, 32, true⟩,
          ⟨4544, 160, true⟩]
        (Function.update (fun _ => []) 3 [4368]) 4192 ∧
      pick_root 144 = 3 ∧
      get_size (free_marked (free heap_f5 4368) 4192 144) (get_header 4192) = 144 ∧
      get_size (free_marked (free heap_f5 4368) 4192 144) (get_header 4368) = 144 ∧
      ∀ c', c' < 9 →
        Chain (insert_free (free_marked (free heap_f5 4368) 4192 144) 4192 144)
          (root_array (insert_free (free_marked (free heap_f5 4368) 4192 144) 4192 144) c')
          (root_array (insert_free (free_marked (free heap_f5 4368) 4192 144) 4192 144) c')
          (if c' = 3 then [4192, 4368] else Function.update (fun _ => []) 3 [4368] c')) ∧
    (coalesce (free_marked (free (free heap_f5 4368) 4192) 4544 160) 4544 =
        (4544, free_marked (free (free heap_f5 4368) 4192) 4544 160) ∧
      free (free (free heap_f5 4368) 4192) 4544 =
        insert_free (free_marked (free (free heap_f5 4368) 4192) 4544 160) 4544 160 ∧
      PreInv (free_marked (free (free heap_f5 4368) 4192) 4544 160)
        [⟨4192, 144, false⟩, ⟨4336, 32, true⟩, ⟨4368, 144, false⟩, ⟨4512, 32, true⟩,
          ⟨4544, 160, false⟩]
        (Function.update (fun _ => []) 3 [4192, 4368]) 4544 ∧
      pick_root 160 = 3 ∧
      get_size (free_marked (free (free heap_f5 4368) 4192) 4544 160) (get_header 4544) = 160 ∧
      get_size (free_marked (free (free heap_f5 4368) 4192) 4544 160) (get_header 4192) = 144 ∧
      ∀ c', c' < 9 →
        Chain (insert_free (free_marked (free (free heap_f5 4368) 4192) 4544 160) 4544 160)
          (root_array
            (insert_free (free_marked (free (free heap_f5 4368) 4192) 4544 160) 4544 160) c')
          (root_array
            (insert_free (free_marked (free (free heap_f5 4368) 4192) 4544 160) 4544 160) c')
          (if c' = 3 then [4192, 4544, 4368]
            else Function.update (fun _ => []) 3 [4192, 4368] c')) := by
  refine ⟨⟨heap0_extended_pre, rfl, ?_⟩,
    ⟨rfl, rfl, rfl, rfl, rfl, rfl, rfl, heap_f5_marked_a_pre, rfl, by decide, by decide, ?_⟩,
    ⟨rfl, rfl, heap_f5_marked_c_pre, rfl, by decide, by decide, ?_⟩⟩
  · obtain ⟨l', _, h1, _, _, hc⟩ :=
      @C19_insert_free_places _ _ _ ⟨4192, 512, false⟩ heap0_extended_pre
        (List.mem_singleton.2 rfl)
    have e : l' = [4192] := h1 rfl
    subst e
    exact hc
  · obtain ⟨l', _, _, h2, _, hc⟩ :=
      @C19_insert_free_places _ _ _ ⟨4192, 144, false⟩ heap_f5_marked_a_pre (by simp)
    have e : l' = [4192, 4368] := h2 4368 [] rfl (by decide)
    subst e
    exact hc
  · obtain ⟨l', _, _, _, h3, hc⟩ :=
      @C19_insert_free_places _ _ _ ⟨4544, 160, false⟩ heap_f5_marked_c_pre (by simp)
    have e : l' = [4192, 4544, 4368] := h3 4192 [4368] rfl (by decide)
    subst e
    exact hc

/-- C20: in a heap that satisfies the invariant (some free blocks `U` may be
off the lists, as inside `free` and `allocate`), let `B` be a node of the
class-`c` list.  Then `c` is `pick_root` of the size in `B`'s header, and
after `reset_free(B)` the class-`c` list is the former node sequence with `B`
removed, the other nodes in their former order, every one of the nine lists
is well formed (the head's back pointer is the root cell, every other node's
is its predecessor, the last forward pointer is null), the other eight lists
are the same, and the header and the footer of every block hold the same
word as before.  Whatever the state, if both link words of `B` are null,
`reset_free(B)` changes nothing. -/
theorem C20_reset_free_unlinks {s : Heap} {bs : List Blk} {L : Nat → List Nat}
    {U : Nat → Prop} (h : FInv s bs L U) {c B : Nat} (hc : c < 9) (hB : B ∈ L c) :
    pick_root (get_size s (get_header B)) = c ∧
    (L c).erase B = (L c).filter (fun y => y != B) ∧
    (∀ c', c' < 9 →
      Chain (reset_free s B) (root_array (reset_free s B) c') (root_array (reset_free s B) c')
        (if c' = c then (L c).erase B else L c')) ∧
    (∀ b ∈ bs, (reset_free s B).mem (get_header b.addr) = s.mem (get_header b.addr) ∧
      (reset_free s B).mem (get_footer s b.addr) = s.mem (get_footer s b.addr)) ∧
    (∀ (t : Heap) (x : Nat), get_ptr t x = 0 → get_ptr t (x + WSIZE) = 0 →
      reset_free t x = t) := by
  obtain ⟨hF, _, f1, f2, f3⟩ := reset_listed h hc hB
  refine ⟨?_, List.Nodup.erase_eq_filter (h.nodup c hc) B, ?_, ?_, ?_⟩
  · obtain ⟨b, hb, rfl, _, hcl, _⟩ := h.listed c hc B hB
    rw [(h.blocks b hb).1]
    exact hcl
  · intro c' hc'
    have := hF.chains c' hc'
    by_cases e : c' = c
    · subst e
      rw [Function.update_same] at this
      rw [if_pos rfl]
      exact this
    · rw [Function.update_noteq e] at this
      rw [if_neg e]
      exact this
  · intro b hb
    have := h.tag_after_reset hc hB hb
    have hsz : get_size s (get_header b.addr) = b.size := (h.blocks b hb).1
    rw [get_footer, hsz]
    exact this
  · intro t x h1 h2
    rw [reset_free_eq]
    have h1' : t.mem x = 0 := h1
    have h2' : t.mem (x + 8) = 0 := h2
    rw [if_pos ⟨h1', h2'⟩]

/-- C20, at the state after `mm_init` on `heap0`, for the one node `4192` of
the class-4 list. -/
theorem C20_reset_free_unlinks_witness :
    (4192 ∈ (Function.update (fun _ => []) 4 [4192] : Nat → List Nat) 4) ∧
    pick_root (get_size heap1 (get_header 4192)) = 4 ∧
    ((Function.update (fun _ => []) 4 [4192] : Nat → List Nat) 4).erase 4192 =
      ((Function.update (fun _ => []) 4 [4192] : Nat → List Nat) 4).filter
        (fun y => y != 4192) ∧
    (∀ c', c' < 9 →
      Chain (reset_free heap1 4192) (root_array (reset_free heap1 4192) c')
        (root_array (reset_free heap1 4192) c')
        (if c' = 4 then ((Function.update (fun _ => []) 4 [4192] : Nat → List Nat) 4).erase 4192
          else (Function.update (fun _ => []) 4 [4192] : Nat → List Nat) c')) ∧
    (∀ b ∈ [(⟨4192, 512, false⟩ : Blk)],
      (reset_free heap1 4192).mem (get_header b.addr) = heap1.mem (get_header b.addr) ∧
      (reset_free heap1 4192).mem (get_footer heap1 b.addr) =
        heap1.mem (get_footer heap1 b.addr)) ∧
    (∀ (t : Heap) (x : Nat), get_ptr t x = 0 → get_ptr t (x + WSIZE) = 0 →
      reset_free t x = t) :=
  ⟨by simp, C20_reset_free_unlinks heap1_inv.1.toFInv (by decide) (by simp)⟩


/-- C21: for every size `z`, `pick_root(z)` is the class of the table: `0` for
`z <= 32`, `1` for `32 < z <= 64`, `2` for `64 < z <= 128`, `3` for
`128 < z <= 256`, `4` for `256 < z <= 512`, `5` for `512 < z <= 1024`, `6`
for `1024 < z <= 8192`, `7` for `8192 < z <= 16384` and `8` for
`z > 16384`; the result is at most `8`, and `pick_root` is monotone. -/
theorem C21_pick_root_size_classes (z : Nat) :
    ((z ≤ 32 ∧ pick_root z = 0) ∨ (32 < z ∧ z ≤ 64 ∧ pick_root z = 1) ∨
      (64 < z ∧ z ≤ 128 ∧ pick_root z = 2) ∨ (128 < z ∧ z ≤ 256 ∧ pick_root z = 3) ∨
      (256 < z ∧ z ≤ 512 ∧ pick_root z = 4) ∨ (512 < z ∧ z ≤ 1024 ∧ pick_root z = 5) ∨
      (1024 < z ∧ z ≤ 8192 ∧ pick_root z = 6) ∨ (8192 < z ∧ z ≤ 16384 ∧ pick_root z = 7) ∨
      (16384 < z ∧ pick_root z = 8)) ∧
    pick_root z ≤ 8 ∧ (∀ y, z ≤ y → pick_root z ≤ pick_root y) := by
  refine ⟨pick_root_table z, ?_, fun y h => pick_root_mono h⟩
  have := pick_root_lt z
  omega

/-- C22 (code defect): after `mm_init` and `p = malloc(16)`, which returns
`4192` with a block of total size 32, `realloc(p, SIZE_MAX)` takes the
allocate-copy-free path: `32` is not `SIZE_MAX + 16` in `size_t`, the inner
`malloc(SIZE_MAX)` returns the non-null `q = 4224`, a block of total size 16,
and since `SIZE_MAX` exceeds the old payload the copy is passed the old total
size, 32 bytes.  That is more than `get_size(header(q)) - 16 = 0`, and the
copy stores over the footer of `q` (the word at `q`, `17` before and `4128`
after) and over the header of the block behind `q` (the word at `q + 8`,
`464` before and `0` after). -/
theorem C22_realloc_size_max_copy_overruns :
    ∃ p s q s1, malloc 16 heap1 16 = some (p, s) ∧ p ≠ 0 ∧
      malloc 16 s SIZE_MAX = some (q, s1) ∧ q ≠ 0 ∧
      realloc 16 s p SIZE_MAX = some (q, free (mm_memcpy s1 q p 32) p) ∧
      get_size s (get_header p) = 32 ∧
      get_size s (get_header p) ≠ add64 SIZE_MAX DSIZE ∧
      SIZE_MAX > sub64 (get_size s (get_header p)) DSIZE ∧
      get_size s1 (get_header q) - 16 = 0 ∧
      ¬ (32 ≤ get_size s1 (get_header q) - 16) ∧
      get_footer s1 q = q ∧
      s1.mem (get_footer s1 q) = 17 ∧
      (mm_memcpy s1 q p 32).mem (get_footer s1 q) = 4128 ∧
      get_header (get_nextblk s1 q) = q + 8 ∧
      s1.mem (q + 8) = 464 ∧ (mm_memcpy s1 q p 32).mem (q + 8) = 0 := by
  refine ⟨4192, _, 4224, _, rfl, ?_, rfl, ?_, rfl, ?_⟩
  · decide
  · decide
  · decide

/-! ## The claims settled on concrete runs -/

/-- C2 (code defect): after `mm_init`, `malloc(SIZE_MAX)` returns the non-null
pointer `4192`; `align(SIZE_MAX)` wraps to `0`, so the block placed there has
total size 16, is marked allocated, and its payload capacity
`get_size(header(p)) - 16` is `0`, not at least `SIZE_MAX`. -/
theorem C2_malloc_size_max_capacity_zero :
    ∃ p s, malloc 16 heap1 SIZE_MAX = some (p, s) ∧ p = 4192 ∧ p ≠ 0 ∧
      align SIZE_MAX = 0 ∧
      get_alloc s (get_header p) = true ∧
      get_size s (get_header p) = 16 ∧
      get_size s (get_header p) - 16 < SIZE_MAX :=
  ⟨4192, allocate heap1 4192 (align SIZE_MAX), by rfl, rfl, by decide, by decide,
    by decide, by decide, by decide⟩

/-- C1 (code defect): after `mm_init`, `malloc(SIZE_MAX)` returns the non-null
pointer `p = 4192` although the heap ends at `4704`, so `[p, p + SIZE_MAX)`
does not lie inside the heap; the range starts on the footer word of the
16-byte block placed at `p` and covers the header word of the next block.
Also `malloc(2^64 - 16)` followed by `malloc(16)` returns the same pointer
twice, so two live payloads overlap. -/
theorem C1_malloc_range_not_in_heap :
    (∃ p s, malloc 16 heap1 SIZE_MAX = some (p, s) ∧ p ≠ 0 ∧
      s.brk = 4704 ∧ s.brk < p + SIZE_MAX ∧
      get_footer s p = p ∧ get_header (get_nextblk s p) = p + 8) ∧
    (∃ p s q t, malloc 16 heap1 (SIZE_MOD - 16) = some (p, s) ∧ p ≠ 0 ∧
      malloc 16 s 16 = some (q, t) ∧ q = p) := by
  refine ⟨⟨4192, _, rfl, ?_⟩, ⟨4192, _, 4192, _, rfl, ?_, rfl, rfl⟩⟩
  · decide
  · decide

/-- C4 (code defect): after `mm_init`, `a = malloc(16)`, `p = malloc(480)`,
`free(a)`, the live block `p` has payload capacity 480; `realloc(p, SIZE_MAX)`
returns the non-null pointer `q = 4192`, and the byte at `q + 8` after the
call is `240` while the byte at `p + 8` before the call was `0`, although
`8 < min(SIZE_MAX, 480)`. -/
theorem C4_realloc_size_max_loses_bytes :
    ∃ a sa p sp q sq, malloc 16 heap1 16 = some (a, sa) ∧
      malloc 16 sa 480 = some (p, sp) ∧ p ≠ 0 ∧
      get_size (free sp a) (get_header p) - 16 = 480 ∧
      realloc 16 (free sp a) p SIZE_MAX = some (q, sq) ∧ q ≠ 0 ∧
      8 < min SIZE_MAX 480 ∧
      byte_at (free sp a) (p + 8) = 0 ∧ byte_at sq (q + 8) = 240 := by
  refine ⟨4192, _, 4704, _, 4192, _, rfl, rfl, ?_, ?_, rfl, ?_⟩
  · decide
  · decide
  · decide

/-- C7 (code defect): after `mm_init`, `malloc(SIZE_MAX)` is served from the
existing free block (the search finds `4192` and the heap is not extended),
but after `p = malloc(SIZE_MAX); free(p)` the block at `4192` has size 16
where it had size 512 before the pair, and the class-0 list, empty before,
has the head `4192`. -/
theorem C7_malloc_free_size_max_not_restored :
    ∃ p s, malloc 16 heap1 SIZE_MAX = some (p, s) ∧ p ≠ 0 ∧
      find_free_list heap1 16 (add64 (align SIZE_MAX) DSIZE) = some p ∧
      s.brk = heap1.brk ∧
      get_size heap1 (get_header 4192) = 512 ∧
      get_size (free s p) (get_header 4192) = 16 ∧
      get_ptr heap1 (root_array heap1 0) = 0 ∧
      get_ptr (free s p) (root_array (free s p) 0) = 4192 := by
  refine ⟨4192, _, rfl, ?_⟩
  decide

/-- C8 (counterexample): after `mm_init` and `p = malloc(8)`, which returns
`4192`, `realloc(p, 8)` returns `4224`, a pointer other than `p`. -/
theorem C8_realloc_8_moves :
    ∃ p s q t, malloc 16 heap1 8 = some (p, s) ∧ p ≠ 0 ∧
      realloc 16 s p 8 = some (q, t) ∧ p = 4192 ∧ q = 4224 ∧ q ≠ p := by
  refine ⟨4192, _, 4224, _, rfl, ?_, rfl, ?_⟩
  · decide
  · decide

/-- C9 (code defect): after `mm_init`, allocating the one block
`p = malloc(SIZE_MAX)` (which succeeds) and freeing it leaves a heap of 608
bytes whose first block has size 16, not `608 - 96 = 512`; the lists of
class 0 and of class 4 are both non-empty, and the node on the class-4 list
has size 0. -/
theorem C9_alloc_free_size_max_not_coalesced :
    ∃ p s, malloc 16 heap1 SIZE_MAX = some (p, s) ∧ p ≠ 0 ∧
      (free s p).brk - (free s p).heap_listp = 608 ∧
      get_size (free s p) (get_header ((free s p).heap_listp + 96)) = 16 ∧
      get_ptr (free s p) (root_array (free s p) 0) = 4192 ∧
      get_ptr (free s p) (root_array (free s p) 4) = 4208 ∧
      get_size (free s p) (get_header 4208) = 0 := by
  refine ⟨4192, _, rfl, ?_⟩
  decide

/-- C10 (counterexample): after `mm_init(); a = malloc(24); b = malloc(24);
c = malloc(24); free(b)` the class-0 list is empty, so it is not the list
whose one node is `b`. -/
theorem C10_class0_empty :
    ∃ a sa b sb c sc, malloc 16 heap1 24 = some (a, sa) ∧
      malloc 16 sa 24 = some (b, sb) ∧ malloc 16 sb 24 = some (c, sc) ∧
      b ≠ 0 ∧ get_ptr (free sc b) (root_array (free sc b) 0) = 0 ∧
      ¬ (get_ptr (free sc b) (root_array (free sc b) 0) = b) := by
  refine ⟨4192, _, 4240, _, 4288, _, rfl, rfl, rfl, ?_⟩
  decide


/-- C3 (code defect): the provider `heap_low` has the 16-byte-aligned base
`192`.  After `mm_init(); p = malloc(SIZE_MAX); free(p); q = malloc(200);
free(q)`, every call on a pointer that was returned and is still live,
`malloc(16)` returns the non-null pointer `224 = heap_listp + 32`, the address
of a root cell; it lies below the prologue words at `heap_listp + 80` and
`heap_listp + 88`, not strictly above them.  On the provider `heap0`, with
the base `4096`, the same happens after `mm_init(); a = malloc(16);
p = malloc(SIZE_MAX); q = malloc(4096); free(p); free(q); free(a)`:
`malloc(16)` returns `4112 = heap_listp + 16`. -/
theorem C3_malloc_returns_root_cell :
    (∃ s0 p s1 q s2 r s3, heap_low.brk % 16 = 0 ∧ mm_init heap_low = (true, s0) ∧
      malloc 16 s0 SIZE_MAX = some (p, s1) ∧ p ≠ 0 ∧
      malloc 16 (free s1 p) 200 = some (q, s2) ∧ q ≠ 0 ∧
      malloc 16 (free s2 q) 16 = some (r, s3) ∧ r ≠ 0 ∧
      s3.heap_listp = 192 ∧ r = root_array s3 4 ∧ r < s3.heap_listp + 80 ∧
      ¬ (s3.heap_listp + 88 < r)) ∧
    (∃ a sa p sp q sq r sr, heap0.brk % 16 = 0 ∧ mm_init heap0 = (true, heap1) ∧
      malloc 16 heap1 16 = some (a, sa) ∧
      malloc 16 sa SIZE_MAX = some (p, sp) ∧ malloc 16 sp 4096 = some (q, sq) ∧
      a ≠ 0 ∧ p ≠ 0 ∧ q ≠ 0 ∧
      malloc 16 (free (free (free sq p) q) a) 16 = some (r, sr) ∧ r ≠ 0 ∧
      sr.heap_listp = 4096 ∧ r = root_array sr 2 ∧ r < sr.heap_listp + 80 ∧
      ¬ (sr.heap_listp + 88 < r)) := by
  refine ⟨⟨_, 288, _, 800, _, 224, _, rfl, rfl, rfl, ?_, rfl, ?_, rfl, ?_⟩,
    ⟨4192, _, 4224, _, 4704, _, 4112, _, rfl, rfl, rfl, rfl, rfl, ?_, ?_, ?_, rfl, ?_⟩⟩
  · decide
  · decide
  · decide
  · decide
  · decide
  · decide
  · decide

/-- C11 (code defect): after `mm_init(); p = malloc(SIZE_MAX); free(p)` the
block at `p` is free, and the block that follows it, at `p + size`, lies
inside the heap and its header has `alloc = 0` too. -/
theorem C11_adjacent_free_after_size_max :
    ∃ p s, malloc 16 heap1 SIZE_MAX = some (p, s) ∧ p ≠ 0 ∧
      get_alloc (free s p) (get_header p) = false ∧
      get_nextblk (free s p) p = p + 16 ∧
      get_nextblk (free s p) p < (free s p).brk - 8 ∧
      get_alloc (free s p) (get_header (get_nextblk (free s p) p)) = false := by
  refine ⟨4192, _, rfl, ?_⟩
  decide

/-- C12 (code defect): after `mm_init(); p = malloc(SIZE_MAX); free(p)` the
head of the class-4 list is the block at `4208`, whose header has
`alloc = 0` and size `0`, and `pick_root(0)` is `0`, not `4`: a free block is
on a list other than the one of its size. -/
theorem C12_listed_in_wrong_class :
    ∃ p s, malloc 16 heap1 SIZE_MAX = some (p, s) ∧ p ≠ 0 ∧
      get_ptr (free s p) (root_array (free s p) 4) = 4208 ∧
      get_alloc (free s p) (get_header 4208) = false ∧
      pick_root (get_size (free s p) (get_header 4208)) = 0 ∧
      pick_root (get_size (free s p) (get_header 4208)) ≠ 4 := by
  refine ⟨4192, _, rfl, ?_⟩
  decide

/-- C13 (code defect): after `mm_init(); p = malloc(SIZE_MAX); free(p)` the
block at `p` is free (it is the head of the class-0 list and its header has
`alloc = 0`), its header holds the size `16`, which is less than `32`, and
the word at `p + size - 16`, its footer, holds the size `4096`, not `16`. -/
theorem C13_free_block_of_size_16 :
    ∃ p s, malloc 16 heap1 SIZE_MAX = some (p, s) ∧ p ≠ 0 ∧
      get_ptr (free s p) (root_array (free s p) 0) = p ∧
      get_alloc (free s p) (get_header p) = false ∧
      get_size (free s p) (get_header p) = 16 ∧
      get_size (free s p) (get_header p) < 32 ∧
      get_size (free s p) (get_footer (free s p) p) = 4096 := by
  refine ⟨4192, _, rfl, ?_⟩
  decide

/-- C14 (counterexample): `mm_init` succeeds on the provider `heap0`, whose
heap starts at `4096`, and afterwards heap word 11, at byte offset 88, holds
`512`: size 512 with `alloc = 0`, the header of the first block, not size 16
with `alloc = 1`. -/
theorem C14_word11_is_first_header :
    (mm_init heap0).1 = true ∧ heap1.heap_listp = 4096 ∧
      heap1.mem (heap1.heap_listp + 88) = 512 ∧
      get_header (heap1.heap_listp + 96) = heap1.heap_listp + 88 ∧
      get_size heap1 (heap1.heap_listp + 88) = 512 ∧
      get_alloc heap1 (heap1.heap_listp + 88) = false := by
  decide

/-- C18 (code defect): after `mm_init(); a = malloc(64); x = malloc(144);
b = malloc(96); y = malloc(48); free(a); free(b); c = malloc(64)`, all of them
succeeding, the class-2 list is `4432, 4608`: its head has size 112 and the
node behind the head has size 96, strictly smaller than the head. -/
theorem C18_head_not_smallest :
    ∃ a sa x sx b sb y sy c sc, malloc 16 heap1 64 = some (a, sa) ∧
      malloc 16 sa 144 = some (x, sx) ∧ malloc 16 sx 96 = some (b, sb) ∧
      malloc 16 sb 48 = some (y, sy) ∧
      malloc 16 (free (free sy a) b) 64 = some (c, sc) ∧
      a ≠ 0 ∧ x ≠ 0 ∧ b ≠ 0 ∧ y ≠ 0 ∧ c ≠ 0 ∧
      get_ptr sc (root_array sc 2) = 4432 ∧ get_ptr sc (4432 + WSIZE) = 4608 ∧
      get_ptr sc (4608 + WSIZE) = 0 ∧
      get_size sc (get_header 4432) = 112 ∧ get_size sc (get_header 4608) = 96 ∧
      get_size sc (get_header 4608) < get_size sc (get_header 4432) := by
  refine ⟨4192, _, 4272, _, 4432, _, 4544, _, 4192, _, rfl, rfl, rfl, rfl, rfl, ?_⟩
  decide

end MM
